import Mathlib

/-!
# Markup trees of `trees/elems.go`: cleaning, removal, cloning and reconciliation

A shallow embedding of the `Markup` node of package `trees` and of the methods
`Clean`, `Remove`, `UnRemove`, `AddChild`, `UseEventManager`, `LoadEvents`,
`EventID`, `AddMorpher`, `ApplyMorphers`, `Clone` and `Reconcile`, and of the
methods `Clone`, `Apply`, `Target` and `ID` of the struct `Event`.

Go pointers and slices are embedded as follows.

* A `*Markup` tree is a value of the inductive type `Markup`; a method that
  mutates its receiver returns the receiver's new state, and a method that
  mutates an argument returns the argument's new state as well.  The nodes of
  a tree are taken to be distinct objects.  Where two slots alias one object
  (the backing array of `e.children` during `Clean`), the aliasing is made
  explicit by a heap of objects addressed by index.
* A method that can stop with a runtime failure (nil interface call, slice
  bounds out of range) returns `Except Abort _`; `Abort.panic` is the runtime
  failure, `Abort.outOfFuel` is the embedding's own recursion bound.  The
  recursive methods take the height of the tree as their bound; the lemmas
  `Markup.Clean_eq`, `Markup.LoadEvents_eq` and `Markup.Reconcile_eq` show that
  they satisfy the recursive equations of the source, and the lemmas
  `Markup.Clean_ne_outOfFuel`, `Markup.LoadEvents_ne_outOfFuel` and
  `Markup.Reconcile_ne_outOfFuel` that the bound is never reached.
* An event sink (`events.EventManagers`) is a reference; it is embedded as a
  natural number naming the sink, and a call into a sink is recorded as a
  `SinkCall`.
* A `*Markup` can be nil only where the program itself stores nil: in the slots
  of a child list that `ApplyMorphers` has overwritten and in its result.  The
  type `Morphed` is a tree whose slots hold a node or nil; a morpher is a
  function from `Morphed` to a `Morphed` or nothing, named by a number.
* What a call has written in a tree is stated by comparing the tree after the
  call with the tree before it: `Markup.survives` for a tree that has lost
  children (every node left is a node it had, at its place), `Markup.grownFrom`
  for a tree that has gained children at the end of child lists.
-/

namespace trees

/-- Why a run stopped without a result. -/
inductive Abort where
  | panic
  | outOfFuel
  deriving DecidableEq, Repr

/-- Modelled from the spec: `Property`, `Attribute` and `NewAttr` are declared
outside the source files at hand.  The spec gives a property as an immutable
`{name, value}` pair whose equality is by name and value. -/
structure Property where
  name : String
  value : String
  deriving DecidableEq, Repr

/-- Modelled from the spec: `NewAttr(name, value)` builds the attribute
`{name, value}`. -/
def NewAttr (name value : String) : Property := ⟨name, value⟩

/-- The struct `Event` of `events.go`.  The field `Tree` is either nil or the
node the event was applied to; `Tree` records which of the two.  The field
`Remove` (an interface value used by the dispatch runtime) carries no data of
the tree and is left out.  `EvType` is the field `Type`. -/
structure Event where
  EvType : String
  PreventDefault : Bool
  StopPropagation : Bool
  UseCapture : Bool
  StopImmediatePropagation : Bool
  Tree : Bool
  secTarget : String
  deriving DecidableEq, Repr

/-- The scalar and list fields of `Markup` other than `children`.  `morphers`,
`finalizers` and `onceFinalizers` hold function values, embedded as the names
of those functions; `eventManager` is `none` for a nil sink. -/
structure Fields where
  removed : Bool
  autoclose : Bool
  allowEvents : Bool
  allowChildren : Bool
  allowStyles : Bool
  allowAttributes : Bool
  uid : String
  hash : String
  tagname : String
  textContent : String
  events : List Event
  styles : List Property
  attrs : List Property
  morphers : List Nat
  finalizers : List Nat
  onceFinalizers : List Nat
  eventManager : Option Nat
  deriving DecidableEq, Repr

/-- The struct `Markup`: its fields and its ordered children. -/
inductive Markup where
  | mk (fields : Fields) (children : List Markup)
  deriving Repr

namespace Markup

/-- The fields of a node other than its children. -/
def fields : Markup → Fields
  | mk f _ => f

/-- The field `children` (method `Children`). -/
def children : Markup → List Markup
  | mk _ cs => cs

/-- Assignment to `e.children`. -/
def setChildren : Markup → List Markup → Markup
  | mk f _, cs => mk f cs

/-- Assignment to fields of `e` other than `children`. -/
def setFields : Markup → Fields → Markup
  | mk _ cs, f => mk f cs

/-- Method `Name`. -/
def Name (e : Markup) : String := e.fields.tagname

/-- Method `UID`. -/
def UID (e : Markup) : String := e.fields.uid

/-- Method `Hash`. -/
def Hash (e : Markup) : String := e.fields.hash

/-- Method `TextContent`. -/
def TextContent (e : Markup) : String := e.fields.textContent

/-- Method `Removed`. -/
def Removed (e : Markup) : Bool := !!e.fields.removed

/-- Method `Attributes`. -/
def Attributes (e : Markup) : List Property := e.fields.attrs

/-- Method `Styles`. -/
def Styles (e : Markup) : List Property := e.fields.styles

/-- Method `SwapUID`. -/
def SwapUID (e : Markup) (uid : String) : Markup :=
  e.setFields { e.fields with uid := uid }

/-- Method `SwapHash`. -/
def SwapHash (e : Markup) (hash : String) : Markup :=
  e.setFields { e.fields with hash := hash }

/-- Method `Remove`: a node not yet marked removed gets the `NodeRemoved`
attribute appended and its `removed` flag set. -/
def Remove (e : Markup) : Markup :=
  if !e.Removed then
    e.setFields { e.fields with attrs := e.fields.attrs ++ [⟨"NodeRemoved", ""⟩], removed := true }
  else e

end Markup

mutual
/-- Number of levels of a tree (a node without children has height 1). -/
def Markup.height : Markup → Nat
  | .mk _ cs => heightList cs + 1
/-- Largest height among a list of trees. -/
def heightList : List Markup → Nat
  | [] => 0
  | c :: cs => max c.height (heightList cs)
end

/-! ## Clean -/

/-- State of the loop of `Clean`.  `heap` holds the child objects, addressed by
their position in the child list at entry; `arr` is the backing array of
`e.children` (one object address per slot); `len` is the current
`len(e.children)`. -/
structure CleanState where
  arr : List Nat
  len : Nat
  heap : List Markup
  deriving Repr

/-- One iteration of `for n, elm := range e.children` in `Clean`.  The range
expression was evaluated once, so `elm` is read from slot `n` of the backing
array whatever the current length is.  `rec` is the recursive `Clean`. -/
def cleanStep (rec : Markup → Except Abort Markup) (st : CleanState) (n : Nat) :
    Except Abort CleanState :=
  match st.arr[n]? with
  | none => .error .panic
  | some a =>
    match st.heap[a]? with
    | none => .error .panic
    | some elm =>
      if elm.Removed then
        -- `e.children[n+1:]` needs `n+1 ≤ len(e.children)`
        if st.len < n + 1 then .error .panic
        else
          -- `copy(e.children[n:], e.children[n+1:])`, then drop the last slot
          .ok { st with
                arr := st.arr.take n ++ ((st.arr.drop (n + 1)).take (st.len - (n + 1))
                         ++ st.arr.drop (st.len - 1))
                len := st.len - 1 }
      else
        match rec elm with
        | .error x => .error x
        | .ok elm1 => .ok { st with heap := st.heap.set a elm1 }

/-- The iterations `ns` of the loop of `Clean`, in order. -/
def cleanLoop (rec : Markup → Except Abort Markup) :
    CleanState → List Nat → Except Abort CleanState
  | st, [] => .ok st
  | st, n :: ns =>
    match cleanStep rec st n with
    | .error x => .error x
    | .ok st1 => cleanLoop rec st1 ns

/-- Body of method `Clean`; `rec` is the recursive `Clean`.  At entry slot `n`
of the backing array holds child `n`; at exit the child list is the first
`len` slots. -/
def cleanBody (rec : Markup → Except Abort Markup) (e : Markup) : Except Abort Markup :=
  let cs := e.children
  match cleanLoop rec ⟨List.range cs.length, cs.length, cs⟩ (List.range cs.length) with
  | .error x => .error x
  | .ok st => .ok (e.setChildren ((st.arr.take st.len).filterMap (st.heap[·]?)))

/-- Method `Clean`, with a bound on the recursion depth. -/
def CleanFuel : Nat → Markup → Except Abort Markup
  | 0, _ => .error .outOfFuel
  | fuel + 1, e => cleanBody (CleanFuel fuel) e

/-- Method `Clean`. -/
def Markup.Clean (e : Markup) : Except Abort Markup := CleanFuel e.height e

/-! ## Event sinks: UseEventManager, LoadEvents, AddChild -/

/-- A call into an event sink (interface `events.EventManagers`).  The sink
lives outside the tree; what a node does to it is the sequence of calls it
issues. -/
inductive SinkCall where
  | DisconnectRemoved (sink : Nat)
  | NewEventMeta (sink : Nat) (ev : Event)
  | AttachManager (sink other : Nat)
  deriving DecidableEq, Repr

/-- The assignment `e.eventManager = man`. -/
def Markup.setEventManager (e : Markup) (man : Option Nat) : Markup :=
  e.setFields { e.fields with eventManager := man }

/-- Method `UseEventManager`, with `load` standing for the method `LoadEvents`
it calls.  Calling `man.AttachManager` on a nil `man` is a runtime failure. -/
def UseEventManagerWith (load : Markup → Except Abort (Markup × List SinkCall))
    (e : Markup) (man : Option Nat) : Except Abort (Bool × Markup × List SinkCall) :=
  match e.fields.eventManager with
  | some own =>
    match man with
    | none => .error .panic
    | some m => .ok (false, e, [.AttachManager m own])
  | none =>
    match load (e.setEventManager man) with
    | .error x => .error x
    | .ok (e1, log) => .ok (true, e1, log)

/-- Body of the loop over the children in `LoadEvents`:
`if !ems.UseEventManager(e.eventManager) { ems.LoadEvents() }`. -/
def loadChild (load : Markup → Except Abort (Markup × List SinkCall))
    (man : Option Nat) (ems : Markup) : Except Abort (Markup × List SinkCall) :=
  match UseEventManagerWith load ems man with
  | .error x => .error x
  | .ok (true, ems1, log) => .ok (ems1, log)
  | .ok (false, ems1, log) =>
    match load ems1 with
    | .error x => .error x
    | .ok (ems2, log2) => .ok (ems2, log ++ log2)

/-- The loop over the children in `LoadEvents`. -/
def loadChildren (load : Markup → Except Abort (Markup × List SinkCall))
    (man : Option Nat) : List Markup → Except Abort (List Markup × List SinkCall)
  | [] => .ok ([], [])
  | c :: cs =>
    match loadChild load man c with
    | .error x => .error x
    | .ok (c1, log1) =>
      match loadChildren load man cs with
      | .error x => .error x
      | .ok (cs1, log2) => .ok (c1 :: cs1, log1 ++ log2)

/-- Body of method `LoadEvents`; `load` is the recursive `LoadEvents`.  With a
sink bound, the node issues `DisconnectRemoved` and one `NewEventMeta` per
event; then every child is visited. -/
def loadEventsBody (load : Markup → Except Abort (Markup × List SinkCall)) (e : Markup) :
    Except Abort (Markup × List SinkCall) :=
  let own : List SinkCall :=
    match e.fields.eventManager with
    | none => []
    | some s => .DisconnectRemoved s :: e.fields.events.map (.NewEventMeta s)
  match loadChildren load e.fields.eventManager e.children with
  | .error x => .error x
  | .ok (cs, log) => .ok (e.setChildren cs, own ++ log)

/-- Method `LoadEvents`, with a bound on the recursion depth. -/
def LoadEventsFuel : Nat → Markup → Except Abort (Markup × List SinkCall)
  | 0, _ => .error .outOfFuel
  | fuel + 1, e => loadEventsBody (LoadEventsFuel fuel) e

/-- Method `LoadEvents`. -/
def Markup.LoadEvents (e : Markup) : Except Abort (Markup × List SinkCall) :=
  LoadEventsFuel e.height e

/-- Method `UseEventManager`. -/
def Markup.UseEventManager (e : Markup) (man : Option Nat) :
    Except Abort (Bool × Markup × List SinkCall) :=
  UseEventManagerWith Markup.LoadEvents e man

/-- The loop of `AddChild`: each child is appended to `e.children` and bound to
the sink of `e`.  The result holds the new state of `e`, the new states of the
children handled so far (`seen`) and the sink calls. -/
def addChildren : Markup → List Markup → List SinkCall → List Markup →
    Except Abort (Markup × List Markup × List SinkCall)
  | e, seen, log, [] => .ok (e, seen, log)
  | e, seen, log, ch :: rest =>
    match ch.UseEventManager e.fields.eventManager with
    | .error x => .error x
    | .ok (_, ch1, log1) =>
      addChildren (e.setChildren (e.children ++ [ch1])) (seen ++ [ch1]) (log ++ log1) rest

/-- Method `AddChild` (variadic).  Returns the new state of `e`, the new states
of the children passed in, and the sink calls issued. -/
def Markup.AddChild (e : Markup) (child : List Markup) :
    Except Abort (Markup × List Markup × List SinkCall) :=
  if !e.fields.allowChildren then .ok (e, child, [])
  else addChildren e [] [] child

/-! ## Reconcile -/

/-- Modelled from the spec: `EqualAttributes` is not in the source files at
hand.  The spec gives it as order-insensitive multiset equality of the two
nodes' attributes as name and value pairs. -/
def EqualAttributes (e em : Markup) : Bool := e.Attributes.isPerm em.Attributes

/-- Modelled from the spec: `EqualStyles` is not in the source files at hand.
The spec gives it as order-insensitive multiset equality of the two nodes'
styles as name and value pairs. -/
def EqualStyles (e em : Markup) : Bool := e.Styles.isPerm em.Styles

/-- Modelled from the spec: `ReconcileEvents` is not in the source files at
hand.  The spec gives it no effect on either node's identity fields, children,
attributes, styles or removed markers, and names dropping stale registrations
through the bound sink as its only action, which `Reconcile` issues itself
right after the call. -/
def ReconcileEvents (e em : Markup) : Markup × Markup := (e, em)

/-- State of the loop over the old children in `Reconcile`: the new node `e`,
the old children visited so far in their new state, the flag `childChanged`
and the sink calls issued. -/
structure WalkState where
  e : Markup
  visited : List Markup
  childChanged : Bool
  log : List SinkCall
  deriving Repr

/-- The statements `och.Remove(); e.AddChild(och); childChanged = true`. -/
def walkRemove (st : WalkState) (och : Markup) : Except Abort WalkState :=
  match st.e.AddChild [och.Remove] with
  | .error x => .error x
  | .ok (e1, ochs, log) =>
    .ok { e := e1, visited := st.visited ++ ochs, childChanged := true, log := st.log ++ log }

/-- One iteration of `for n, och := range oldChildren` in `Reconcile`; `rec` is
the recursive `Reconcile`, `newChildren` the slice taken from `e.Children()`
before the loop.  The child read from slot `n` of `newChildren` is written
back, in its new state, to slot `n` of `e.children`. -/
def walkStep (rec : Markup → Markup → Except Abort (Bool × Markup × Markup × List SinkCall))
    (newChildren : List Markup) (st : WalkState) (n : Nat) (och : Markup) :
    Except Abort WalkState :=
  if newChildren.length > n then
    match newChildren[n]? with
    | none => .error .panic
    | some nch =>
      if nch.Name != och.Name then walkRemove st och
      else
        match rec nch och with
        | .error x => .error x
        | .ok (changed, nch1, och1, log) =>
          .ok { e := st.e.setChildren (st.e.children.set n nch1)
                visited := st.visited ++ [och1]
                childChanged := st.childChanged || changed
                log := st.log ++ log }
  else walkRemove st och

/-- The loop `for n, och := range oldChildren` in `Reconcile`, from index `n`
on. -/
def walk (rec : Markup → Markup → Except Abort (Bool × Markup × Markup × List SinkCall))
    (newChildren : List Markup) : WalkState → Nat → List Markup → Except Abort WalkState
  | st, _, [] => .ok st
  | st, n, och :: rest =>
    match walkStep rec newChildren st n och with
    | .error x => .error x
    | .ok st1 => walk rec newChildren st1 (n + 1) rest

/-- Body of method `Reconcile`; `rec` is the recursive `Reconcile`, `e` the
receiver (the new node), `em` the old node.  The result is the returned
boolean, the new states of `e` and of `em`, and the sink calls issued. -/
def reconcileBody (rec : Markup → Markup → Except Abort (Bool × Markup × Markup × List SinkCall))
    (e em : Markup) : Except Abort (Bool × Markup × Markup × List SinkCall) :=
  if e.Name != em.Name then .ok (false, e, em, [])
  else
    match em.Clean with
    | .error x => .error x
    | .ok em1 =>
      let e1 := e.SwapUID em1.UID
      let oldHash := em1.Hash
      if e1.Name == "text" then
        if e1.TextContent == em1.TextContent then .ok (false, e1.SwapHash oldHash, em1, [])
        else .ok (true, e1, em1, [])
      else
        let newChildren := e1.children
        let oldChildren := em1.children
        let maxSize := newChildren.length
        let oldMaxSize := oldChildren.length
        let attrChanged := EqualAttributes e1 em1
        let styleChanged := EqualStyles e1 em1
        if maxSize < 1 then
          if oldMaxSize > 1 then .ok (true, e1, em1, [])
          else if !attrChanged || !styleChanged then .ok (true, e1, em1, [])
          else .ok (false, e1.SwapHash oldHash, em1, [])
        else
          match walk rec newChildren ⟨e1, [], false, []⟩ 0 oldChildren with
          | .error x => .error x
          | .ok st =>
            let (e2, em2) := ReconcileEvents st.e (em1.setChildren st.visited)
            let log :=
              match e2.fields.eventManager with
              | none => st.log
              | some s => st.log ++ [.DisconnectRemoved s]
            if !st.childChanged && attrChanged && styleChanged then
              .ok (false, e2.SwapHash oldHash, em2, log)
            else .ok (true, e2, em2, log)

/-- Method `Reconcile`, with a bound on the recursion depth. -/
def ReconcileFuel : Nat → Markup → Markup →
    Except Abort (Bool × Markup × Markup × List SinkCall)
  | 0, _, _ => .error .outOfFuel
  | fuel + 1, e, em => reconcileBody (ReconcileFuel fuel) e em

/-- Method `Reconcile`: `e.Reconcile em` is the call `e.Reconcile(em)`. -/
def Markup.Reconcile (e em : Markup) : Except Abort (Bool × Markup × Markup × List SinkCall) :=
  ReconcileFuel e.height e em

/-! ## Construction and Clone -/

/-- Modelled from the spec: `RandString` is not in the source files at hand.
The spec asks for fresh random identity strings; the generator is embedded as
a source of strings, indexed by the requested length and the number of the
draw, together with the number of draws made so far. -/
structure Rand where
  source : Nat → Nat → String
  draws : Nat

/-- Modelled from the spec: `RandString(n)` is the next string of length `n`
drawn from the generator. -/
def RandString (n : Nat) (g : Rand) : String × Rand :=
  (g.source n g.draws, { g with draws := g.draws + 1 })

/-- The standard function `unicode.IsSpace`: the white space characters of
Unicode, which are U+0009 to U+000D, U+0020, U+0085, U+00A0, U+1680, U+2000 to
U+200A, U+2028, U+2029, U+202F, U+205F and U+3000. -/
def IsSpace (c : Char) : Bool :=
  (0x09 ≤ c.toNat && c.toNat ≤ 0x0D) || c.toNat == 0x20 || c.toNat == 0x85 ||
  c.toNat == 0xA0 || c.toNat == 0x1680 || (0x2000 ≤ c.toNat && c.toNat ≤ 0x200A) ||
  c.toNat == 0x2028 || c.toNat == 0x2029 || c.toNat == 0x202F || c.toNat == 0x205F ||
  c.toNat == 0x3000

/-- The standard function `strings.TrimSpace`: the string without its leading
and trailing white space, as `unicode.IsSpace` defines it. -/
def TrimSpace (s : String) : String :=
  String.mk ((s.data.dropWhile IsSpace).reverse.dropWhile IsSpace).reverse

/-- The standard function `strings.ToLower` on the ASCII letters, which is
what it computes on a string of ASCII characters.  A letter outside ASCII is
left as it is, where the library maps it by the case tables of Unicode; those
tables are not embedded. -/
def ToLower (s : String) : String := String.mk (s.data.map Char.toLower)

/-- Function `NewMarkup`. -/
def NewMarkup (tag : String) (hasNoEndingTag : Bool) (g : Rand) : Markup × Rand :=
  let (uid, g1) := RandString 8 g
  let (hash, g2) := RandString 10 g1
  (.mk { removed := false
         autoclose := hasNoEndingTag
         allowEvents := true
         allowChildren := true
         allowStyles := true
         allowAttributes := true
         uid := uid
         hash := hash
         tagname := ToLower (TrimSpace tag)
         textContent := ""
         events := []
         styles := []
         attrs := [NewAttr "data-gen" "gu"]
         morphers := []
         finalizers := []
         onceFinalizers := []
         eventManager := none } [], g2)

/-- Function `NewText`. -/
def NewText (txt : String) (g : Rand) : Markup × Rand :=
  let (em, g1) := NewMarkup "text" false g
  (em.setFields { em.fields with
      allowChildren := false
      allowAttributes := false
      allowStyles := false
      allowEvents := false
      textContent := txt }, g1)

/-- Method `AddAttribute`. -/
def Markup.AddAttribute (e : Markup) (p : Property) : Markup :=
  e.setFields { e.fields with attrs := e.fields.attrs ++ [p] }

/-- Method `AddStyle`. -/
def Markup.AddStyle (e : Markup) (p : Property) : Markup :=
  e.setFields { e.fields with styles := e.fields.styles ++ [p] }

/-- Method `AddEvent`. -/
def Markup.AddEvent (e : Markup) (ev : Event) : Markup :=
  e.setFields { e.fields with events := e.fields.events ++ [ev] }

/-- Modelled from the spec: the method `Apply` of an attribute is not in the
source files at hand.  By the spec a node that disallows attributes silently
ignores the addition; otherwise the attribute is added to the node. -/
def ApplyAttribute (p : Property) (e : Markup) : Markup :=
  if e.fields.allowAttributes then e.AddAttribute p else e

/-- Modelled from the spec: the method `Apply` of a style is not in the source
files at hand.  By the spec a node that disallows styles silently ignores the
addition; otherwise the style is added to the node. -/
def ApplyStyle (p : Property) (e : Markup) : Markup :=
  if e.fields.allowStyles then e.AddStyle p else e

/-- Method `Event.Clone`: the copy has no tree. -/
def Event.Clone (ev : Event) : Event := { ev with Tree := false }

/-- Method `Event.Apply`: the node the event is applied to and the event, both
afterwards.  The assignment `e.Tree = ex` sets the field `Tree` of the event to
the node; the node receives a copy of the event so updated. -/
def Event.Apply (ev : Event) (ex : Markup) : Markup × Event :=
  if !ex.fields.allowEvents then (ex, ev)
  else (ex.AddEvent { ev with Tree := true }, { ev with Tree := true })

/-- Method `EventID`: the format `%s[uid='%s']` filled with the lower-case tag
name and the uid. -/
def Markup.EventID (e : Markup) : String :=
  ToLower e.Name ++ "[uid='" ++ e.UID ++ "']"

/-- Method `Event.Target`; `tree` is the node the field `Tree` points to, read
only when `Tree` is set. -/
def Event.Target (e : Event) (tree : Markup) : String :=
  if e.Tree then tree.EventID else e.secTarget

/-- Method `Event.ID`: the format `%s#%s` filled with the target and the type;
`tree` is the node the field `Tree` points to. -/
def Event.ID (e : Event) (tree : Markup) : String :=
  e.Target tree ++ "#" ++ e.EvType

mutual
/-- Method `Clone`.  The result is the copy, the generator afterwards and the
sink calls issued while the cloned children were added. -/
def Markup.Clone : Markup → Rand → Except Abort (Markup × Rand × List SinkCall)
  | .mk f cs, g =>
    let (co0, g1) := NewMarkup f.tagname f.autoclose g
    let co1 := co0.setFields { co0.fields with
      textContent := f.textContent
      allowChildren := f.allowChildren
      allowEvents := f.allowEvents
      allowAttributes := f.allowAttributes
      eventManager := f.eventManager }
    -- `if e.Removed() { co.Removed() }` reads the flag of `co` and drops it
    let co2 := f.styles.foldl (fun co so => ApplyStyle so co) co1
    let co3 := co2.setFields { co2.fields with allowStyles := f.allowStyles }
    let co4 := f.attrs.foldl (fun co ao => ApplyAttribute ao co) co3
    match cloneChildren cs co4 g1 [] with
    | .error x => .error x
    | .ok (co5, g2, log) =>
      let co6 := f.events.foldl (fun co ev => (ev.Clone.Apply co).1) co5
      .ok (co6.setFields { co6.fields with morphers := co6.fields.morphers ++ f.morphers }, g2, log)
/-- The loop `for _, ch := range e.children { ch.Clone().Apply(co) }` of
`Clone`, where `Apply` is `co.AddChild(clone)`. -/
def cloneChildren : List Markup → Markup → Rand → List SinkCall →
    Except Abort (Markup × Rand × List SinkCall)
  | [], co, g, log => .ok (co, g, log)
  | ch :: rest, co, g, log =>
    match ch.Clone g with
    | .error x => .error x
    | .ok (c1, g1, log1) =>
      match co.AddChild [c1] with
      | .error x => .error x
      | .ok (co1, _, log2) => cloneChildren rest co1 g1 (log ++ log1 ++ log2)
end

/-! ## UnRemove -/

/-- Modelled from the spec: the method `Render` of a property is not in the
source files at hand.  The spec gives a property a render operation; `UnRemove`
uses its first result as the name of the property. -/
def Property.Render (p : Property) : String × String := (p.name, p.value)

/-- Method `UnRemove`: a node marked removed gets its flag cleared and loses
the first attribute named `NodeRemoved`; a node not marked removed is left as
it is. -/
def Markup.UnRemove (e : Markup) : Markup :=
  if !e.Removed then e
  else
    e.setFields { e.fields with
      removed := false
      attrs := e.fields.attrs.eraseP (fun attr => attr.Render.1 == "NodeRemoved") }

/-! ## ApplyMorphers -/

/-- Method `AddMorpher` (variadic): the morphers named in `m` are appended. -/
def Markup.AddMorpher (e : Markup) (m : List Nat) : Markup :=
  e.setFields { e.fields with morphers := e.fields.morphers ++ m }

/-- A node as `ApplyMorphers` leaves it and hands it to the morphers: every slot
of the child list holds a node or nil, because `ApplyMorphers` stores in each
slot whatever the child's own `ApplyMorphers` returned. -/
inductive Morphed where
  | mk (fields : Fields) (children : List (Option Morphed))

/-- The fields of a node other than its children. -/
def Morphed.fields : Morphed → Fields
  | .mk f _ => f

/-- The slots of the child list. -/
def Morphed.children : Morphed → List (Option Morphed)
  | .mk _ cs => cs

mutual
/-- A tree without nil slots, as a tree whose slots may hold nil. -/
def Markup.toMorphed : Markup → Morphed
  | .mk f cs => .mk f (toMorphedList cs)
/-- A child list without nil slots, as a list of slots. -/
def toMorphedList : List Markup → List (Option Morphed)
  | [] => []
  | c :: cs => some c.toMorphed :: toMorphedList cs
end

/-- The loop `for _, morpher := range e.morphers` of `ApplyMorphers`, with the
current value of `base`.  Modelled from the spec as far as the morphers go: the
interface `Morpher` is not in the source files at hand; the spec gives a
morpher as a pure function from a node to a node or nothing, here `morph m`
for the morpher named `m`. -/
def morphFold (morph : Nat → Morphed → Option Morphed) (e : Morphed) :
    Option Morphed → List Nat → Option Morphed
  | base, [] => base
  | none, m :: ms => morphFold morph e (morph m e) ms
  | some b, m :: ms => morphFold morph e (morph m b) ms

mutual
/-- Method `ApplyMorphers`.  The result is the returned pointer (`none` for
nil) and the receiver with its child slots overwritten. -/
def Morphed.ApplyMorphers (morph : Nat → Morphed → Option Morphed) :
    Morphed → Except Abort (Option Morphed × Morphed)
  | .mk f cs =>
    match applyMorphersSlots morph cs with
    | .error x => .error x
    | .ok slots => .ok (morphFold morph (.mk f slots) none f.morphers, .mk f slots)
/-- The loop `for index, child := range e.children` of `ApplyMorphers`: slot
`index` receives what `child.ApplyMorphers()` returns.  The call on a nil child
dereferences nil. -/
def applyMorphersSlots (morph : Nat → Morphed → Option Morphed) :
    List (Option Morphed) → Except Abort (List (Option Morphed))
  | [] => .ok []
  | none :: _ => .error .panic
  | some child :: rest =>
    match child.ApplyMorphers morph with
    | .error x => .error x
    | .ok (r, _) =>
      match applyMorphersSlots morph rest with
      | .error x => .error x
      | .ok rs => .ok (r :: rs)
end

/-- Method `ApplyMorphers` on a tree without nil slots. -/
def Markup.ApplyMorphers (e : Markup) (morph : Nat → Morphed → Option Morphed) :
    Except Abort (Option Morphed × Morphed) :=
  e.toMorphed.ApplyMorphers morph

/-! ## Sample trees -/

/-- The element `NewMarkup(tag, false)` builds when the generator draws `uid`
and then `hash`, with `cs` as its children. -/
def element (tag uid hash : String) (cs : List Markup) : Markup :=
  .mk { removed := false, autoclose := false, allowEvents := true, allowChildren := true,
        allowStyles := true, allowAttributes := true, uid := uid, hash := hash,
        tagname := tag, textContent := "", events := [], styles := [],
        attrs := [NewAttr "data-gen" "gu"], morphers := [], finalizers := [],
        onceFinalizers := [], eventManager := none } cs

/-- The text node `NewText(txt)` builds when the generator draws `uid` and then
`hash`. -/
def textNode (uid hash txt : String) : Markup :=
  .mk { removed := false, autoclose := false, allowEvents := false, allowChildren := false,
        allowStyles := false, allowAttributes := false, uid := uid, hash := hash,
        tagname := "text", textContent := txt, events := [], styles := [],
        attrs := [NewAttr "data-gen" "gu"], morphers := [], finalizers := [],
        onceFinalizers := [], eventManager := none } []

/-- Old tree of the scenario `div > [span("a"), span("b")]`. -/
def scenarioOld : Markup :=
  element "div" "o" "g1" [element "span" "p1" "g2" [textNode "q1" "g3" "a"],
    element "span" "p2" "g4" [textNode "q2" "g5" "b"]]

/-- New tree of the scenario `div > [span("a"), span("c")]`. -/
def scenarioNew : Markup :=
  element "div" "n" "h1" [element "span" "s1" "h2" [textNode "t1" "h3" "a"],
    element "span" "s2" "h4" [textNode "t2" "h5" "c"]]

/-- State of `scenarioNew` after `scenarioNew.Reconcile(scenarioOld)`: every
node carries the uid of the old node at its position; the first `span` and its
text carry the old hashes, the root, the second `span` and its text keep their
own. -/
def scenarioNewAfter : Markup :=
  element "div" "o" "h1" [element "span" "p1" "g2" [textNode "q1" "g3" "a"],
    element "span" "p2" "h4" [textNode "q2" "h5" "c"]]

/-- Two sample morphers: the morpher named `0` returns a copy of its argument
with uid `m0`, every other morpher a copy with hash `m1`. -/
def sampleMorph (m : Nat) (x : Morphed) : Option Morphed :=
  if m = 0 then some (.mk { x.fields with uid := "m0" } x.children)
  else some (.mk { x.fields with hash := "m1" } x.children)

/-- Three sample morphers, one of which returns nothing: the morpher named `0`
returns a copy of its argument with uid `m0`, the morpher named `1` returns
nothing, every other morpher returns a copy with hash `m2`. -/
def sampleMorphNil (m : Nat) (x : Morphed) : Option Morphed :=
  if m = 0 then some (.mk { x.fields with uid := "m0" } x.children)
  else if m = 1 then none
  else some (.mk { x.fields with hash := "m2" } x.children)

/-! ## Predicates used to state the claims -/

mutual
/-- No node of the tree has an event sink bound. -/
def Markup.sinkFree : Markup → Bool
  | .mk f cs => f.eventManager.isNone && sinkFreeList cs
/-- No node of the trees of a list has an event sink bound. -/
def sinkFreeList : List Markup → Bool
  | [] => true
  | c :: cs => c.sinkFree && sinkFreeList cs
end

mutual
/-- No node below the root of the tree is marked removed. -/
def Markup.noRemovedBelow : Markup → Bool
  | .mk _ cs => noRemovedList cs
/-- No node of the trees of a list is marked removed. -/
def noRemovedList : List Markup → Bool
  | [] => true
  | c :: cs => !c.Removed && c.noRemovedBelow && noRemovedList cs
end

mutual
/-- The tree with every sink reference cleared: what a node is apart from the
sinks bound in it. -/
def Markup.eraseSinks : Markup → Markup
  | .mk f cs => .mk { f with eventManager := none } (eraseSinksList cs)
/-- The trees of a list with every sink reference cleared. -/
def eraseSinksList : List Markup → List Markup
  | [] => []
  | c :: cs => c.eraseSinks :: eraseSinksList cs
end

/-- The composition `mk(...(m2(m1(x)))...)` of the morphers named in `ms`,
applied to `x`; nothing as soon as one morpher returns nothing. -/
def morphChain (morph : Nat → Morphed → Option Morphed) : List Nat → Morphed → Option Morphed
  | [], x => some x
  | m :: ms, x =>
    match morph m x with
    | none => none
    | some y => morphChain morph ms y

mutual
/-- The tree with the sink `s` bound in every node. -/
def Markup.bindAll (s : Nat) : Markup → Markup
  | .mk f cs => .mk { f with eventManager := some s } (bindAllList s cs)
/-- The trees of a list with the sink `s` bound in every node. -/
def bindAllList (s : Nat) : List Markup → List Markup
  | [] => []
  | c :: cs => c.bindAll s :: bindAllList s cs
end

mutual
/-- For every node of the tree, parent before children and children in order:
the call `DisconnectRemoved` on the sink `s` followed by one `NewEventMeta` on
`s` for each event of the node. -/
def Markup.registrations (s : Nat) : Markup → List SinkCall
  | .mk f cs => (.DisconnectRemoved s :: f.events.map (.NewEventMeta s)) ++ registrationsList s cs
/-- The calls of `Markup.registrations` for the trees of a list, in order. -/
def registrationsList (s : Nat) : List Markup → List SinkCall
  | [] => []
  | c :: cs => c.registrations s ++ registrationsList s cs
end

/-- No positional child pair is flagged as changed: at every position held by
both child lists the tag names agree and the recursive `Reconcile` of the pair
returns false, and no old child lies beyond the new child count. -/
def NoChildFlagged (newChildren oldChildren : List Markup) : Prop :=
  (∀ (n : Nat) (nch och : Markup), newChildren[n]? = some nch → oldChildren[n]? = some och →
      nch.Name = och.Name ∧
      ∃ (nch1 och1 : Markup) (log : List SinkCall),
        nch.Reconcile och = .ok (false, nch1, och1, log)) ∧
  oldChildren.length ≤ newChildren.length

/-- The calls of `Reconcile` reached from the call `e.Reconcile(em)`: the call
itself, and, from a reached call on a same-tag, non-text pair `(p, pm)`, the
recursive call on each positional pair of a child of `p` and a child of the
cleaned `pm` that carry the same tag name. -/
inductive WalkReaches (e em : Markup) : Markup → Markup → Prop where
  | root : WalkReaches e em e em
  | child {p pm pmc d dm : Markup} {n : Nat} :
      WalkReaches e em p pm → p.Name = pm.Name → p.Name ≠ "text" → pm.Clean = .ok pmc →
      p.children[n]? = some d → pmc.children[n]? = some dm → d.Name = dm.Name →
      WalkReaches e em d dm

mutual
/-- The tree with the uid and the hash of every node blanked: what a tree is
apart from the two identity fields. -/
def Markup.eraseIdentity : Markup → Markup
  | .mk f cs => .mk { f with uid := "", hash := "" } (eraseIdentityList cs)
/-- The trees of a list with the uid and the hash of every node blanked. -/
def eraseIdentityList : List Markup → List Markup
  | [] => []
  | c :: cs => c.eraseIdentity :: eraseIdentityList cs
end

/-- The fields `f1` of a node after a call against its fields `f` before the
call: no field was written. -/
def Fields.untouched (f1 f : Fields) : Bool := f1 == f

/-- The fields `f1` of a node after a call against its fields `f` before the
call: at most the removed marker (the flag `removed` and the attribute list, to
which `Remove` appends `NodeRemoved`) and the sink were written; the uid, the
hash and every other field are as before. -/
def Fields.markerOnly (f1 f : Fields) : Bool :=
  f1 == { f with removed := f1.removed, attrs := f1.attrs, eventManager := f1.eventManager }

/-- The fields `f1` of a node after a call against its fields `f` before the
call: the uid and the hash are as before. -/
def Fields.sameIdentity (f1 f : Fields) : Bool := f1.uid == f.uid && f1.hash == f.hash

/-- The fields `f1` of a node after a call against its fields `f` before the
call: at most the uid and the hash were written. -/
def Fields.identityOnly (f1 f : Fields) : Bool :=
  f1 == { f with uid := f1.uid, hash := f1.hash }

mutual
/-- The tree `after` against the tree `before`, `after.survives R before`:
every node of `after` is a node of `before` at its place.  The root of `after`
is the root of `before`, its fields related by `R`, and the children of
`after` are, in order, some of the children of `before` (the others were
dropped from the child list), each related in the same way. -/
def Markup.survives (R : Fields → Fields → Bool) : Markup → Markup → Bool
  | .mk f1 cs1, .mk f cs => R f1 f && survivesList R cs1 cs
/-- The trees of the first list are, in order, some of the trees of the second
list, each related by `Markup.survives R`. -/
def survivesList (R : Fields → Fields → Bool) : List Markup → List Markup → Bool
  | [], _ => true
  | _ :: _, [] => false
  | c1 :: r1, c :: r => (c1.survives R c && survivesList R r1 r) || survivesList R (c1 :: r1) r
end

mutual
/-- The tree `after` against the tree `before`, `after.grownFrom before`: of
the fields of a node at most the uid and the hash were written, and the child
list of a node is the child list it had, position by position and each child
related in the same way, followed by any number of appended children. -/
def Markup.grownFrom : Markup → Markup → Bool
  | .mk f1 cs1, .mk f cs => Fields.identityOnly f1 f && grownFromList cs1 cs
/-- The first list is the second list, position by position and each tree
related by `Markup.grownFrom`, followed by any number of further trees. -/
def grownFromList : List Markup → List Markup → Bool
  | _, [] => true
  | [], _ :: _ => false
  | c1 :: r1, c :: r => c1.grownFrom c && grownFromList r1 r
end

mutual
/-- The pair of a new node and an old node matches at every level the walk of
`Reconcile` reaches: unless the new node is a text node (no walk), the old
node as `Clean` leaves it has no more children than the new node, and every
positional child pair carries the same tag name and matches in the same way.
A pair whose old node cannot be cleaned reaches no walk. -/
def Markup.matchedWith : Markup → Markup → Bool
  | .mk f cs, em =>
    if f.tagname == "text" then true
    else
      match em.Clean with
      | .error _ => true
      | .ok emc => decide (emc.children.length ≤ cs.length) && matchedList cs emc.children
/-- The positional pairs of a list of new children and a list of old children
carry the same tag names and match at every level the walk reaches. -/
def matchedList : List Markup → List Markup → Bool
  | c :: cs, o :: os => c.Name == o.Name && c.matchedWith o && matchedList cs os
  | _, _ => true
end

/-! ## Basic facts: heights, field accessors -/

theorem Markup.height_pos (e : Markup) : 0 < e.height := by
  cases e; simp [Markup.height]

theorem height_le_heightList {c : Markup} {cs : List Markup} (h : c ∈ cs) :
    c.height ≤ heightList cs := by
  induction cs with
  | nil => cases h
  | cons d ds ih =>
    simp only [heightList]
    rcases List.mem_cons.mp h with rfl | h
    · exact le_max_left _ _
    · exact le_trans (ih h) (le_max_right _ _)

theorem Markup.height_child {e c : Markup} (h : c ∈ e.children) : c.height < e.height := by
  cases e with
  | mk f cs =>
    simp only [Markup.height]
    exact Nat.lt_succ_of_le (height_le_heightList h)

@[simp] theorem Markup.setFields_children (e : Markup) (f : Fields) :
    (e.setFields f).children = e.children := by cases e; rfl

@[simp] theorem Markup.setFields_fields (e : Markup) (f : Fields) :
    (e.setFields f).fields = f := by cases e; rfl

@[simp] theorem Markup.setChildren_children (e : Markup) (cs : List Markup) :
    (e.setChildren cs).children = cs := by cases e; rfl

@[simp] theorem Markup.setChildren_fields (e : Markup) (cs : List Markup) :
    (e.setChildren cs).fields = e.fields := by cases e; rfl

theorem Markup.ext_fields_children {a b : Markup} (hf : a.fields = b.fields)
    (hc : a.children = b.children) : a = b := by
  cases a; cases b; simp only [Markup.fields, Markup.children] at hf hc; subst hf; subst hc; rfl

/-! ## Reconcile satisfies its defining equation -/

theorem walkStep_congr {rec1 rec2 : Markup → Markup → Except Abort (Bool × Markup × Markup × List SinkCall)}
    {nc : List Markup} (h : ∀ nch ∈ nc, ∀ och, rec1 nch och = rec2 nch och)
    (st : WalkState) (n : Nat) (och : Markup) :
    walkStep rec1 nc st n och = walkStep rec2 nc st n och := by
  unfold walkStep
  split
  · cases hn : nc[n]? with
    | none => rfl
    | some nch =>
      have hmem : nch ∈ nc := List.getElem?_mem hn
      simp only [h nch hmem och]
  · rfl

theorem walk_congr {rec1 rec2 : Markup → Markup → Except Abort (Bool × Markup × Markup × List SinkCall)}
    {nc : List Markup} (h : ∀ nch ∈ nc, ∀ och, rec1 nch och = rec2 nch och)
    (st : WalkState) (n : Nat) (olds : List Markup) :
    walk rec1 nc st n olds = walk rec2 nc st n olds := by
  induction olds generalizing st n with
  | nil => rfl
  | cons och rest ih =>
    simp only [walk, walkStep_congr h]
    cases walkStep rec2 nc st n och with
    | error x => rfl
    | ok st1 => exact ih st1 (n + 1)

theorem reconcileBody_congr {rec1 rec2 : Markup → Markup → Except Abort (Bool × Markup × Markup × List SinkCall)}
    {e : Markup} (h : ∀ nch ∈ e.children, ∀ och, rec1 nch och = rec2 nch och) (em : Markup) :
    reconcileBody rec1 e em = reconcileBody rec2 e em := by
  unfold reconcileBody
  have hw : ∀ (u : String) st n olds, walk rec1 (e.SwapUID u).children st n olds
      = walk rec2 (e.SwapUID u).children st n olds := by
    intro u st n olds
    apply walk_congr
    simpa [Markup.SwapUID] using h
  simp only [hw]

theorem ReconcileFuel_eq_height (f : Nat) : ∀ (e em : Markup), e.height ≤ f →
    ReconcileFuel f e em = ReconcileFuel e.height e em := by
  induction f using Nat.strong_induction_on with
  | _ f ih =>
    intro e em hle
    cases f with
    | zero => exact absurd hle (Nat.not_le.mpr e.height_pos)
    | succ f =>
      obtain ⟨h, hh⟩ : ∃ h, e.height = h + 1 := ⟨e.height - 1, by have := e.height_pos; omega⟩
      rw [hh]
      simp only [ReconcileFuel]
      apply reconcileBody_congr
      intro nch hmem och
      have hlt := Markup.height_child hmem
      rw [ih f (Nat.lt_succ_self f) nch och (by omega)]
      by_cases hhf : h = f
      · subst hhf; rw [ih h (Nat.lt_succ_self h) nch och (by omega)]
      · rw [ih h (by omega) nch och (by omega)]

/-- The method `Reconcile` satisfies its own defining equation: the recursion
bound of the embedding is never the reason for its result. -/
theorem Markup.Reconcile_eq (e em : Markup) :
    e.Reconcile em = reconcileBody Markup.Reconcile e em := by
  obtain ⟨h, hh⟩ : ∃ h, e.height = h + 1 := ⟨e.height - 1, by have := e.height_pos; omega⟩
  unfold Markup.Reconcile
  rw [hh]
  simp only [ReconcileFuel]
  apply reconcileBody_congr
  intro nch hmem och
  have hlt := Markup.height_child hmem
  exact ReconcileFuel_eq_height h nch och (by omega)

/-! ## The recursion bound of Clean is never reached, and Clean satisfies its defining equation -/

theorem heightList_le_iff {cs : List Markup} {h : Nat} :
    heightList cs ≤ h ↔ ∀ c ∈ cs, c.height ≤ h := by
  induction cs with
  | nil => simp [heightList]
  | cons d ds ih => simp [heightList, ih]

theorem Markup.height_eq (e : Markup) : e.height = heightList e.children + 1 := by
  cases e; rfl

theorem cleanStep_heap_bound {rec : Markup → Except Abort Markup} {h : Nat}
    (hrec : ∀ x y, x.height ≤ h → rec x = .ok y → y.height ≤ h)
    {st st1 : CleanState} {n : Nat} (hinv : ∀ x ∈ st.heap, x.height ≤ h)
    (hs : cleanStep rec st n = .ok st1) : ∀ x ∈ st1.heap, x.height ≤ h := by
  unfold cleanStep at hs
  split at hs
  · cases hs
  · split at hs
    · cases hs
    · rename_i a _ elm helm
      split at hs
      · split at hs
        · cases hs
        · cases hs; exact hinv
      · split at hs
        · cases hs
        · rename_i elm1 hrec1
          cases hs
          intro x hx
          rcases List.mem_or_eq_of_mem_set hx with hx | hx
          · exact hinv x hx
          · rw [hx]
            exact hrec elm elm1 (hinv elm (List.getElem?_mem helm)) hrec1

theorem cleanStep_congr {rec1 rec2 : Markup → Except Abort Markup} {h : Nat}
    (hagree : ∀ x, x.height ≤ h → rec1 x = rec2 x)
    {st : CleanState} (n : Nat) (hinv : ∀ x ∈ st.heap, x.height ≤ h) :
    cleanStep rec1 st n = cleanStep rec2 st n := by
  unfold cleanStep
  split
  · rfl
  · split
    · rfl
    · rename_i a _ elm helm
      rw [hagree elm (hinv elm (List.getElem?_mem helm))]

theorem cleanLoop_congr {rec1 rec2 : Markup → Except Abort Markup} {h : Nat}
    (hagree : ∀ x, x.height ≤ h → rec1 x = rec2 x)
    (hrec : ∀ x y, x.height ≤ h → rec2 x = .ok y → y.height ≤ h) :
    ∀ (ns : List Nat) (st : CleanState), (∀ x ∈ st.heap, x.height ≤ h) →
      cleanLoop rec1 st ns = cleanLoop rec2 st ns := by
  intro ns
  induction ns with
  | nil => intro st _; rfl
  | cons n ns ih =>
    intro st hinv
    simp only [cleanLoop, cleanStep_congr hagree n hinv]
    cases hs : cleanStep rec2 st n with
    | error x => rfl
    | ok st1 => exact ih st1 (cleanStep_heap_bound hrec hinv hs)

theorem cleanLoop_heap_bound {rec : Markup → Except Abort Markup} {h : Nat}
    (hrec : ∀ x y, x.height ≤ h → rec x = .ok y → y.height ≤ h) :
    ∀ (ns : List Nat) (st : CleanState) {st1 : CleanState}, (∀ x ∈ st.heap, x.height ≤ h) →
      cleanLoop rec st ns = .ok st1 → ∀ x ∈ st1.heap, x.height ≤ h := by
  intro ns
  induction ns with
  | nil =>
    intro st st1 hinv hl
    simp only [cleanLoop, Except.ok.injEq] at hl
    subst hl
    exact hinv
  | cons n ns ih =>
    intro st st1 hinv hl
    simp only [cleanLoop] at hl
    split at hl
    · cases hl
    · rename_i st2 hs
      exact ih st2 (cleanStep_heap_bound hrec hinv hs) hl

theorem cleanLoop_ne_outOfFuel {rec : Markup → Except Abort Markup} {h : Nat}
    (hfuel : ∀ x, x.height ≤ h → rec x ≠ .error .outOfFuel)
    (hrec : ∀ x y, x.height ≤ h → rec x = .ok y → y.height ≤ h) :
    ∀ (ns : List Nat) (st : CleanState), (∀ x ∈ st.heap, x.height ≤ h) →
      cleanLoop rec st ns ≠ .error .outOfFuel := by
  intro ns
  induction ns with
  | nil => intro st _ hl; simp [cleanLoop] at hl
  | cons n ns ih =>
    intro st hinv hl
    simp only [cleanLoop] at hl
    split at hl
    · rename_i x hs
      cases hl
      unfold cleanStep at hs
      split at hs
      · cases hs
      · split at hs
        · cases hs
        · rename_i a _ elm helm
          split at hs
          · split at hs <;> cases hs
          · split at hs
            · rename_i y hy
              cases hs
              exact hfuel elm (hinv elm (List.getElem?_mem helm)) hy
            · cases hs
    · rename_i st2 hs
      exact ih st2 (cleanStep_heap_bound hrec hinv hs) hl

theorem cleanBody_height {rec : Markup → Except Abort Markup} {e e1 : Markup}
    (hrec : ∀ x y, x.height ≤ heightList e.children → rec x = .ok y →
      y.height ≤ heightList e.children)
    (hb : cleanBody rec e = .ok e1) : e1.height ≤ e.height := by
  unfold cleanBody at hb
  dsimp only at hb
  split at hb
  · cases hb
  · rename_i st hl
    cases hb
    have hinv := cleanLoop_heap_bound hrec _ _
      (fun x hx => height_le_heightList hx) hl
    rw [Markup.height_eq, Markup.height_eq e, Markup.setChildren_children]
    apply Nat.succ_le_succ
    rw [heightList_le_iff]
    intro c hc
    obtain ⟨a, _, ha⟩ := List.mem_filterMap.mp hc
    exact hinv c (List.getElem?_mem ha)

theorem CleanFuel_adequate (f : Nat) : ∀ (e : Markup), e.height ≤ f →
    CleanFuel f e = CleanFuel e.height e ∧ CleanFuel f e ≠ .error .outOfFuel ∧
    ∀ e1, CleanFuel f e = .ok e1 → e1.height ≤ e.height := by
  induction f using Nat.strong_induction_on with
  | _ f ih =>
    intro e hle
    cases f with
    | zero => exact absurd hle (Nat.not_le.mpr e.height_pos)
    | succ f =>
      have hh := e.height_eq
      have hhf : heightList e.children ≤ f := by omega
      have hrecf : ∀ x y, x.height ≤ heightList e.children → CleanFuel f x = .ok y →
          y.height ≤ heightList e.children := fun x y hx hxy =>
        le_trans ((ih f (Nat.lt_succ_self f) x (by omega)).2.2 y hxy) hx
      have hagree : ∀ x, x.height ≤ heightList e.children →
          CleanFuel f x = CleanFuel (heightList e.children) x := by
        intro x hx
        rw [(ih f (Nat.lt_succ_self f) x (by omega)).1]
        by_cases heq : heightList e.children = f
        · rw [heq, (ih f (Nat.lt_succ_self f) x (by omega)).1]
        · rw [(ih (heightList e.children) (by omega) x hx).1]
      have hrech : ∀ x y, x.height ≤ heightList e.children →
          CleanFuel (heightList e.children) x = .ok y → y.height ≤ heightList e.children := by
        intro x y hx hxy
        rw [← hagree x hx] at hxy
        exact hrecf x y hx hxy
      refine ⟨?_, ?_, ?_⟩
      · rw [hh]
        simp only [CleanFuel]
        unfold cleanBody
        dsimp only
        rw [cleanLoop_congr hagree hrech _ _ (fun x hx => height_le_heightList hx)]
      · simp only [CleanFuel]
        unfold cleanBody
        dsimp only
        intro hbad
        split at hbad
        · rename_i x hl
          cases hbad
          exact cleanLoop_ne_outOfFuel
            (fun x hx => (ih f (Nat.lt_succ_self f) x (by omega)).2.1) hrecf _ _
            (fun x hx => height_le_heightList hx) hl
        · cases hbad
      · intro e1 he1
        simp only [CleanFuel] at he1
        exact cleanBody_height hrecf he1

/-- The method `Clean` never stops for lack of fuel. -/
theorem Markup.Clean_ne_outOfFuel (e : Markup) : e.Clean ≠ .error .outOfFuel :=
  (CleanFuel_adequate e.height e (le_refl _)).2.1

/-- The method `Clean` never makes a tree higher. -/
theorem Markup.Clean_height {e e1 : Markup} (h : e.Clean = .ok e1) : e1.height ≤ e.height :=
  (CleanFuel_adequate e.height e (le_refl _)).2.2 e1 h

/-- The method `Clean` satisfies its own defining equation. -/
theorem Markup.Clean_eq (e : Markup) : e.Clean = cleanBody Markup.Clean e := by
  have hh := e.height_eq
  unfold Markup.Clean
  rw [hh]
  simp only [CleanFuel]
  unfold cleanBody
  dsimp only
  have hagree : ∀ x, x.height ≤ heightList e.children →
      CleanFuel (heightList e.children) x = Markup.Clean x := fun x hx =>
    (CleanFuel_adequate (heightList e.children) x hx).1
  have hrec : ∀ x y, x.height ≤ heightList e.children → Markup.Clean x = .ok y →
      y.height ≤ heightList e.children := fun x y hx hxy =>
    le_trans ((CleanFuel_adequate x.height x (le_refl _)).2.2 y hxy) hx
  rw [cleanLoop_congr hagree hrec _ _ (fun x hx => height_le_heightList hx)]
  rfl

/-! ## What Clean, AddChild and the walk leave untouched -/

theorem cleanBody_fields {rec : Markup → Except Abort Markup} {e e1 : Markup}
    (h : cleanBody rec e = .ok e1) : e1.fields = e.fields := by
  unfold cleanBody at h
  dsimp only at h
  split at h
  · cases h
  · cases h; simp

theorem Markup.Clean_fields {e e1 : Markup} (h : e.Clean = .ok e1) : e1.fields = e.fields := by
  obtain ⟨k, hk⟩ : ∃ k, e.height = k + 1 := ⟨e.height - 1, by have := e.height_pos; omega⟩
  unfold Markup.Clean at h
  rw [hk] at h
  exact cleanBody_fields h

theorem addChildren_fields : ∀ (child : List Markup) (e : Markup) (seen : List Markup)
    (log : List SinkCall) {e1 : Markup} {chs : List Markup} {log1 : List SinkCall},
    addChildren e seen log child = .ok (e1, chs, log1) → e1.fields = e.fields := by
  intro child
  induction child with
  | nil =>
    intro e seen log e1 chs log1 h
    simp only [addChildren, Except.ok.injEq, Prod.mk.injEq] at h
    rw [← h.1]
  | cons ch rest ih =>
    intro e seen log e1 chs log1 h
    simp only [addChildren] at h
    split at h
    · cases h
    · have := ih _ _ _ h
      simpa using this

theorem Markup.AddChild_fields {e e1 : Markup} {child chs : List Markup} {log : List SinkCall}
    (h : e.AddChild child = .ok (e1, chs, log)) : e1.fields = e.fields := by
  unfold Markup.AddChild at h
  split at h
  · simp only [Except.ok.injEq, Prod.mk.injEq] at h
    rw [← h.1]
  · exact addChildren_fields _ _ _ _ h

theorem walkRemove_fields {st st1 : WalkState} {och : Markup}
    (h : walkRemove st och = .ok st1) : st1.e.fields = st.e.fields := by
  unfold walkRemove at h
  split at h
  · cases h
  · rename_i e1 ochs log heq
    cases h
    exact Markup.AddChild_fields heq

theorem walkStep_fields {rec : Markup → Markup → Except Abort (Bool × Markup × Markup × List SinkCall)}
    {nc : List Markup} {st st1 : WalkState} {n : Nat} {och : Markup}
    (h : walkStep rec nc st n och = .ok st1) : st1.e.fields = st.e.fields := by
  unfold walkStep at h
  split at h
  · split at h
    · cases h
    · split at h
      · exact walkRemove_fields h
      · split at h
        · cases h
        · cases h; simp
  · exact walkRemove_fields h

theorem walk_fields {rec : Markup → Markup → Except Abort (Bool × Markup × Markup × List SinkCall)}
    {nc : List Markup} : ∀ (olds : List Markup) (st : WalkState) (n : Nat) {st1 : WalkState},
    walk rec nc st n olds = .ok st1 → st1.e.fields = st.e.fields := by
  intro olds
  induction olds with
  | nil =>
    intro st n st1 h
    simp only [walk, Except.ok.injEq] at h
    rw [h]
  | cons och rest ih =>
    intro st n st1 h
    simp only [walk] at h
    split at h
    · cases h
    · rename_i st2 heq
      rw [ih _ _ h, walkStep_fields heq]

/-- A pair of nodes with different tag names is skipped: `Reconcile` returns
false and hands both nodes back as they were, without any sink call. -/
theorem Markup.Reconcile_of_name_ne {e em : Markup} (h : e.Name ≠ em.Name) :
    e.Reconcile em = .ok (false, e, em, []) := by
  rw [Markup.Reconcile_eq]
  unfold reconcileBody
  simp [h]

/-! ## The three branches of Reconcile on a same-tag pair -/

@[simp] theorem Markup.SwapUID_Name (e : Markup) (u : String) : (e.SwapUID u).Name = e.Name := by
  simp [Markup.SwapUID, Markup.Name]

@[simp] theorem Markup.SwapUID_children (e : Markup) (u : String) :
    (e.SwapUID u).children = e.children := by
  simp [Markup.SwapUID]

@[simp] theorem Markup.SwapUID_TextContent (e : Markup) (u : String) :
    (e.SwapUID u).TextContent = e.TextContent := by
  simp [Markup.SwapUID, Markup.TextContent]

@[simp] theorem Markup.SwapUID_UID (e : Markup) (u : String) : (e.SwapUID u).UID = u := by
  simp [Markup.SwapUID, Markup.UID]

@[simp] theorem Markup.SwapHash_UID (e : Markup) (h : String) : (e.SwapHash h).UID = e.UID := by
  simp [Markup.SwapHash, Markup.UID]

@[simp] theorem Markup.SwapHash_Hash (e : Markup) (h : String) : (e.SwapHash h).Hash = h := by
  simp [Markup.SwapHash, Markup.Hash]

@[simp] theorem Markup.SwapHash_children (e : Markup) (h : String) :
    (e.SwapHash h).children = e.children := by
  simp [Markup.SwapHash]

@[simp] theorem EqualAttributes_SwapUID (e em : Markup) (u : String) :
    EqualAttributes (e.SwapUID u) em = EqualAttributes e em := by
  simp [EqualAttributes, Markup.Attributes, Markup.SwapUID]

@[simp] theorem EqualStyles_SwapUID (e em : Markup) (u : String) :
    EqualStyles (e.SwapUID u) em = EqualStyles e em := by
  simp [EqualStyles, Markup.Styles, Markup.SwapUID]

theorem EqualAttributes_congr_right (e : Markup) {em em1 : Markup} (h : em1.fields = em.fields) :
    EqualAttributes e em1 = EqualAttributes e em := by
  simp [EqualAttributes, Markup.Attributes, h]

theorem EqualStyles_congr_right (e : Markup) {em em1 : Markup} (h : em1.fields = em.fields) :
    EqualStyles e em1 = EqualStyles e em := by
  simp [EqualStyles, Markup.Styles, h]

/-- The text branch of `Reconcile`. -/
theorem Markup.Reconcile_text {e em em1 : Markup} (hn : e.Name = em.Name)
    (ht : e.Name = "text") (hclean : em.Clean = .ok em1) :
    e.Reconcile em =
      if e.TextContent == em1.TextContent then
        .ok (false, (e.SwapUID em1.UID).SwapHash em1.Hash, em1, [])
      else .ok (true, e.SwapUID em1.UID, em1, []) := by
  rw [Markup.Reconcile_eq]
  unfold reconcileBody
  simp [hn.symm, hclean, ht]

/-- The branch of `Reconcile` for a new node without children. -/
theorem Markup.Reconcile_no_children {e em em1 : Markup} (hn : e.Name = em.Name)
    (ht : e.Name ≠ "text") (hclean : em.Clean = .ok em1) (hc : e.children = []) :
    e.Reconcile em =
      if em1.children.length > 1 then .ok (true, e.SwapUID em1.UID, em1, [])
      else if !EqualAttributes e em1 || !EqualStyles e em1 then
        .ok (true, e.SwapUID em1.UID, em1, [])
      else .ok (false, (e.SwapUID em1.UID).SwapHash em1.Hash, em1, []) := by
  rw [Markup.Reconcile_eq]
  unfold reconcileBody
  simp [hn.symm, hclean, ht, hc]

/-- The branch of `Reconcile` for a new node with children. -/
theorem Markup.Reconcile_walk {e em em1 : Markup} (hn : e.Name = em.Name)
    (ht : e.Name ≠ "text") (hclean : em.Clean = .ok em1) (hc : e.children ≠ []) :
    e.Reconcile em =
      match walk Markup.Reconcile e.children ⟨e.SwapUID em1.UID, [], false, []⟩ 0
          em1.children with
      | .error x => .error x
      | .ok st =>
        let log :=
          match st.e.fields.eventManager with
          | none => st.log
          | some s => st.log ++ [.DisconnectRemoved s]
        if !st.childChanged && EqualAttributes e em1 && EqualStyles e em1 then
          .ok (false, st.e.SwapHash em1.Hash, em1.setChildren st.visited, log)
        else .ok (true, st.e, em1.setChildren st.visited, log) := by
  rw [Markup.Reconcile_eq]
  unfold reconcileBody
  have hlen : ¬ e.children.length < 1 := by
    cases hcs : e.children with
    | nil => exact absurd hcs hc
    | cons a l => simp
  simp only [hn.symm, bne_self_eq_false, Bool.false_eq_true, ↓reduceIte, hclean,
    Markup.SwapUID_Name, beq_iff_eq, ht, Markup.SwapUID_children, hlen,
    EqualAttributes_SwapUID, EqualStyles_SwapUID, ReconcileEvents]

/-- On a same-tag pair `Reconcile` first cleans the old node; a failure of
`Clean` is the failure of `Reconcile`. -/
theorem Markup.Reconcile_clean_error {e em : Markup} {x : Abort} (hn : e.Name = em.Name)
    (hclean : em.Clean = .error x) : e.Reconcile em = .error x := by
  rw [Markup.Reconcile_eq]
  unfold reconcileBody
  simp [hn.symm, hclean]

/-- A same-tag `Reconcile` that returns has cleaned the old node. -/
theorem Markup.Reconcile_ok_clean {e em : Markup}
    {r : Bool × Markup × Markup × List SinkCall} (hn : e.Name = em.Name)
    (hr : e.Reconcile em = .ok r) : ∃ em1, em.Clean = .ok em1 := by
  cases hclean : em.Clean with
  | error x => rw [Markup.Reconcile_clean_error hn hclean] at hr; cases hr
  | ok em1 => exact ⟨em1, rfl⟩

/-! ## The flag `childChanged` -/

theorem walkRemove_childChanged {st st1 : WalkState} {och : Markup}
    (h : walkRemove st och = .ok st1) : st1.childChanged = true := by
  unfold walkRemove at h
  split at h
  · cases h
  · cases h; rfl

theorem walkStep_childChanged
    {rec : Markup → Markup → Except Abort (Bool × Markup × Markup × List SinkCall)}
    {nc : List Markup} {st st1 : WalkState} {n : Nat} {och : Markup}
    (h : walkStep rec nc st n och = .ok st1) :
    st1.childChanged = false ↔
      st.childChanged = false ∧ ∃ nch, nc[n]? = some nch ∧ nch.Name = och.Name ∧
        ∃ nch1 och1 log, rec nch och = .ok (false, nch1, och1, log) := by
  unfold walkStep at h
  split at h
  · split at h
    · cases h
    · rename_i nch hnch
      split at h
      · rename_i hne
        have hne' : nch.Name ≠ och.Name := by simpa using hne
        rw [walkRemove_childChanged h]
        constructor
        · intro hh; cases hh
        · rintro ⟨_, nch', hnch', hname, _⟩
          rw [hnch] at hnch'
          cases hnch'
          exact absurd hname hne'
      · rename_i hne
        have heq : nch.Name = och.Name := by simpa using hne
        split at h
        · cases h
        · rename_i changed nch1 och1 log hrec
          cases h
          constructor
          · intro hh
            simp only [Bool.or_eq_false_iff] at hh
            refine ⟨hh.1, nch, hnch, heq, nch1, och1, log, ?_⟩
            rw [hrec, hh.2]
          · rintro ⟨hst, nch', hnch', _, nch1', och1', log', hrec'⟩
            rw [hnch] at hnch'
            cases hnch'
            rw [hrec] at hrec'
            simp only [Except.ok.injEq, Prod.mk.injEq] at hrec'
            simp [hst, hrec'.1]
  · rename_i hlen
    rw [walkRemove_childChanged h]
    constructor
    · intro hh; cases hh
    · rintro ⟨_, nch, hnch, _⟩
      have := (List.getElem?_eq_some.mp hnch).1
      omega

theorem walk_childChanged
    {rec : Markup → Markup → Except Abort (Bool × Markup × Markup × List SinkCall)}
    {nc : List Markup} : ∀ (olds : List Markup) (st : WalkState) (n : Nat) {st1 : WalkState},
    walk rec nc st n olds = .ok st1 →
    (st1.childChanged = false ↔
      st.childChanged = false ∧ ∀ i och, olds[i]? = some och →
        ∃ nch, nc[n + i]? = some nch ∧ nch.Name = och.Name ∧
          ∃ nch1 och1 log, rec nch och = .ok (false, nch1, och1, log)) := by
  intro olds
  induction olds with
  | nil =>
    intro st n st1 h
    simp only [walk, Except.ok.injEq] at h
    subst h
    simp
  | cons och rest ih =>
    intro st n st1 h
    simp only [walk] at h
    split at h
    · cases h
    · rename_i st2 hstep
      rw [ih st2 (n + 1) h, walkStep_childChanged hstep]
      constructor
      · rintro ⟨⟨hst, hhead⟩, htail⟩
        refine ⟨hst, ?_⟩
        intro i o hi
        cases i with
        | zero =>
          simp only [List.getElem?_cons_zero, Option.some.injEq] at hi
          subst hi
          simpa using hhead
        | succ i =>
          simp only [List.getElem?_cons_succ] at hi
          have := htail i o hi
          rwa [show n + 1 + i = n + (i + 1) by omega] at this
      · rintro ⟨hst, hall⟩
        refine ⟨⟨hst, ?_⟩, ?_⟩
        · simpa using hall 0 och (by simp)
        · intro i o hi
          have := hall (i + 1) o (by simpa using hi)
          rwa [show n + (i + 1) = n + 1 + i by omega] at this

/-- At the end of the walk the flag `childChanged` is clear exactly when no
positional child pair was flagged. -/
theorem walk_childChanged_iff_noChildFlagged {nc olds : List Markup} {st0 st1 : WalkState}
    (h0 : st0.childChanged = false)
    (h : walk Markup.Reconcile nc st0 0 olds = .ok st1) :
    st1.childChanged = false ↔ NoChildFlagged nc olds := by
  rw [walk_childChanged olds st0 0 h]
  simp only [h0, true_and, Nat.zero_add]
  unfold NoChildFlagged
  constructor
  · intro hall
    refine ⟨?_, ?_⟩
    · intro n nch och hn ho
      obtain ⟨nch', hn', hname, hrec⟩ := hall n och ho
      rw [hn] at hn'
      cases hn'
      exact ⟨hname, hrec⟩
    · by_contra hlt
      have hlt : nc.length < olds.length := Nat.lt_of_not_le hlt
      obtain ⟨nch, hn, _⟩ := hall nc.length (olds[nc.length]) (List.getElem?_eq_getElem hlt)
      have := (List.getElem?_eq_some.mp hn).1
      omega
  · rintro ⟨hpairs, hlen⟩ i och ho
    have hi : i < nc.length := lt_of_lt_of_le (List.getElem?_eq_some.mp ho).1 hlen
    exact ⟨nc[i], List.getElem?_eq_getElem hi, hpairs i nc[i] och (List.getElem?_eq_getElem hi) ho⟩

/-! ## What AddChild and the walk do to the child lists -/

theorem loadEventsBody_fields {load : Markup → Except Abort (Markup × List SinkCall)}
    {e e1 : Markup} {log : List SinkCall} (h : loadEventsBody load e = .ok (e1, log)) :
    e1.fields = e.fields := by
  unfold loadEventsBody at h
  dsimp only at h
  split at h
  · cases h
  · cases h; simp

theorem Markup.LoadEvents_fields {e e1 : Markup} {log : List SinkCall}
    (h : e.LoadEvents = .ok (e1, log)) : e1.fields = e.fields := by
  obtain ⟨k, hk⟩ : ∃ k, e.height = k + 1 := ⟨e.height - 1, by have := e.height_pos; omega⟩
  unfold Markup.LoadEvents at h
  rw [hk] at h
  exact loadEventsBody_fields h

/-- The method `UseEventManager` writes no field of its receiver other than the sink. -/
theorem Markup.UseEventManager_fields {e e1 : Markup} {man : Option Nat} {b : Bool}
    {log : List SinkCall} (h : e.UseEventManager man = .ok (b, e1, log)) :
    e1.fields = { e.fields with eventManager := e1.fields.eventManager } := by
  unfold Markup.UseEventManager UseEventManagerWith at h
  split at h
  · split at h
    · cases h
    · cases h; rfl
  · split at h
    · cases h
    · rename_i e2 log2 hload
      cases h
      rw [Markup.LoadEvents_fields hload]
      simp [Markup.setEventManager]

/-- The method `AddChild` with one child on a node that allows children: the child, in
its state after it was bound to the sink, is appended to the child list. -/
theorem Markup.AddChild_single {e e1 ch : Markup} {chs : List Markup} {log : List SinkCall}
    (hallow : e.fields.allowChildren = true) (h : e.AddChild [ch] = .ok (e1, chs, log)) :
    ∃ ch1, chs = [ch1] ∧ e1 = e.setChildren (e.children ++ [ch1]) ∧
      ch1.fields = { ch.fields with eventManager := ch1.fields.eventManager } := by
  unfold Markup.AddChild at h
  simp only [hallow, Bool.not_true, Bool.false_eq_true, ↓reduceIte, addChildren] at h
  split at h
  · cases h
  · rename_i b ch1 log1 hu
    simp only [List.nil_append, Except.ok.injEq, Prod.mk.injEq] at h
    exact ⟨ch1, h.2.1.symm, h.1.symm, Markup.UseEventManager_fields hu⟩

/-- The method `AddChild` with one child on a node that disallows children does nothing. -/
theorem Markup.AddChild_single_disallowed {e e1 ch : Markup} {chs : List Markup}
    {log : List SinkCall} (hallow : e.fields.allowChildren = false)
    (h : e.AddChild [ch] = .ok (e1, chs, log)) : chs = [ch] ∧ e1 = e := by
  unfold Markup.AddChild at h
  simp only [hallow, Bool.not_false, ↓reduceIte, Except.ok.injEq, Prod.mk.injEq] at h
  exact ⟨h.2.1.symm, h.1.symm⟩

/-- The statements `och.Remove(); e.AddChild(och); childChanged = true`: the old
child is visited once, in a state that differs from `och.Remove` at most in the
sink, and the child list of `e` grows by that child if `e` allows children. -/
theorem walkRemove_spec {st st1 : WalkState} {och : Markup} (h : walkRemove st och = .ok st1) :
    ∃ ch1, st1.visited = st.visited ++ [ch1] ∧
      ch1.fields = { och.Remove.fields with eventManager := ch1.fields.eventManager } ∧
      st1.childChanged = true ∧
      (st.e.fields.allowChildren = true → st1.e.children = st.e.children ++ [ch1]) ∧
      (st.e.fields.allowChildren = false → st1.e.children = st.e.children) := by
  unfold walkRemove at h
  split at h
  · cases h
  · rename_i e1 ochs log hadd
    cases h
    cases hallow : st.e.fields.allowChildren with
    | true =>
      obtain ⟨ch1, hchs, he1, hfields⟩ := Markup.AddChild_single hallow hadd
      subst hchs
      exact ⟨ch1, rfl, hfields, rfl, fun _ => (by simp [he1]), fun hh => (by cases hh)⟩
    | false =>
      obtain ⟨hchs, he1⟩ := Markup.AddChild_single_disallowed hallow hadd
      subst hchs
      exact ⟨och.Remove, rfl, rfl, rfl, fun hh => (by cases hh), fun _ => (by rw [he1])⟩

/-- One iteration visits one old child, and writes no slot of `e.children`
other than slot `n` below the new child count; the list never shrinks. -/
theorem walkStep_frame
    {rec : Markup → Markup → Except Abort (Bool × Markup × Markup × List SinkCall)}
    {nc : List Markup} {st st1 : WalkState} {n : Nat} {och : Markup}
    (h : walkStep rec nc st n och = .ok st1) :
    (∃ ch1, st1.visited = st.visited ++ [ch1]) ∧
    st.e.children.length ≤ st1.e.children.length ∧
    ∀ j, (j ≠ n ∨ nc.length ≤ j) → j < st.e.children.length →
      st1.e.children[j]? = st.e.children[j]? := by
  have hrem : ∀ {st2 : WalkState}, walkRemove st och = .ok st2 →
      (∃ ch1, st2.visited = st.visited ++ [ch1]) ∧
      st.e.children.length ≤ st2.e.children.length ∧
      ∀ j, j < st.e.children.length → st2.e.children[j]? = st.e.children[j]? := by
    intro st2 h2
    obtain ⟨ch1, hv, _, _, hyes, hno⟩ := walkRemove_spec h2
    refine ⟨⟨ch1, hv⟩, ?_, ?_⟩
    · cases hallow : st.e.fields.allowChildren with
      | true => rw [hyes hallow]; simp
      | false => rw [hno hallow]
    · intro j hj
      cases hallow : st.e.fields.allowChildren with
      | true => rw [hyes hallow, List.getElem?_append_left hj]
      | false => rw [hno hallow]
  unfold walkStep at h
  split at h
  · rename_i hlt
    split at h
    · cases h
    · split at h
      · obtain ⟨h1, h2, h3⟩ := hrem h
        exact ⟨h1, h2, fun j _ hj => h3 j hj⟩
      · split at h
        · cases h
        · cases h
          refine ⟨⟨_, rfl⟩, by simp, ?_⟩
          intro j hj _
          have hjn : n ≠ j := by omega
          simp [List.getElem?_set, hjn]
  · obtain ⟨h1, h2, h3⟩ := hrem h
    exact ⟨h1, h2, fun j _ hj => h3 j hj⟩

/-- The walk over `olds` from index `n` visits each old child once, and writes
no slot of `e.children` outside the positions `n ≤ j < n + olds.length` below
the new child count. -/
theorem walk_frame
    {rec : Markup → Markup → Except Abort (Bool × Markup × Markup × List SinkCall)}
    {nc : List Markup} : ∀ (olds : List Markup) (st : WalkState) (n : Nat) {st1 : WalkState},
    walk rec nc st n olds = .ok st1 →
    (∃ more, st1.visited = st.visited ++ more ∧ more.length = olds.length) ∧
    st.e.children.length ≤ st1.e.children.length ∧
    ∀ j, (j < n ∨ n + olds.length ≤ j ∨ nc.length ≤ j) → j < st.e.children.length →
      st1.e.children[j]? = st.e.children[j]? := by
  intro olds
  induction olds with
  | nil =>
    intro st n st1 h
    simp only [walk, Except.ok.injEq] at h
    subst h
    exact ⟨⟨[], by simp, rfl⟩, le_refl _, fun _ _ _ => rfl⟩
  | cons och rest ih =>
    intro st n st1 h
    simp only [walk] at h
    split at h
    · cases h
    · rename_i st2 hstep
      obtain ⟨⟨ch1, hv2⟩, hlen2, hslot2⟩ := walkStep_frame hstep
      obtain ⟨⟨more, hv1, hmore⟩, hlen1, hslot1⟩ := ih st2 (n + 1) h
      refine ⟨⟨ch1 :: more, by rw [hv1, hv2]; simp, by simp [hmore]⟩, le_trans hlen2 hlen1, ?_⟩
      intro j hj hjlen
      rw [hslot1 j (by simp only [List.length_cons] at hj; omega) (by omega)]
      exact hslot2 j (by simp only [List.length_cons] at hj; omega) hjlen

/-- The walk over a list in two parts is the walk over the first part followed
by the walk over the second. -/
theorem walk_append
    {rec : Markup → Markup → Except Abort (Bool × Markup × Markup × List SinkCall)}
    {nc : List Markup} : ∀ (pre post : List Markup) (st : WalkState) (n : Nat),
    walk rec nc st n (pre ++ post) =
      match walk rec nc st n pre with
      | .error x => .error x
      | .ok st1 => walk rec nc st1 (n + pre.length) post := by
  intro pre
  induction pre with
  | nil => intro post st n; simp [walk]
  | cons och rest ih =>
    intro post st n
    rw [List.cons_append]
    simp only [walk, List.length_cons]
    cases walkStep rec nc st n och with
    | error x => rfl
    | ok st2 =>
      have hidx : n + (rest.length + 1) = n + 1 + rest.length := by omega
      simp only [hidx]
      exact ih post st2 (n + 1)

/-- The flag `childChanged` is never cleared by the walk. -/
theorem walk_childChanged_mono
    {rec : Markup → Markup → Except Abort (Bool × Markup × Markup × List SinkCall)}
    {nc : List Markup} {olds : List Markup} {st st1 : WalkState} {n : Nat}
    (h : walk rec nc st n olds = .ok st1) (hst : st.childChanged = true) :
    st1.childChanged = true := by
  cases hc : st1.childChanged with
  | true => rfl
  | false =>
    have := ((walk_childChanged olds st n h).mp hc).1
    rw [hst] at this
    cases this

/-- The iteration of the walk that visits position `k` of the old children:
the walk splits into the iterations before it, that iteration and the
iterations after it. -/
theorem walk_split_at
    {rec : Markup → Markup → Except Abort (Bool × Markup × Markup × List SinkCall)}
    {nc olds : List Markup} {st0 st1 : WalkState} {k : Nat} {och : Markup}
    (hk : olds[k]? = some och) (h : walk rec nc st0 0 olds = .ok st1) :
    ∃ sta stb, walk rec nc st0 0 (olds.take k) = .ok sta ∧
      walkStep rec nc sta k och = .ok stb ∧
      walk rec nc stb (k + 1) (olds.drop (k + 1)) = .ok st1 := by
  have hklt : k < olds.length := (List.getElem?_eq_some.mp hk).1
  have hoch : olds[k] = och := (List.getElem?_eq_some.mp hk).2
  have hsplit : olds = olds.take k ++ och :: olds.drop (k + 1) := by
    rw [← hoch, ← List.drop_eq_getElem_cons hklt, List.take_append_drop]
  rw [hsplit, walk_append] at h
  have hlen : (olds.take k).length = k := by simp; omega
  split at h
  · cases h
  · rename_i sta ha
    rw [hlen, Nat.zero_add] at h
    simp only [walk] at h
    split at h
    · cases h
    · rename_i stb hb
      exact ⟨sta, stb, ha, hb, h⟩

/-! ## Remove -/

theorem Markup.Remove_removed (e : Markup) : e.Remove.fields.removed = true := by
  unfold Markup.Remove Markup.Removed
  cases h : e.fields.removed <;> simp [h]

theorem Markup.Remove_attrs_of_live {e : Markup} (h : e.fields.removed = false) :
    e.Remove.fields.attrs = e.fields.attrs ++ [⟨"NodeRemoved", ""⟩] := by
  unfold Markup.Remove Markup.Removed
  simp [h]

theorem Markup.Remove_of_removed {e : Markup} (h : e.fields.removed = true) :
    e.Remove = e := by
  unfold Markup.Remove Markup.Removed
  simp [h]

theorem mem_drop_of_getElem? {α : Type} {l : List α} {j m : Nat} {a : α}
    (h : l[j]? = some a) (hm : m ≤ j) : a ∈ l.drop m := by
  apply List.getElem?_mem (n := j - m)
  rw [List.getElem?_drop, show m + (j - m) = j by omega]
  exact h

/-! ## The recursive call on a positional same-tag pair -/

/-- When `Reconcile` of a same-tag, non-text pair returns, the recursive call
on each positional same-tag child pair has returned, and a report of changed
from that call is a report of changed from the parent. -/
theorem Markup.Reconcile_child_call {p pm pmc d dm p1 pm1 : Markup} {n : Nat} {c : Bool}
    {log : List SinkCall} (hn : p.Name = pm.Name) (ht : p.Name ≠ "text")
    (hclean : pm.Clean = .ok pmc) (hd : p.children[n]? = some d)
    (hdm : pmc.children[n]? = some dm) (hname : d.Name = dm.Name)
    (hr : p.Reconcile pm = .ok (c, p1, pm1, log)) :
    ∃ c1 d1 dm1 log1, d.Reconcile dm = .ok (c1, d1, dm1, log1) ∧ (c1 = true → c = true) := by
  have hnlt : n < p.children.length := (List.getElem?_eq_some.mp hd).1
  have hc : p.children ≠ [] := by
    intro h; rw [h] at hnlt; simp at hnlt
  rw [Markup.Reconcile_walk hn ht hclean hc] at hr
  split at hr
  · cases hr
  · rename_i st hw
    obtain ⟨sta, stb, _, hb, hpost⟩ := walk_split_at hdm hw
    unfold walkStep at hb
    have hnames : (d.Name != dm.Name) = false := by simp [hname]
    simp only [gt_iff_lt, hnlt, ↓reduceIte, hd, hnames, Bool.false_eq_true] at hb
    split at hb
    · cases hb
    · rename_i c1 d1 dm1 log1 hrec
      refine ⟨c1, d1, dm1, log1, hrec, ?_⟩
      intro hc1
      cases hb
      have hflag : st.childChanged = true :=
        walk_childChanged_mono hpost (by simp [hc1])
      dsimp only at hr
      simp only [hflag, Bool.not_true, Bool.false_and, Bool.false_eq_true, ↓reduceIte,
        Except.ok.injEq, Prod.mk.injEq] at hr
      exact hr.1.symm

/-! ## The scenario `div > [span("a"), span("c")]` against `div > [span("a"), span("b")]` -/

theorem scenarioOld_Clean : scenarioOld.Clean = .ok scenarioOld := by
  simp [scenarioOld, element, textNode, Markup.Clean, Markup.height, heightList, CleanFuel,
    cleanBody, cleanLoop, cleanStep, Markup.children, Markup.Removed, Markup.fields,
    Markup.setChildren, List.range, List.range.loop]

theorem scenario_Reconcile :
    scenarioNew.Reconcile scenarioOld = .ok (true, scenarioNewAfter, scenarioOld, []) := by
  simp [scenarioNew, scenarioOld, scenarioNewAfter, element, textNode, Markup.Reconcile,
    ReconcileFuel, reconcileBody, walk, walkStep, walkRemove, Markup.Clean, Markup.height,
    heightList, CleanFuel, cleanBody, cleanLoop, cleanStep, Markup.children, Markup.Removed,
    Markup.fields, Markup.setChildren, Markup.setFields, List.range, List.range.loop,
    Markup.Name, Markup.UID, Markup.Hash, Markup.SwapUID, Markup.SwapHash, Markup.TextContent,
    EqualAttributes, EqualStyles, Markup.Attributes, Markup.Styles, ReconcileEvents, NewAttr,
    List.isPerm, List.erase, List.isEmpty]

/-! ## The recursion bounds of LoadEvents and Reconcile are never reached -/

@[simp] theorem Markup.setFields_height (e : Markup) (f : Fields) :
    (e.setFields f).height = e.height := by
  cases e; rfl

@[simp] theorem Markup.setEventManager_height (e : Markup) (man : Option Nat) :
    (e.setEventManager man).height = e.height := by
  simp [Markup.setEventManager]

theorem loadChild_congr {load1 load2 : Markup → Except Abort (Markup × List SinkCall)} {h : Nat}
    (hagree : ∀ x, x.height ≤ h → load1 x = load2 x) (man : Option Nat) {ems : Markup}
    (hems : ems.height ≤ h) : loadChild load1 man ems = loadChild load2 man ems := by
  unfold loadChild UseEventManagerWith
  cases hsink : ems.fields.eventManager with
  | some own =>
    cases man with
    | none => rfl
    | some m => simp only [hagree ems hems]
  | none =>
    simp only [hagree (ems.setEventManager man) (by simpa using hems)]
    cases load2 (ems.setEventManager man) with
    | error x => rfl
    | ok r => rfl

theorem loadChildren_congr {load1 load2 : Markup → Except Abort (Markup × List SinkCall)}
    {h : Nat} (hagree : ∀ x, x.height ≤ h → load1 x = load2 x) (man : Option Nat) :
    ∀ (cs : List Markup), (∀ c ∈ cs, c.height ≤ h) →
      loadChildren load1 man cs = loadChildren load2 man cs := by
  intro cs
  induction cs with
  | nil => intro _; rfl
  | cons c cs ih =>
    intro hcs
    simp only [loadChildren, loadChild_congr hagree man (hcs c (List.mem_cons_self _ _)),
      ih (fun d hd => hcs d (List.mem_cons_of_mem _ hd))]

theorem loadChild_ne_outOfFuel {load : Markup → Except Abort (Markup × List SinkCall)} {h : Nat}
    (hfuel : ∀ x, x.height ≤ h → load x ≠ .error .outOfFuel) (man : Option Nat) {ems : Markup}
    (hems : ems.height ≤ h) : loadChild load man ems ≠ .error .outOfFuel := by
  unfold loadChild UseEventManagerWith
  cases hsink : ems.fields.eventManager with
  | some own =>
    cases man with
    | none => simp
    | some m =>
      dsimp only
      cases hl : load ems with
      | error x =>
        intro hbad
        simp only [Except.error.injEq] at hbad
        exact hfuel ems hems (by rw [hl, hbad])
      | ok r => simp
  | none =>
    dsimp only
    cases hl : load (ems.setEventManager man) with
    | error x =>
      intro hbad
      simp only [Except.error.injEq] at hbad
      exact hfuel (ems.setEventManager man) (by simpa using hems) (by rw [hl, hbad])
    | ok r => simp

theorem loadChildren_ne_outOfFuel {load : Markup → Except Abort (Markup × List SinkCall)}
    {h : Nat} (hfuel : ∀ x, x.height ≤ h → load x ≠ .error .outOfFuel) (man : Option Nat) :
    ∀ (cs : List Markup), (∀ c ∈ cs, c.height ≤ h) →
      loadChildren load man cs ≠ .error .outOfFuel := by
  intro cs
  induction cs with
  | nil => intro _; simp [loadChildren]
  | cons c cs ih =>
    intro hcs
    simp only [loadChildren]
    cases hc : loadChild load man c with
    | error x =>
      intro hbad
      simp only [Except.error.injEq] at hbad
      exact loadChild_ne_outOfFuel hfuel man (hcs c (List.mem_cons_self _ _)) (by rw [hc, hbad])
    | ok r =>
      dsimp only
      cases hrest : loadChildren load man cs with
      | error x =>
        intro hbad
        simp only [Except.error.injEq] at hbad
        exact ih (fun d hd => hcs d (List.mem_cons_of_mem _ hd)) (by rw [hrest, hbad])
      | ok r2 => simp

theorem LoadEventsFuel_adequate (f : Nat) : ∀ (e : Markup), e.height ≤ f →
    LoadEventsFuel f e = LoadEventsFuel e.height e ∧ LoadEventsFuel f e ≠ .error .outOfFuel := by
  induction f using Nat.strong_induction_on with
  | _ f ih =>
    intro e hle
    cases f with
    | zero => exact absurd hle (Nat.not_le.mpr e.height_pos)
    | succ f =>
      have hh := e.height_eq
      have hhf : heightList e.children ≤ f := by omega
      have hagree : ∀ x, x.height ≤ heightList e.children →
          LoadEventsFuel f x = LoadEventsFuel (heightList e.children) x := by
        intro x hx
        rw [(ih f (Nat.lt_succ_self f) x (by omega)).1]
        by_cases heq : heightList e.children = f
        · rw [heq, (ih f (Nat.lt_succ_self f) x (by omega)).1]
        · rw [(ih (heightList e.children) (by omega) x hx).1]
      refine ⟨?_, ?_⟩
      · rw [hh]
        simp only [LoadEventsFuel]
        unfold loadEventsBody
        dsimp only
        rw [loadChildren_congr hagree _ _ (fun x hx => height_le_heightList hx)]
      · simp only [LoadEventsFuel]
        unfold loadEventsBody
        dsimp only
        intro hbad
        split at hbad
        · rename_i x hl
          cases hbad
          exact loadChildren_ne_outOfFuel
            (fun x hx => (ih f (Nat.lt_succ_self f) x (by omega)).2) _ _
            (fun x hx => le_trans (height_le_heightList hx) hhf) hl
        · cases hbad

/-- The method `LoadEvents` never stops for lack of fuel. -/
theorem Markup.LoadEvents_ne_outOfFuel (e : Markup) : e.LoadEvents ≠ .error .outOfFuel :=
  (LoadEventsFuel_adequate e.height e (le_refl _)).2

/-- The method `LoadEvents` satisfies its own defining equation. -/
theorem Markup.LoadEvents_eq (e : Markup) :
    e.LoadEvents = loadEventsBody Markup.LoadEvents e := by
  have hh := e.height_eq
  unfold Markup.LoadEvents
  rw [hh]
  simp only [LoadEventsFuel]
  unfold loadEventsBody
  dsimp only
  have hagree : ∀ x, x.height ≤ heightList e.children →
      LoadEventsFuel (heightList e.children) x = Markup.LoadEvents x := fun x hx =>
    (LoadEventsFuel_adequate (heightList e.children) x hx).1
  rw [loadChildren_congr hagree _ _ (fun x hx => height_le_heightList hx)]
  rfl

/-- The method `UseEventManager` never stops for lack of fuel. -/
theorem Markup.UseEventManager_ne_outOfFuel (e : Markup) (man : Option Nat) :
    e.UseEventManager man ≠ .error .outOfFuel := by
  unfold Markup.UseEventManager UseEventManagerWith
  cases e.fields.eventManager with
  | some own => cases man <;> simp
  | none =>
    dsimp only
    cases hl : Markup.LoadEvents (e.setEventManager man) with
    | error x =>
      intro hbad
      simp only [Except.error.injEq] at hbad
      exact Markup.LoadEvents_ne_outOfFuel _ (by rw [hl, hbad])
    | ok r => simp

theorem addChildren_ne_outOfFuel : ∀ (child : List Markup) (e : Markup) (seen : List Markup)
    (log : List SinkCall), addChildren e seen log child ≠ .error .outOfFuel := by
  intro child
  induction child with
  | nil => intro e seen log; simp [addChildren]
  | cons ch rest ih =>
    intro e seen log
    simp only [addChildren]
    cases hu : ch.UseEventManager e.fields.eventManager with
    | error x =>
      intro hbad
      simp only [Except.error.injEq] at hbad
      exact Markup.UseEventManager_ne_outOfFuel _ _ (by rw [hu, hbad])
    | ok r => exact ih _ _ _

/-- The method `AddChild` never stops for lack of fuel. -/
theorem Markup.AddChild_ne_outOfFuel (e : Markup) (child : List Markup) :
    e.AddChild child ≠ .error .outOfFuel := by
  unfold Markup.AddChild
  split
  · simp
  · exact addChildren_ne_outOfFuel _ _ _ _

theorem walkRemove_ne_outOfFuel (st : WalkState) (och : Markup) :
    walkRemove st och ≠ .error .outOfFuel := by
  unfold walkRemove
  cases ha : st.e.AddChild [och.Remove] with
  | error x =>
    intro hbad
    simp only [Except.error.injEq] at hbad
    exact Markup.AddChild_ne_outOfFuel _ _ (by rw [ha, hbad])
  | ok r => simp

theorem walk_ne_outOfFuel
    {rec : Markup → Markup → Except Abort (Bool × Markup × Markup × List SinkCall)}
    {nc : List Markup} (hfuel : ∀ nch ∈ nc, ∀ och, rec nch och ≠ .error .outOfFuel) :
    ∀ (olds : List Markup) (st : WalkState) (n : Nat),
      walk rec nc st n olds ≠ .error .outOfFuel := by
  intro olds
  induction olds with
  | nil => intro st n; simp [walk]
  | cons och rest ih =>
    intro st n
    simp only [walk]
    cases hs : walkStep rec nc st n och with
    | error x =>
      intro hbad
      simp only [Except.error.injEq] at hbad
      subst hbad
      unfold walkStep at hs
      split at hs
      · split at hs
        · cases hs
        · rename_i nch hnch
          split at hs
          · exact walkRemove_ne_outOfFuel _ _ hs
          · split at hs
            · rename_i x hrec
              cases hs
              exact hfuel nch (List.getElem?_mem hnch) och hrec
            · cases hs
      · exact walkRemove_ne_outOfFuel _ _ hs
    | ok st1 => exact ih st1 (n + 1)

theorem Markup.Reconcile_ne_outOfFuel_of_height : ∀ (k : Nat) (e em : Markup), e.height ≤ k →
    e.Reconcile em ≠ .error .outOfFuel := by
  intro k
  induction k with
  | zero => intro e em hle; exact absurd hle (Nat.not_le.mpr e.height_pos)
  | succ k ih =>
    intro e em hle
    have hkids : ∀ nch ∈ e.children, ∀ och, nch.Reconcile och ≠ .error .outOfFuel :=
      fun nch hmem och => ih nch och (by have := Markup.height_child hmem; omega)
    by_cases hn : e.Name = em.Name
    · cases hclean : em.Clean with
      | error x =>
        rw [Markup.Reconcile_clean_error hn hclean]
        intro hbad
        simp only [Except.error.injEq] at hbad
        exact em.Clean_ne_outOfFuel (by rw [hclean, hbad])
      | ok emc =>
        by_cases ht : e.Name = "text"
        · rw [Markup.Reconcile_text hn ht hclean]
          split <;> simp
        · by_cases hc : e.children = []
          · rw [Markup.Reconcile_no_children hn ht hclean hc]
            split
            · simp
            · split <;> simp
          · rw [Markup.Reconcile_walk hn ht hclean hc]
            cases hw : walk Markup.Reconcile e.children ⟨e.SwapUID emc.UID, [], false, []⟩ 0
                emc.children with
            | error x =>
              intro hbad
              simp only [Except.error.injEq] at hbad
              exact walk_ne_outOfFuel hkids _ _ _ (by rw [hw, hbad])
            | ok st =>
              dsimp only
              split <;> simp
    · rw [Markup.Reconcile_of_name_ne hn]
      simp

/-- The method `Reconcile` never stops for lack of fuel: whenever it has no
result, a runtime failure of the program is the reason. -/
theorem Markup.Reconcile_ne_outOfFuel (e em : Markup) :
    e.Reconcile em ≠ .error .outOfFuel :=
  Markup.Reconcile_ne_outOfFuel_of_height e.height e em (le_refl _)

/-! ## Runs without a runtime failure -/

theorem sinkFreeList_iff {cs : List Markup} :
    sinkFreeList cs = true ↔ ∀ c ∈ cs, c.sinkFree = true := by
  induction cs with
  | nil => simp [sinkFreeList]
  | cons d ds ih => simp [sinkFreeList, ih]

theorem noRemovedList_iff {cs : List Markup} :
    noRemovedList cs = true ↔ ∀ c ∈ cs, c.Removed = false ∧ c.noRemovedBelow = true := by
  induction cs with
  | nil => simp [noRemovedList]
  | cons d ds ih => simp [noRemovedList, ih, and_assoc]

theorem Markup.sinkFree_iff (e : Markup) :
    e.sinkFree = true ↔ e.fields.eventManager = none ∧ ∀ c ∈ e.children, c.sinkFree = true := by
  cases e with
  | mk f cs => simp [Markup.sinkFree, sinkFreeList_iff, Markup.fields, Markup.children]

theorem Markup.noRemovedBelow_iff (e : Markup) :
    e.noRemovedBelow = true ↔
      ∀ c ∈ e.children, c.Removed = false ∧ c.noRemovedBelow = true := by
  cases e with
  | mk f cs => simp [Markup.noRemovedBelow, noRemovedList_iff, Markup.children]

theorem list_set_self {α : Type} : ∀ (l : List α) (n : Nat) (a : α), l[n]? = some a →
    l.set n a = l := by
  intro l
  induction l with
  | nil => intro n a h; simp at h
  | cons x xs ih =>
    intro n a h
    cases n with
    | zero => simp at h; simp [h]
    | succ n => simp at h; simp [ih n a h]

theorem filterMap_range' {α : Type} (cs : List α) : ∀ (m k : Nat), k + m ≤ cs.length →
    (List.range' k m).filterMap (cs[·]?) = (cs.drop k).take m := by
  intro m
  induction m with
  | zero => intro k _; simp
  | succ m ih =>
    intro k hk
    have hlt : k < cs.length := by omega
    rw [List.range'_succ, List.filterMap_cons, List.getElem?_eq_getElem hlt]
    simp only
    rw [ih (k + 1) (by omega), List.drop_eq_getElem_cons hlt, List.take_succ_cons]

theorem filterMap_range_self {α : Type} (cs : List α) :
    ((List.range cs.length).take cs.length).filterMap (cs[·]?) = cs := by
  rw [List.take_of_length_le (by simp), List.range_eq_range', filterMap_range' cs _ 0 (by simp)]
  simp

/-- With no removed child and a recursive call that hands every child back as
it is, the loop of `Clean` leaves its state as it was. -/
theorem cleanLoop_of_live {rec : Markup → Except Abort Markup} {cs : List Markup}
    (hlive : ∀ c ∈ cs, c.Removed = false ∧ rec c = .ok c) :
    ∀ (ns : List Nat), (∀ n ∈ ns, n < cs.length) →
      cleanLoop rec ⟨List.range cs.length, cs.length, cs⟩ ns
        = .ok ⟨List.range cs.length, cs.length, cs⟩ := by
  intro ns
  induction ns with
  | nil => intro _; rfl
  | cons n ns ih =>
    intro hns
    have hn : n < cs.length := hns n (List.mem_cons_self _ _)
    have hstep : cleanStep rec ⟨List.range cs.length, cs.length, cs⟩ n
        = .ok ⟨List.range cs.length, cs.length, cs⟩ := by
      unfold cleanStep
      have hc := hlive cs[n] (List.getElem_mem hn)
      simp only [List.getElem?_range hn, List.getElem?_eq_getElem hn, hc.1, Bool.false_eq_true,
        ↓reduceIte, hc.2, list_set_self cs n cs[n] (List.getElem?_eq_getElem hn)]
    simp only [cleanLoop, hstep]
    exact ih (fun m hm => hns m (List.mem_cons_of_mem _ hm))

/-- The method `Clean` on a tree without removed nodes below the root returns the tree. -/
theorem Markup.Clean_of_noRemovedBelow : ∀ (k : Nat) (e : Markup), e.height ≤ k →
    e.noRemovedBelow = true → e.Clean = .ok e := by
  intro k
  induction k with
  | zero => intro e hle; exact absurd hle (Nat.not_le.mpr e.height_pos)
  | succ k ih =>
    intro e hle hlive
    rw [Markup.Clean_eq]
    unfold cleanBody
    dsimp only
    rw [cleanLoop_of_live (fun c hc =>
      ⟨((e.noRemovedBelow_iff.mp hlive) c hc).1,
        ih c (by have := Markup.height_child hc; omega)
          ((e.noRemovedBelow_iff.mp hlive) c hc).2⟩) _ (fun n hn => List.mem_range.mp hn)]
    simp only [filterMap_range_self]
    cases e; rfl

theorem Markup.setEventManager_self {e : Markup} (h : e.fields.eventManager = none) :
    e.setEventManager none = e := by
  cases e with
  | mk f cs =>
    simp only [Markup.fields] at h
    simp only [Markup.setEventManager, Markup.setFields, Markup.fields, ← h]

theorem loadChildren_of_sinkFree {load : Markup → Except Abort (Markup × List SinkCall)} :
    ∀ (cs : List Markup), (∀ c ∈ cs, c.fields.eventManager = none ∧ load c = .ok (c, [])) →
      loadChildren load none cs = .ok (cs, []) := by
  intro cs
  induction cs with
  | nil => intro _; rfl
  | cons c cs ih =>
    intro h
    have hc := h c (List.mem_cons_self _ _)
    have hchild : loadChild load none c = .ok (c, []) := by
      unfold loadChild UseEventManagerWith
      simp [hc.1, Markup.setEventManager_self hc.1, hc.2]
    simp [loadChildren, hchild, ih (fun d hd => h d (List.mem_cons_of_mem _ hd))]

/-- The method `LoadEvents` on a tree without any sink does nothing. -/
theorem Markup.LoadEvents_of_sinkFree : ∀ (k : Nat) (e : Markup), e.height ≤ k →
    e.sinkFree = true → e.LoadEvents = .ok (e, []) := by
  intro k
  induction k with
  | zero => intro e hle; exact absurd hle (Nat.not_le.mpr e.height_pos)
  | succ k ih =>
    intro e hle hfree
    obtain ⟨hsink, hkids⟩ := e.sinkFree_iff.mp hfree
    rw [Markup.LoadEvents_eq]
    unfold loadEventsBody
    dsimp only
    rw [hsink, loadChildren_of_sinkFree e.children (fun c hc =>
      ⟨(c.sinkFree_iff.mp (hkids c hc)).1,
        ih c (by have := Markup.height_child hc; omega) (hkids c hc)⟩)]
    cases e; rfl

/-- Binding the nil sink to a tree without any sink does nothing. -/
theorem Markup.UseEventManager_of_sinkFree {e : Markup} (hfree : e.sinkFree = true) :
    e.UseEventManager none = .ok (true, e, []) := by
  have hsink := (e.sinkFree_iff.mp hfree).1
  unfold Markup.UseEventManager UseEventManagerWith
  simp [hsink, Markup.setEventManager_self hsink,
    Markup.LoadEvents_of_sinkFree e.height e (le_refl _) hfree]

/-- The method `AddChild` of one sink-free child to a node without a sink returns. -/
theorem Markup.AddChild_of_sinkFree {e ch : Markup} (hsink : e.fields.eventManager = none)
    (hfree : ch.sinkFree = true) : ∃ e1, e.AddChild [ch] = .ok (e1, [ch], []) := by
  unfold Markup.AddChild
  split
  · exact ⟨e, rfl⟩
  · simp [addChildren, hsink, Markup.UseEventManager_of_sinkFree hfree]

theorem Markup.Remove_sinkFree {e : Markup} (hfree : e.sinkFree = true) :
    e.Remove.sinkFree = true := by
  unfold Markup.Remove
  split
  · cases e with
    | mk f cs => simpa [Markup.sinkFree, Markup.setFields, Markup.fields] using hfree
  · exact hfree

theorem walk_returns
    {rec : Markup → Markup → Except Abort (Bool × Markup × Markup × List SinkCall)}
    {nc : List Markup} : ∀ (olds : List Markup) (st : WalkState) (n : Nat),
    st.e.fields.eventManager = none → (∀ och ∈ olds, och.sinkFree = true) →
    (∀ nch ∈ nc, ∀ och ∈ olds, ∃ r, rec nch och = .ok r) →
    ∃ st1, walk rec nc st n olds = .ok st1 := by
  intro olds
  induction olds with
  | nil => intro st n _ _ _; exact ⟨st, rfl⟩
  | cons och rest ih =>
    intro st n hsink hfree hrec
    have hrem : ∃ st1, walkRemove st och = .ok st1 := by
      obtain ⟨e1, he1⟩ := Markup.AddChild_of_sinkFree hsink
        (Markup.Remove_sinkFree (hfree och (List.mem_cons_self _ _)))
      unfold walkRemove
      rw [he1]
      exact ⟨_, rfl⟩
    have hstep : ∃ st1, walkStep rec nc st n och = .ok st1 := by
      unfold walkStep
      split
      · split
        · rename_i hlt _ hnone
          have := List.getElem?_eq_none_iff.mp hnone
          omega
        · rename_i nch hnch
          split
          · exact hrem
          · obtain ⟨r, hr⟩ := hrec nch (List.getElem?_mem hnch) och (List.mem_cons_self _ _)
            rw [hr]
            exact ⟨_, rfl⟩
      · exact hrem
    obtain ⟨st1, hst1⟩ := hstep
    simp only [walk, hst1]
    exact ih st1 (n + 1) (by rw [walkStep_fields hst1]; exact hsink)
      (fun o ho => hfree o (List.mem_cons_of_mem _ ho))
      (fun c hc o ho => hrec c hc o (List.mem_cons_of_mem _ ho))

theorem Markup.Reconcile_returns_of_height : ∀ (k : Nat) (e em : Markup), e.height ≤ k →
    e.sinkFree = true → em.sinkFree = true → em.noRemovedBelow = true →
    ∃ r, e.Reconcile em = .ok r := by
  intro k
  induction k with
  | zero => intro e em hle; exact absurd hle (Nat.not_le.mpr e.height_pos)
  | succ k ih =>
    intro e em hle hfree hmfree hlive
    by_cases hn : e.Name = em.Name
    · have hclean := Markup.Clean_of_noRemovedBelow em.height em (le_refl _) hlive
      by_cases ht : e.Name = "text"
      · rw [Markup.Reconcile_text hn ht hclean]
        split <;> exact ⟨_, rfl⟩
      · by_cases hc : e.children = []
        · rw [Markup.Reconcile_no_children hn ht hclean hc]
          split
          · exact ⟨_, rfl⟩
          · split <;> exact ⟨_, rfl⟩
        · rw [Markup.Reconcile_walk hn ht hclean hc]
          obtain ⟨st, hst⟩ := @walk_returns Markup.Reconcile e.children em.children
            ⟨e.SwapUID em.UID, [], false, []⟩ 0
            (by simpa [Markup.SwapUID] using (e.sinkFree_iff.mp hfree).1)
            (em.sinkFree_iff.mp hmfree).2
            (fun nch hnch och hoch =>
              ih nch och (by have := Markup.height_child hnch; omega)
                ((e.sinkFree_iff.mp hfree).2 nch hnch)
                ((em.sinkFree_iff.mp hmfree).2 och hoch)
                ((em.noRemovedBelow_iff.mp hlive) och hoch).2)
          rw [hst]
          dsimp only
          split <;> exact ⟨_, rfl⟩
    · exact ⟨_, Markup.Reconcile_of_name_ne hn⟩

/-- The method `Reconcile` returns whenever neither tree has a sink bound and no node
below the root of the old tree is marked removed. -/
theorem Markup.Reconcile_returns (e em : Markup) (hfree : e.sinkFree = true)
    (hmfree : em.sinkFree = true) (hlive : em.noRemovedBelow = true) :
    ∃ r, e.Reconcile em = .ok r :=
  Markup.Reconcile_returns_of_height e.height e em (le_refl _) hfree hmfree hlive

/-! ## Claims C1 to C10 -/

/-- C1, as amended: for every pair of nodes whose tag names differ,
`newNode.Reconcile(oldNode)` completes and returns false, the value it also
returns for an unchanged pair. -/
theorem Reconcile_tag_mismatch_returns_false (e em : Markup) (h : e.Name ≠ em.Name) :
    ∃ e1 em1 log, e.Reconcile em = .ok (false, e1, em1, log) :=
  ⟨e, em, [], Markup.Reconcile_of_name_ne h⟩

/-- Instance of C1 as amended: a `div` reconciled against a `p`. -/
theorem Reconcile_tag_mismatch_returns_false_witness :
    (element "div" "u1" "h1" []).Name ≠ (element "p" "u2" "h2" []).Name ∧
    ∃ e1 em1 log, (element "div" "u1" "h1" []).Reconcile (element "p" "u2" "h2" [])
      = .ok (false, e1, em1, log) :=
  ⟨by decide, Reconcile_tag_mismatch_returns_false _ _ (by decide)⟩

/-- C1 as stated fails: a `div` reconciled against a `p` does not return true. -/
theorem Reconcile_tag_mismatch_not_reported_changed :
    (element "div" "u1" "h1" []).Name ≠ (element "p" "u2" "h2" []).Name ∧
    ¬ ∃ e1 em1 log, (element "div" "u1" "h1" []).Reconcile (element "p" "u2" "h2" [])
      = .ok (true, e1, em1, log) := by
  refine ⟨by decide, ?_⟩
  rintro ⟨e1, em1, log, h⟩
  rw [Markup.Reconcile_of_name_ne (by decide)] at h
  simp at h

/-- C3: for every pair of nodes with equal tag names, after
`newNode.Reconcile(oldNode)` has returned, the uid of the new node is the uid
the old node had before the call. -/
theorem Reconcile_adopts_old_uid (e em e1 em1 : Markup) (changed : Bool) (log : List SinkCall)
    (hn : e.Name = em.Name) (hr : e.Reconcile em = .ok (changed, e1, em1, log)) :
    e1.UID = em.UID := by
  obtain ⟨emc, hclean⟩ := Markup.Reconcile_ok_clean hn hr
  have huid : emc.UID = em.UID := by simp [Markup.UID, Markup.Clean_fields hclean]
  by_cases ht : e.Name = "text"
  · rw [Markup.Reconcile_text hn ht hclean] at hr
    split at hr <;> cases hr <;> simp [huid]
  · by_cases hc : e.children = []
    · rw [Markup.Reconcile_no_children hn ht hclean hc] at hr
      split at hr
      · cases hr; simp [huid]
      · split at hr <;> cases hr <;> simp [huid]
    · rw [Markup.Reconcile_walk hn ht hclean hc] at hr
      split at hr
      · cases hr
      · rename_i st hw
        have hf := walk_fields _ _ _ hw
        have hst : st.e.UID = em.UID := by
          rw [Markup.UID, hf]
          simpa [Markup.SwapUID, Markup.UID] using huid
        dsimp only at hr
        split at hr <;> cases hr <;> simp [hst]

/-- Instance of C3: new `div > [text "a"]` with uid `new` against old
`div > [text "b"]` with uid `old`. -/
theorem Reconcile_adopts_old_uid_witness :
    (element "div" "new" "h1" [textNode "t1" "h2" "a"]).Name
      = (element "div" "old" "h3" [textNode "t2" "h4" "b"]).Name ∧
    (element "div" "new" "h1" [textNode "t1" "h2" "a"]).Reconcile
        (element "div" "old" "h3" [textNode "t2" "h4" "b"])
      = .ok (true, element "div" "old" "h1" [textNode "t2" "h2" "a"],
          element "div" "old" "h3" [textNode "t2" "h4" "b"], []) ∧
    (element "div" "old" "h1" [textNode "t2" "h2" "a"]).UID
      = (element "div" "old" "h3" [textNode "t2" "h4" "b"]).UID :=
  ⟨rfl, rfl, Reconcile_adopts_old_uid (element "div" "new" "h1" [textNode "t1" "h2" "a"])
    (element "div" "old" "h3" [textNode "t2" "h4" "b"])
    (element "div" "old" "h1" [textNode "t2" "h2" "a"])
    (element "div" "old" "h3" [textNode "t2" "h4" "b"]) true [] rfl rfl⟩

/-- C4: for every pair of nodes both named `text` whose old node can be
cleaned, `Reconcile` returns, it reports unchanged exactly when the two
`textContent` strings are equal, and then the new node carries the old hash;
the report is the same for any other such pair with the same two strings,
whatever the children, attributes and styles are. -/
theorem Reconcile_text_by_content (e em emc : Markup) (he : e.Name = "text")
    (hem : em.Name = "text") (hclean : em.Clean = .ok emc) :
    ∃ changed e1 em1 log, e.Reconcile em = .ok (changed, e1, em1, log) ∧
      (changed = false ↔ e.TextContent = em.TextContent) ∧
      (e.TextContent = em.TextContent → e1.Hash = em.Hash) ∧
      ∀ (e' em' emc' : Markup), e'.Name = "text" → em'.Name = "text" →
        em'.Clean = .ok emc' → e'.TextContent = e.TextContent →
        em'.TextContent = em.TextContent →
        ∃ e1' em1' log', e'.Reconcile em' = .ok (changed, e1', em1', log') := by
  have key : ∀ (a b bc : Markup), a.Name = "text" → b.Name = "text" → b.Clean = .ok bc →
      a.Reconcile b = if a.TextContent == b.TextContent then
          .ok (false, (a.SwapUID b.UID).SwapHash b.Hash, bc, [])
        else .ok (true, a.SwapUID b.UID, bc, []) := by
    intro a b bc ha hb hbc
    have hf := Markup.Clean_fields hbc
    rw [Markup.Reconcile_text (ha.trans hb.symm) ha hbc]
    simp [Markup.TextContent, Markup.UID, Markup.Hash, hf]
  by_cases htxt : e.TextContent = em.TextContent
  · refine ⟨false, (e.SwapUID em.UID).SwapHash em.Hash, emc, [], ?_, ?_, ?_, ?_⟩
    · rw [key e em emc he hem hclean]; simp [htxt]
    · simp [htxt]
    · intro _; simp
    · intro e' em' emc' he' hem' hclean' h1 h2
      refine ⟨(e'.SwapUID em'.UID).SwapHash em'.Hash, emc', [], ?_⟩
      rw [key e' em' emc' he' hem' hclean']; simp [h1, h2, htxt]
  · refine ⟨true, e.SwapUID em.UID, emc, [], ?_, ?_, ?_, ?_⟩
    · rw [key e em emc he hem hclean]; simp [htxt]
    · simp [htxt]
    · intro h; exact absurd h htxt
    · intro e' em' emc' he' hem' hclean' h1 h2
      refine ⟨e'.SwapUID em'.UID, emc', [], ?_⟩
      rw [key e' em' emc' he' hem' hclean']; simp [h1, h2, htxt]

/-- Instance of C4: two text nodes with the same content. -/
theorem Reconcile_text_by_content_witness :
    (textNode "n" "h1" "a").Name = "text" ∧ (textNode "o" "h2" "a").Name = "text" ∧
    (textNode "o" "h2" "a").Clean = .ok (textNode "o" "h2" "a") ∧
    ∃ changed e1 em1 log,
      (textNode "n" "h1" "a").Reconcile (textNode "o" "h2" "a") = .ok (changed, e1, em1, log) ∧
      (changed = false ↔ (textNode "n" "h1" "a").TextContent = (textNode "o" "h2" "a").TextContent) ∧
      ((textNode "n" "h1" "a").TextContent = (textNode "o" "h2" "a").TextContent →
        e1.Hash = (textNode "o" "h2" "a").Hash) := by
  refine ⟨rfl, rfl, rfl, ?_⟩
  obtain ⟨c, e1, em1, log, h1, h2, h3, _⟩ :=
    Reconcile_text_by_content (textNode "n" "h1" "a") (textNode "o" "h2" "a")
      (textNode "o" "h2" "a") rfl rfl rfl
  exact ⟨c, e1, em1, log, h1, h2, h3⟩

/-- C2: for every pair of same-tag, non-text nodes where the new node has at
least one child, a `Reconcile` that returns reports unchanged and gives the new
node the old hash when no positional child pair was flagged, `EqualAttributes`
holds and `EqualStyles` holds; in every other case it reports changed. -/
theorem Reconcile_hash_decision (e em emc e1 em1 : Markup) (changed : Bool)
    (log : List SinkCall) (hn : e.Name = em.Name) (ht : e.Name ≠ "text")
    (hc : e.children ≠ []) (hclean : em.Clean = .ok emc)
    (hr : e.Reconcile em = .ok (changed, e1, em1, log)) :
    ((NoChildFlagged e.children emc.children ∧ EqualAttributes e em = true ∧
        EqualStyles e em = true) → changed = false ∧ e1.Hash = em.Hash) ∧
    (¬ (NoChildFlagged e.children emc.children ∧ EqualAttributes e em = true ∧
        EqualStyles e em = true) → changed = true) := by
  have hf := Markup.Clean_fields hclean
  have hhash : emc.Hash = em.Hash := by simp [Markup.Hash, hf]
  rw [Markup.Reconcile_walk hn ht hclean hc] at hr
  split at hr
  · cases hr
  · rename_i st hw
    have hflag := @walk_childChanged_iff_noChildFlagged e.children emc.children
      ⟨e.SwapUID emc.UID, [], false, []⟩ st rfl hw
    rw [EqualAttributes_congr_right e hf, EqualStyles_congr_right e hf] at hr
    dsimp only at hr
    split at hr
    · rename_i hcond
      cases hr
      simp only [Bool.and_eq_true, Bool.not_eq_true', ] at hcond
      refine ⟨fun _ => ⟨rfl, by simp [hhash]⟩, fun hnot => ?_⟩
      exact absurd ⟨hflag.mp hcond.1.1, hcond.1.2, hcond.2⟩ hnot
    · rename_i hcond
      cases hr
      refine ⟨fun hall => ?_, fun _ => rfl⟩
      exfalso
      apply hcond
      simp [hflag.mpr hall.1, hall.2.1, hall.2.2]

/-- C6: for every pair of same-tag, non-text nodes and every position `n` below
both child counts at which the new child's tag differs from the old child's
tag, after a `Reconcile` that returns: the report is changed, the new child at
`n` is as it was (no recursive `Reconcile` touched it), the old child at `n` is
marked removed (flag set, `NodeRemoved` attribute appended unless the child was
marked already) and that old child lies in the part of the new node's child
list that was appended behind the original children. -/
theorem Reconcile_tag_mismatch_at_position (e em emc e1 em1 nch och : Markup) (n : Nat)
    (changed : Bool) (log : List SinkCall) (hn : e.Name = em.Name) (ht : e.Name ≠ "text")
    (hallow : e.fields.allowChildren = true) (hclean : em.Clean = .ok emc)
    (hnch : e.children[n]? = some nch) (hoch : emc.children[n]? = some och)
    (hne : nch.Name ≠ och.Name) (hr : e.Reconcile em = .ok (changed, e1, em1, log)) :
    changed = true ∧ e1.children[n]? = some nch ∧
    ∃ och1, em1.children[n]? = some och1 ∧ och1.fields.removed = true ∧
      (och.fields.removed = false →
        och1.fields.attrs = och.fields.attrs ++ [⟨"NodeRemoved", ""⟩]) ∧
      (och.fields.removed = true → och1.fields.attrs = och.fields.attrs) ∧
      och1 ∈ e1.children.drop e.children.length := by
  have hnlt : n < e.children.length := (List.getElem?_eq_some.mp hnch).1
  have hc : e.children ≠ [] := by
    intro h; rw [h] at hnlt; simp at hnlt
  rw [Markup.Reconcile_walk hn ht hclean hc] at hr
  split at hr
  · cases hr
  · rename_i st hw
    obtain ⟨sta, stb, ha, hb, hpost⟩ := walk_split_at hoch hw
    have htake : (emc.children.take n).length = n := by
      have := (List.getElem?_eq_some.mp hoch).1
      simp; omega
    -- the iterations before position `n`
    obtain ⟨⟨va, hva, hvalen⟩, halen, haslot⟩ := walk_frame _ _ _ ha
    have hafields := walk_fields _ _ _ ha
    simp only [List.nil_append, Markup.SwapUID_children] at hva halen haslot
    rw [htake] at hvalen
    have hasn : sta.e.children[n]? = some nch := by
      rw [haslot n (by rw [htake]; omega) hnlt]; exact hnch
    have haallow : sta.e.fields.allowChildren = true := by
      rw [hafields]; simpa [Markup.SwapUID] using hallow
    -- the iteration at position `n`
    have hrem : walkRemove sta och = .ok stb := by
      unfold walkStep at hb
      simp only [gt_iff_lt, hnlt, ↓reduceIte, hnch] at hb
      have : (nch.Name != och.Name) = true := by simpa using hne
      simpa [this] using hb
    obtain ⟨ch1, hvb, hch1, hbflag, hbyes, _⟩ := walkRemove_spec hrem
    have hbchildren := hbyes haallow
    -- the iterations after position `n`
    obtain ⟨⟨vp, hvp, _⟩, _, hpslot⟩ := walk_frame _ _ _ hpost
    have hflag : st.childChanged = true := walk_childChanged_mono hpost hbflag
    have hsn : st.e.children[n]? = some nch := by
      rw [hpslot n (by omega) (by rw [hbchildren]; simp; omega), hbchildren,
        List.getElem?_append_left (by omega)]
      exact hasn
    have hsapp : st.e.children[sta.e.children.length]? = some ch1 := by
      rw [hpslot sta.e.children.length (by omega) (by rw [hbchildren]; simp), hbchildren]
      simp
    have hvis : st.visited[n]? = some ch1 := by
      rw [hvp, hvb, hva, List.append_assoc, List.getElem?_append_right (by omega), hvalen]
      simp
    dsimp only at hr
    simp only [hflag, Bool.not_true, Bool.false_and, Bool.false_eq_true, ↓reduceIte,
      Except.ok.injEq, Prod.mk.injEq] at hr
    obtain ⟨hchanged, he1, hem1, _⟩ := hr
    subst he1 hem1
    refine ⟨hchanged.symm, hsn, ch1, by simpa using hvis, ?_, ?_, ?_, ?_⟩
    · rw [hch1]; exact och.Remove_removed
    · intro hlive; rw [hch1]; exact Markup.Remove_attrs_of_live hlive
    · intro hgone; rw [hch1, Markup.Remove_of_removed hgone]
    · exact mem_drop_of_getElem? hsapp halen

/-- Instance of C6: new `div > [p]` against old `div > [span]`. -/
theorem Reconcile_tag_mismatch_at_position_witness :
    (element "p" "c1" "h3" []).Name ≠ (element "span" "c2" "h4" []).Name ∧
    (element "div" "n" "h1" [element "p" "c1" "h3" []]).Reconcile
        (element "div" "o" "h2" [element "span" "c2" "h4" []])
      = .ok (true,
          element "div" "o" "h1" [element "p" "c1" "h3" [], (element "span" "c2" "h4" []).Remove],
          element "div" "o" "h2" [(element "span" "c2" "h4" []).Remove], []) ∧
    (element "span" "c2" "h4" []).Remove ∈
      (element "div" "o" "h1"
        [element "p" "c1" "h3" [], (element "span" "c2" "h4" []).Remove]).children.drop
        (element "div" "n" "h1" [element "p" "c1" "h3" []]).children.length := by
  have h := Reconcile_tag_mismatch_at_position
    (element "div" "n" "h1" [element "p" "c1" "h3" []])
    (element "div" "o" "h2" [element "span" "c2" "h4" []])
    (element "div" "o" "h2" [element "span" "c2" "h4" []])
    (element "div" "o" "h1" [element "p" "c1" "h3" [], (element "span" "c2" "h4" []).Remove])
    (element "div" "o" "h2" [(element "span" "c2" "h4" []).Remove])
    (element "p" "c1" "h3" []) (element "span" "c2" "h4" []) 0 true []
    rfl (by decide) rfl rfl rfl rfl (by decide) rfl
  obtain ⟨_, _, och1, hoch1, _, _, _, hmem⟩ := h
  have : och1 = (element "span" "c2" "h4" []).Remove := by
    have h0 : (element "div" "o" "h2" [(element "span" "c2" "h4" []).Remove]).children[0]?
        = some (element "span" "c2" "h4" []).Remove := rfl
    rw [h0] at hoch1
    exact (Option.some.inj hoch1).symm
  subst this
  exact ⟨by decide, rfl, hmem⟩

/-- C8: change reports propagate upward.  When `e.Reconcile(em)` returns, every
call it reaches through positional same-tag child pairs has returned, and if
such a call reports changed then `e.Reconcile(em)` reports changed; applied to
each ancestor pair in turn, a change reported at a descendant is reported by
every ancestor up to the root. -/
theorem Reconcile_change_propagates (e em d dm e1 em1 : Markup) (c : Bool)
    (log : List SinkCall) (hreach : WalkReaches e em d dm)
    (hr : e.Reconcile em = .ok (c, e1, em1, log)) :
    ∃ c1 d1 dm1 log1, d.Reconcile dm = .ok (c1, d1, dm1, log1) ∧ (c1 = true → c = true) := by
  induction hreach with
  | root => exact ⟨c, e1, em1, log, hr, fun h => h⟩
  | child _ hn ht hclean hd hdm hname ih =>
    obtain ⟨cp, p1, pm1, logp, hp, hup⟩ := ih
    obtain ⟨c1, d1, dm1, log1, hd1, hup1⟩ :=
      Markup.Reconcile_child_call hn ht hclean hd hdm hname hp
    exact ⟨c1, d1, dm1, log1, hd1, fun h => hup (hup1 h)⟩

/-- Instance of C8: in the scenario `div > [span("a"), span("c")]` against
`div > [span("a"), span("b")]` the call on the second text pair is reached, it
reports changed, and so does the root. -/
theorem Reconcile_change_propagates_witness :
    WalkReaches scenarioNew scenarioOld (textNode "t2" "h5" "c") (textNode "q2" "g5" "b") ∧
    scenarioNew.Reconcile scenarioOld = .ok (true, scenarioNewAfter, scenarioOld, []) ∧
    ∃ c1 d1 dm1 log1,
      (textNode "t2" "h5" "c").Reconcile (textNode "q2" "g5" "b") = .ok (c1, d1, dm1, log1) ∧
      (c1 = true → true = true) := by
  have hreach : WalkReaches scenarioNew scenarioOld (textNode "t2" "h5" "c")
      (textNode "q2" "g5" "b") := by
    refine @WalkReaches.child scenarioNew scenarioOld
      (element "span" "s2" "h4" [textNode "t2" "h5" "c"])
      (element "span" "p2" "g4" [textNode "q2" "g5" "b"])
      (element "span" "p2" "g4" [textNode "q2" "g5" "b"])
      (textNode "t2" "h5" "c") (textNode "q2" "g5" "b") 0
      ?_ rfl (by decide) rfl rfl rfl rfl
    exact @WalkReaches.child scenarioNew scenarioOld scenarioNew scenarioOld scenarioOld
      (element "span" "s2" "h4" [textNode "t2" "h5" "c"])
      (element "span" "p2" "g4" [textNode "q2" "g5" "b"]) 1
      WalkReaches.root rfl (by decide) scenarioOld_Clean rfl rfl rfl
  exact ⟨hreach, scenario_Reconcile,
    Reconcile_change_propagates scenarioNew scenarioOld (textNode "t2" "h5" "c")
      (textNode "q2" "g5" "b") scenarioNewAfter scenarioOld true [] hreach scenario_Reconcile⟩

/-- Instance of C2: new `div > [text "a"]` against old `div > [text "a"]`. -/
theorem Reconcile_hash_decision_witness :
    (element "div" "n" "h1" [textNode "t1" "h2" "a"]).Reconcile
        (element "div" "o" "g1" [textNode "q1" "g2" "a"])
      = .ok (false, element "div" "o" "g1" [textNode "q1" "g2" "a"],
          element "div" "o" "g1" [textNode "q1" "g2" "a"], []) ∧
    ((NoChildFlagged (element "div" "n" "h1" [textNode "t1" "h2" "a"]).children
          (element "div" "o" "g1" [textNode "q1" "g2" "a"]).children ∧
        EqualAttributes (element "div" "n" "h1" [textNode "t1" "h2" "a"])
          (element "div" "o" "g1" [textNode "q1" "g2" "a"]) = true ∧
        EqualStyles (element "div" "n" "h1" [textNode "t1" "h2" "a"])
          (element "div" "o" "g1" [textNode "q1" "g2" "a"]) = true) →
      false = false ∧ (element "div" "o" "g1" [textNode "q1" "g2" "a"]).Hash
        = (element "div" "o" "g1" [textNode "q1" "g2" "a"]).Hash) :=
  ⟨rfl, (Reconcile_hash_decision (element "div" "n" "h1" [textNode "t1" "h2" "a"])
    (element "div" "o" "g1" [textNode "q1" "g2" "a"])
    (element "div" "o" "g1" [textNode "q1" "g2" "a"])
    (element "div" "o" "g1" [textNode "q1" "g2" "a"])
    (element "div" "o" "g1" [textNode "q1" "g2" "a"]) false [] rfl (by decide)
    (by simp [element, Markup.children]) rfl rfl).1⟩

/-- C5, what the code does on the scenario old `div > [span("x")]`, new
`div > []`: `Reconcile` returns false, the new node has the old hash and no
children, and the old `span` is not marked removed. -/
theorem Reconcile_childless_new_keeps_single_old_child :
    (element "div" "n" "h1" []).Reconcile
        (element "div" "o" "g1" [element "span" "s" "g2" [textNode "t" "g3" "x"]])
      = .ok (false, element "div" "o" "g1" [],
          element "div" "o" "g1" [element "span" "s" "g2" [textNode "t" "g3" "x"]], []) ∧
    (element "span" "s" "g2" [textNode "t" "g3" "x"]).Removed = false := ⟨rfl, rfl⟩

/-- C7, what the code does when a child was appended (old `div > []`, new
`div > [span]`): `Reconcile` returns false and the new node gets the old
hash. -/
theorem Reconcile_appended_child_reported_unchanged :
    (element "div" "n" "h1" [element "span" "s" "h2" []]).Reconcile (element "div" "o" "g1" [])
      = .ok (false, element "div" "o" "g1" [element "span" "s" "h2" []],
          element "div" "o" "g1" [], []) := rfl

/-- C9, what the code does for the tree `NewMarkup("div", false)`, whatever the
generator draws: the clone carries the attribute `data-gen` twice, and
reconciling the clone against the tree returns true. -/
theorem Clone_Reconcile_reports_changed (g : Rand) :
    ∃ co g1 co1,
      (NewMarkup "div" false g).1.Clone (NewMarkup "div" false g).2 = .ok (co, g1, []) ∧
      (NewMarkup "div" false g).1.Attributes = [NewAttr "data-gen" "gu"] ∧
      co.Attributes = [NewAttr "data-gen" "gu", NewAttr "data-gen" "gu"] ∧
      co.Reconcile (NewMarkup "div" false g).1
        = .ok (true, co1, (NewMarkup "div" false g).1, []) :=
  ⟨_, _, _, rfl, rfl, rfl, rfl⟩

/-- C10, what the code does on a child list with two adjacent removed
children: `Clean` on `div > [span (removed), span (removed), span]` leaves
`div > [span (removed), span]`; the second removed child is still there. -/
theorem Clean_keeps_second_adjacent_removed_child :
    (element "div" "d" "h0" [(element "span" "a" "h1" []).Remove,
        (element "span" "b" "h2" []).Remove, element "span" "c" "h3" []]).Clean
      = .ok (element "div" "d" "h0" [(element "span" "b" "h2" []).Remove,
          element "span" "c" "h3" []]) ∧
    (element "span" "b" "h2" []).Remove.Removed = true := ⟨rfl, rfl⟩

/-! ## The hash of the new node after Reconcile -/

@[simp] theorem Markup.SwapUID_Hash (e : Markup) (u : String) : (e.SwapUID u).Hash = e.Hash := by
  simp [Markup.SwapUID, Markup.Hash]

/-- After `Reconcile` of a same-tag pair has returned, the new node either
carries the old node's hash and the report is unchanged, or carries the hash
it had before the call and the report is changed. -/
theorem Markup.Reconcile_hash_cases {e em e1 em1 : Markup} {changed : Bool}
    {log : List SinkCall} (hn : e.Name = em.Name)
    (hr : e.Reconcile em = .ok (changed, e1, em1, log)) :
    (changed = false ∧ e1.Hash = em.Hash) ∨ (changed = true ∧ e1.Hash = e.Hash) := by
  obtain ⟨emc, hclean⟩ := Markup.Reconcile_ok_clean hn hr
  have hhash : emc.Hash = em.Hash := by simp [Markup.Hash, Markup.Clean_fields hclean]
  by_cases ht : e.Name = "text"
  · rw [Markup.Reconcile_text hn ht hclean] at hr
    split at hr <;> cases hr <;> simp [hhash]
  · by_cases hc : e.children = []
    · rw [Markup.Reconcile_no_children hn ht hclean hc] at hr
      split at hr
      · cases hr; simp
      · split at hr <;> cases hr <;> simp [hhash]
    · rw [Markup.Reconcile_walk hn ht hclean hc] at hr
      split at hr
      · cases hr
      · rename_i st hw
        have hf := walk_fields _ _ _ hw
        have hst : st.e.Hash = e.Hash := by
          rw [Markup.Hash, hf]
          simp [Markup.SwapUID, Markup.Hash]
        dsimp only at hr
        split at hr <;> cases hr <;> simp [hst, hhash]

/-! ## Binding a sink changes nothing but sink references -/

theorem eraseSinksList_eq_map (cs : List Markup) :
    eraseSinksList cs = cs.map Markup.eraseSinks := by
  induction cs with
  | nil => rfl
  | cons c cs ih => simp [eraseSinksList, ih]

theorem Markup.eraseSinks_eq (e : Markup) :
    e.eraseSinks = .mk { e.fields with eventManager := none } (e.children.map Markup.eraseSinks) := by
  cases e with
  | mk f cs => simp [Markup.eraseSinks, eraseSinksList_eq_map, Markup.fields, Markup.children]

@[simp] theorem Markup.eraseSinks_setEventManager (e : Markup) (man : Option Nat) :
    (e.setEventManager man).eraseSinks = e.eraseSinks := by
  cases e with
  | mk f cs => simp [Markup.setEventManager, Markup.setFields, Markup.fields, Markup.eraseSinks]

theorem loadChild_eraseSinks {load : Markup → Except Abort (Markup × List SinkCall)} {h : Nat}
    (hload : ∀ x, x.height ≤ h → ∀ x1 l, load x = .ok (x1, l) → x1.eraseSinks = x.eraseSinks)
    {man : Option Nat} {c c1 : Markup} {log : List SinkCall} (hc : c.height ≤ h)
    (hr : loadChild load man c = .ok (c1, log)) : c1.eraseSinks = c.eraseSinks := by
  unfold loadChild UseEventManagerWith at hr
  cases hsink : c.fields.eventManager with
  | some own =>
    rw [hsink] at hr
    cases man with
    | none => cases hr
    | some m =>
      dsimp only at hr
      cases hl : load c with
      | error x => rw [hl] at hr; cases hr
      | ok r =>
        obtain ⟨c2, l2⟩ := r
        rw [hl] at hr
        cases hr
        exact hload c hc c1 l2 hl
  | none =>
    rw [hsink] at hr
    dsimp only at hr
    cases hl : load (c.setEventManager man) with
    | error x => rw [hl] at hr; cases hr
    | ok r =>
      obtain ⟨c2, l2⟩ := r
      rw [hl] at hr
      cases hr
      have := hload (c.setEventManager man) (by simpa using hc) c1 log hl
      simpa using this

theorem loadChildren_eraseSinks {load : Markup → Except Abort (Markup × List SinkCall)}
    {h : Nat}
    (hload : ∀ x, x.height ≤ h → ∀ x1 l, load x = .ok (x1, l) → x1.eraseSinks = x.eraseSinks)
    {man : Option Nat} : ∀ (cs : List Markup) {cs1 : List Markup} {log : List SinkCall},
    (∀ c ∈ cs, c.height ≤ h) → loadChildren load man cs = .ok (cs1, log) →
    cs1.map Markup.eraseSinks = cs.map Markup.eraseSinks := by
  intro cs
  induction cs with
  | nil =>
    intro cs1 log _ hr
    simp only [loadChildren, Except.ok.injEq, Prod.mk.injEq] at hr
    rw [← hr.1]
  | cons c cs ih =>
    intro cs1 log hcs hr
    simp only [loadChildren] at hr
    split at hr
    · cases hr
    · rename_i c1 log1 hc1
      split at hr
      · cases hr
      · rename_i cs2 log2 hcs2
        cases hr
        simp only [List.map_cons]
        rw [loadChild_eraseSinks hload (hcs c (List.mem_cons_self _ _)) hc1,
          ih (fun d hd => hcs d (List.mem_cons_of_mem _ hd)) hcs2]

theorem Markup.LoadEvents_eraseSinks_of_height : ∀ (k : Nat) (e : Markup), e.height ≤ k →
    ∀ e1 log, e.LoadEvents = .ok (e1, log) → e1.eraseSinks = e.eraseSinks := by
  intro k
  induction k with
  | zero => intro e hle; exact absurd hle (Nat.not_le.mpr e.height_pos)
  | succ k ih =>
    intro e hle e1 log hr
    rw [Markup.LoadEvents_eq] at hr
    unfold loadEventsBody at hr
    dsimp only at hr
    split at hr
    · cases hr
    · rename_i cs1 log1 hcs
      cases hr
      have hkids := loadChildren_eraseSinks ih e.children
        (fun c hc => by have := Markup.height_child hc; omega) hcs
      rw [Markup.eraseSinks_eq, Markup.eraseSinks_eq e]
      simp [hkids]

/-- The method `UseEventManager` changes nothing in its receiver but sink
references. -/
theorem Markup.UseEventManager_eraseSinks {e e1 : Markup} {man : Option Nat} {b : Bool}
    {log : List SinkCall} (hr : e.UseEventManager man = .ok (b, e1, log)) :
    e1.eraseSinks = e.eraseSinks := by
  unfold Markup.UseEventManager UseEventManagerWith at hr
  split at hr
  · split at hr
    · cases hr
    · cases hr; rfl
  · split at hr
    · cases hr
    · rename_i e2 log2 hload
      cases hr
      have := Markup.LoadEvents_eraseSinks_of_height _ _ (le_refl _) e1 log hload
      simpa using this

theorem addChildren_spec : ∀ (child : List Markup) (e : Markup) (seen : List Markup)
    (log : List SinkCall) {e1 : Markup} {chs : List Markup} {log1 : List SinkCall},
    addChildren e seen log child = .ok (e1, chs, log1) →
    ∃ added, chs = seen ++ added ∧ e1.children = e.children ++ added ∧
      added.map Markup.eraseSinks = child.map Markup.eraseSinks := by
  intro child
  induction child with
  | nil =>
    intro e seen log e1 chs log1 h
    simp only [addChildren, Except.ok.injEq, Prod.mk.injEq] at h
    exact ⟨[], by simp [h.2.1], by simp [h.1], rfl⟩
  | cons ch rest ih =>
    intro e seen log e1 chs log1 h
    simp only [addChildren] at h
    split at h
    · cases h
    · rename_i b ch1 l1 hu
      obtain ⟨added, h1, h2, h3⟩ := ih _ _ _ h
      refine ⟨ch1 :: added, by simp [h1], by simp [h2], ?_⟩
      simp [h3, Markup.UseEventManager_eraseSinks hu]

/-! ## ApplyMorphers: the slots of the child list and the composition of the morphers -/

theorem Morphed.ApplyMorphers_eq (morph : Nat → Morphed → Option Morphed) (e : Morphed) :
    e.ApplyMorphers morph =
      match applyMorphersSlots morph e.children with
      | .error x => .error x
      | .ok slots =>
        .ok (morphFold morph (.mk e.fields slots) none e.fields.morphers, .mk e.fields slots) := by
  cases e with
  | mk f cs => simp [Morphed.ApplyMorphers, Morphed.children, Morphed.fields]

/-- When the loop over the children of `ApplyMorphers` completes, every slot
held a node and now holds what that node's own `ApplyMorphers` returned. -/
theorem applyMorphersSlots_spec (morph : Nat → Morphed → Option Morphed) :
    ∀ (cs slots : List (Option Morphed)), applyMorphersSlots morph cs = .ok slots →
      List.Forall₂ (fun child slot => ∃ c c1, child = some c ∧
        c.ApplyMorphers morph = .ok (slot, c1)) cs slots := by
  intro cs
  induction cs with
  | nil =>
    intro slots h
    simp only [applyMorphersSlots, Except.ok.injEq] at h
    subst h
    exact List.Forall₂.nil
  | cons child rest ih =>
    intro slots h
    cases child with
    | none => simp [applyMorphersSlots] at h
    | some c =>
      simp only [applyMorphersSlots] at h
      split at h
      · cases h
      · rename_i r c1 hc
        split at h
        · cases h
        · rename_i rs hrs
          cases h
          exact List.Forall₂.cons ⟨c, c1, rfl, hc⟩ (ih rs hrs)

theorem morphFold_some (morph : Nat → Morphed → Option Morphed) (e : Morphed) :
    ∀ (ms : List Nat) (b : Morphed), (∀ m ∈ ms, ∀ x, morph m x ≠ none) →
      morphFold morph e (some b) ms = morphChain morph ms b := by
  intro ms
  induction ms with
  | nil => intro b _; rfl
  | cons m ms ih =>
    intro b hsome
    simp only [morphFold, morphChain]
    cases hm : morph m b with
    | none => exact absurd hm (hsome m (List.mem_cons_self _ _) b)
    | some y => exact ih y (fun k hk => hsome k (List.mem_cons_of_mem _ hk))

theorem morphChain_isSome (morph : Nat → Morphed → Option Morphed) :
    ∀ (ms : List Nat) (b : Morphed), (∀ m ∈ ms, ∀ x, morph m x ≠ none) →
      ∃ r, morphChain morph ms b = some r := by
  intro ms
  induction ms with
  | nil => intro b _; exact ⟨b, rfl⟩
  | cons m ms ih =>
    intro b hsome
    simp only [morphChain]
    cases hm : morph m b with
    | none => exact absurd hm (hsome m (List.mem_cons_self _ _) b)
    | some y => exact ih y (fun k hk => hsome k (List.mem_cons_of_mem _ hk))

theorem applyMorphersSlots_returns (morph : Nat → Morphed → Option Morphed) :
    ∀ (cs : List Markup), (∀ c ∈ cs, ∃ r, c.ApplyMorphers morph = .ok r) →
      ∃ slots, applyMorphersSlots morph (toMorphedList cs) = .ok slots := by
  intro cs
  induction cs with
  | nil => intro _; exact ⟨[], rfl⟩
  | cons c cs ih =>
    intro h
    obtain ⟨⟨r, c1⟩, hc⟩ := h c (List.mem_cons_self _ _)
    obtain ⟨slots, hslots⟩ := ih (fun d hd => h d (List.mem_cons_of_mem _ hd))
    refine ⟨r :: slots, ?_⟩
    unfold Markup.ApplyMorphers at hc
    simp only [toMorphedList, applyMorphersSlots, hc, hslots]

theorem Markup.ApplyMorphers_returns_of_height (morph : Nat → Morphed → Option Morphed) :
    ∀ (k : Nat) (e : Markup), e.height ≤ k → ∃ r, e.ApplyMorphers morph = .ok r := by
  intro k
  induction k with
  | zero => intro e hle; exact absurd hle (Nat.not_le.mpr e.height_pos)
  | succ k ih =>
    intro e hle
    obtain ⟨slots, hslots⟩ := applyMorphersSlots_returns morph e.children
      (fun c hc => ih c (by have := Markup.height_child hc; omega))
    cases e with
    | mk f cs =>
      simp only [Markup.children] at hslots
      unfold Markup.ApplyMorphers
      simp only [Markup.toMorphed, Morphed.ApplyMorphers, hslots]
      exact ⟨_, rfl⟩

/-- The method `ApplyMorphers` returns on every tree without nil slots. -/
theorem Markup.ApplyMorphers_returns (morph : Nat → Morphed → Option Morphed) (e : Markup) :
    ∃ r, e.ApplyMorphers morph = .ok r :=
  Markup.ApplyMorphers_returns_of_height morph e.height e (le_refl _)

/-! ## Claims C11 to C20 -/

/-- C11, what the code does on a child list that ends with two removed
children: `Clean` on `div > [span (removed), span (removed)]` stops with a
runtime failure (slice bounds out of range).  Such a list arises from
`Reconcile` itself: new `div > [p]` against old `div > [span, b]` leaves the new
tree `div > [p, span (removed), b (removed)]`, and the next `Reconcile` against
that tree stops with the runtime failure when it cleans it. -/
theorem Clean_fails_on_trailing_removed_children :
    (element "div" "d" "h0" [(element "span" "a" "h1" []).Remove,
        (element "span" "b" "h2" []).Remove]).Clean = .error .panic ∧
    (element "div" "n" "h1" [element "p" "c1" "h2" []]).Reconcile
        (element "div" "o" "g1" [element "span" "c2" "g2" [], element "b" "c3" "g3" []])
      = .ok (true,
          element "div" "o" "h1" [element "p" "c1" "h2" [],
            (element "span" "c2" "g2" []).Remove, (element "b" "c3" "g3" []).Remove],
          element "div" "o" "g1" [(element "span" "c2" "g2" []).Remove,
            (element "b" "c3" "g3" []).Remove], []) ∧
    (element "div" "n2" "k1" [element "p" "c4" "k2" []]).Reconcile
        (element "div" "o" "h1" [element "p" "c1" "h2" [],
          (element "span" "c2" "g2" []).Remove, (element "b" "c3" "g3" []).Remove])
      = .error .panic := ⟨rfl, rfl, rfl⟩

/-- C12, what the code does for a node with an empty morpher list, whatever the
morphers are: `ApplyMorphers` on `div > [span]`, neither with a morpher, returns
nil, and the one slot of the child list of `div` holds nil afterwards, because
the call on `span` returned nil as well. -/
theorem ApplyMorphers_empty_list_returns_nil (morph : Nat → Morphed → Option Morphed) :
    (element "div" "u" "h" [element "span" "s" "k" []]).fields.morphers = [] ∧
    (element "div" "u" "h" [element "span" "s" "k" []]).ApplyMorphers morph
      = .ok (none, .mk (element "div" "u" "h" []).fields [none]) ∧
    (element "span" "s" "k" []).ApplyMorphers morph
      = .ok (none, (element "span" "s" "k" []).toMorphed) := ⟨rfl, rfl, rfl⟩

/-- C13: for every node `e` with a non-empty morpher list in which every
morpher returns a node, an `ApplyMorphers` that returns has stored in every slot
of the child list, in order, what the `ApplyMorphers` of the child in that slot
returned, and returns the composition of the morphers in list order, applied to
`e` with its slots so replaced. -/
theorem ApplyMorphers_composes (morph : Nat → Morphed → Option Morphed) (e e1 : Morphed)
    (res : Option Morphed) (hne : e.fields.morphers ≠ [])
    (hsome : ∀ m ∈ e.fields.morphers, ∀ x, morph m x ≠ none)
    (hr : e.ApplyMorphers morph = .ok (res, e1)) :
    e1.fields = e.fields ∧
    List.Forall₂ (fun child slot => ∃ c c1, child = some c ∧
      c.ApplyMorphers morph = .ok (slot, c1)) e.children e1.children ∧
    ∃ r, res = some r ∧ morphChain morph e.fields.morphers e1 = some r := by
  rw [Morphed.ApplyMorphers_eq] at hr
  split at hr
  · cases hr
  · rename_i slots hslots
    simp only [Except.ok.injEq, Prod.mk.injEq] at hr
    obtain ⟨hres, he1⟩ := hr
    subst he1
    refine ⟨rfl, applyMorphersSlots_spec morph _ _ hslots, ?_⟩
    cases hms : e.fields.morphers with
    | nil => exact absurd hms hne
    | cons m ms =>
      rw [hms] at hres hsome
      simp only [morphFold] at hres
      cases hm : morph m (Morphed.mk e.fields slots) with
      | none => exact absurd hm (hsome m (List.mem_cons_self _ _) _)
      | some y =>
        rw [hm, morphFold_some morph _ ms y
          (fun k hk => hsome k (List.mem_cons_of_mem _ hk))] at hres
        obtain ⟨r, hr2⟩ := morphChain_isSome morph ms y
          (fun k hk => hsome k (List.mem_cons_of_mem _ hk))
        refine ⟨r, ?_, ?_⟩
        · rw [← hres, hr2]
        · simp only [morphChain, hm, hr2]

/-- Instance of C13: `div` with the morphers `0` and `1` over a `span` with the
morpher `1`. -/
theorem ApplyMorphers_composes_witness :
    ((element "div" "u" "h" [(element "span" "s" "k" []).AddMorpher [1]]).AddMorpher
        [0, 1]).toMorphed.ApplyMorphers sampleMorph
      = .ok (some (.mk { (element "div" "u" "h" []).fields with
                uid := "m0", hash := "m1", morphers := [0, 1] }
              [some (.mk { (element "span" "s" "k" []).fields with
                hash := "m1", morphers := [1] } [])]),
          .mk { (element "div" "u" "h" []).fields with morphers := [0, 1] }
            [some (.mk { (element "span" "s" "k" []).fields with
              hash := "m1", morphers := [1] } [])]) ∧
    ∃ r, some (Morphed.mk { (element "div" "u" "h" []).fields with
                uid := "m0", hash := "m1", morphers := [0, 1] }
              [some (.mk { (element "span" "s" "k" []).fields with
                hash := "m1", morphers := [1] } [])]) = some r ∧
      morphChain sampleMorph [0, 1]
        (.mk { (element "div" "u" "h" []).fields with morphers := [0, 1] }
          [some (.mk { (element "span" "s" "k" []).fields with
            hash := "m1", morphers := [1] } [])]) = some r :=
  ⟨rfl, (ApplyMorphers_composes sampleMorph
    ((element "div" "u" "h" [(element "span" "s" "k" []).AddMorpher [1]]).AddMorpher
      [0, 1]).toMorphed _ _ (by decide) (by intro m _ x; unfold sampleMorph; split <;> simp)
    rfl).2.2⟩

/-- C14, what the code does when the new node has no children and the old node
has exactly one: new `div > []` against old `div > [p]` returns false and the
new node gets the old hash. -/
theorem Reconcile_single_old_child_reported_unchanged :
    (element "div" "n" "h1" []).Reconcile (element "div" "o" "g1" [element "p" "c" "g2" []])
      = .ok (false, element "div" "o" "g1" [],
          element "div" "o" "g1" [element "p" "c" "g2" []], []) ∧
    (element "p" "c" "g2" []).Removed = false := ⟨rfl, rfl⟩

/-- C15, as amended: for every pair of same-tag nodes, whenever `Reconcile`
reports changed, the new node keeps the hash it held before the call; no hash
is assigned. -/
theorem Reconcile_changed_keeps_own_hash (e em e1 em1 : Markup) (log : List SinkCall)
    (hn : e.Name = em.Name) (hr : e.Reconcile em = .ok (true, e1, em1, log)) :
    e1.Hash = e.Hash := by
  rcases Markup.Reconcile_hash_cases hn hr with h | h
  · exact absurd h.1 (by simp)
  · exact h.2

/-- Instance of C15 as amended: text `a` with hash `h1` against text `b`. -/
theorem Reconcile_changed_keeps_own_hash_witness :
    (textNode "n" "h1" "a").Name = (textNode "o" "h2" "b").Name ∧
    (textNode "n" "h1" "a").Reconcile (textNode "o" "h2" "b")
      = .ok (true, textNode "o" "h1" "a", textNode "o" "h2" "b", []) ∧
    (textNode "o" "h1" "a").Hash = (textNode "n" "h1" "a").Hash :=
  ⟨rfl, rfl, Reconcile_changed_keeps_own_hash (textNode "n" "h1" "a") (textNode "o" "h2" "b")
    (textNode "o" "h1" "a") (textNode "o" "h2" "b") [] rfl rfl⟩

/-- C15 as stated fails: text `a` with hash `h1` against text `b` is reported
changed, and the hash of the new node afterwards is `h1`, the hash it held
before the call. -/
theorem Reconcile_changed_assigns_no_fresh_hash :
    ∃ e1 em1 log,
      (textNode "n" "h1" "a").Reconcile (textNode "o" "h2" "b") = .ok (true, e1, em1, log) ∧
      e1.Hash = (textNode "n" "h1" "a").Hash :=
  ⟨textNode "o" "h1" "a", textNode "o" "h2" "b", [], rfl, rfl⟩

/-- C16, as amended: for every pair of same-tag nodes, whenever `Reconcile`
reports unchanged, the hash of the new node after the call is the old node's
hash (the old hash is copied), and whenever it reports changed, the new node
keeps the hash it held before the call.  So the two hashes are equal after the
call exactly when the report is unchanged or they were equal before the call
already; for a new node that came with a hash different from the old node's,
exactly when the report is unchanged. -/
theorem Reconcile_unchanged_copies_old_hash (e em e1 em1 : Markup) (changed : Bool)
    (log : List SinkCall) (hn : e.Name = em.Name)
    (hr : e.Reconcile em = .ok (changed, e1, em1, log)) :
    (changed = false → e1.Hash = em.Hash) ∧
    (changed = true → e1.Hash = e.Hash) ∧
    (e1.Hash = em.Hash ↔ (changed = false ∨ e.Hash = em.Hash)) ∧
    (e.Hash ≠ em.Hash → (e1.Hash = em.Hash ↔ changed = false)) := by
  rcases Markup.Reconcile_hash_cases hn hr with h | h
  · refine ⟨fun _ => h.2, fun hc => ?_,
      ⟨fun _ => Or.inl h.1, fun _ => h.2⟩, fun _ => ⟨fun _ => h.1, fun _ => h.2⟩⟩
    rw [h.1] at hc; cases hc
  · refine ⟨fun hc => ?_, fun _ => h.2, ⟨fun heq => ?_, fun hor => ?_⟩,
      fun hne => ⟨fun heq => ?_, fun hc => ?_⟩⟩
    · rw [h.1] at hc; cases hc
    · rw [h.2] at heq; exact Or.inr heq
    · rcases hor with hc | heq
      · rw [h.1] at hc; cases hc
      · rw [h.2]; exact heq
    · rw [h.2] at heq; exact absurd heq hne
    · rw [h.1] at hc; cases hc

/-- Instance of C16 as amended: new `div > [text "a"]` against old
`div > [text "a"]`; the report is unchanged and the new `div` carries the old
hash `g1`. -/
theorem Reconcile_unchanged_copies_old_hash_witness :
    (element "div" "n" "h1" [textNode "t1" "h2" "a"]).Name
      = (element "div" "o" "g1" [textNode "q1" "g2" "a"]).Name ∧
    (element "div" "n" "h1" [textNode "t1" "h2" "a"]).Reconcile
        (element "div" "o" "g1" [textNode "q1" "g2" "a"])
      = .ok (false, element "div" "o" "g1" [textNode "q1" "g2" "a"],
          element "div" "o" "g1" [textNode "q1" "g2" "a"], []) ∧
    ((false = false → (element "div" "o" "g1" [textNode "q1" "g2" "a"]).Hash
        = (element "div" "o" "g1" [textNode "q1" "g2" "a"]).Hash) ∧
      (false = true → (element "div" "o" "g1" [textNode "q1" "g2" "a"]).Hash
        = (element "div" "n" "h1" [textNode "t1" "h2" "a"]).Hash) ∧
      ((element "div" "o" "g1" [textNode "q1" "g2" "a"]).Hash
          = (element "div" "o" "g1" [textNode "q1" "g2" "a"]).Hash ↔
        (false = false ∨ (element "div" "n" "h1" [textNode "t1" "h2" "a"]).Hash
          = (element "div" "o" "g1" [textNode "q1" "g2" "a"]).Hash)) ∧
      ((element "div" "n" "h1" [textNode "t1" "h2" "a"]).Hash
          ≠ (element "div" "o" "g1" [textNode "q1" "g2" "a"]).Hash →
        ((element "div" "o" "g1" [textNode "q1" "g2" "a"]).Hash
          = (element "div" "o" "g1" [textNode "q1" "g2" "a"]).Hash ↔ false = false))) :=
  ⟨rfl, rfl, Reconcile_unchanged_copies_old_hash
    (element "div" "n" "h1" [textNode "t1" "h2" "a"])
    (element "div" "o" "g1" [textNode "q1" "g2" "a"])
    (element "div" "o" "g1" [textNode "q1" "g2" "a"])
    (element "div" "o" "g1" [textNode "q1" "g2" "a"]) false [] rfl rfl⟩

/-- C16 as stated fails: text `a` against text `b`, both with the hash `h`.
The call reports changed, and the hash of the new node after the call is `h`,
the hash of the old node: a consumer comparing the two hashes sees no
difference although a change was reported. -/
theorem Reconcile_changed_with_equal_hashes :
    (textNode "n" "h" "a").Name = (textNode "o" "h" "b").Name ∧
    (textNode "n" "h" "a").Reconcile (textNode "o" "h" "b")
      = .ok (true, textNode "o" "h" "a", textNode "o" "h" "b", []) ∧
    (textNode "o" "h" "a").Hash = (textNode "o" "h" "b").Hash ∧
    ¬ ((textNode "o" "h" "a").Hash = (textNode "o" "h" "b").Hash ↔ true = false) :=
  ⟨rfl, rfl, rfl, fun h => absurd (h.mp rfl) (by decide)⟩

/-- C17: for every pair of nodes with different tag names, `Reconcile` returns
and hands back both trees exactly as they were (uid, hash, child list,
attribute list and removed flag of both nodes and of all their descendants);
the old node is not cleaned, no uid is adopted and no sink is called. -/
theorem Reconcile_tag_mismatch_mutates_nothing (e em : Markup) (h : e.Name ≠ em.Name) :
    ∃ changed, e.Reconcile em = .ok (changed, e, em, []) :=
  ⟨false, Markup.Reconcile_of_name_ne h⟩

/-- Instance of C17: new `div > [p]` against old `span > [b (removed)]`; the
removed child of the old node is still there. -/
theorem Reconcile_tag_mismatch_mutates_nothing_witness :
    (element "div" "n" "h1" [element "p" "c1" "h2" []]).Name
      ≠ (element "span" "o" "g1" [(element "b" "c2" "g2" []).Remove]).Name ∧
    ∃ changed, (element "div" "n" "h1" [element "p" "c1" "h2" []]).Reconcile
        (element "span" "o" "g1" [(element "b" "c2" "g2" []).Remove])
      = .ok (changed, element "div" "n" "h1" [element "p" "c1" "h2" []],
          element "span" "o" "g1" [(element "b" "c2" "g2" []).Remove], []) :=
  ⟨by decide, Reconcile_tag_mismatch_mutates_nothing _ _ (by decide)⟩

/-- C18, what the code does on a survivor that follows a dropped sibling:
`Clean` on `div > [span (removed), p > [b (removed)], i]` leaves
`div > [p > [b (removed)], i]`; the node `p` was never cleaned and still has a
child marked removed. -/
theorem Clean_skips_survivor_after_dropped_sibling :
    (element "div" "d" "h0" [(element "span" "a" "h1" []).Remove,
        element "p" "b" "h2" [(element "b" "c" "h3" []).Remove],
        element "i" "e" "h4" []]).Clean
      = .ok (element "div" "d" "h0" [element "p" "b" "h2" [(element "b" "c" "h3" []).Remove],
          element "i" "e" "h4" []]) ∧
    (element "b" "c" "h3" []).Remove.Removed = true := ⟨rfl, rfl⟩

/-- C19: for every node and every list of nodes `cs`: if the node disallows
children (as every node made by `NewText` does), `AddChild(cs...)` returns and
leaves the node and the nodes of `cs` as they were; otherwise, after a call that
returns, the child list is the previous child list followed by the nodes of
`cs` in call order, each of them as it was apart from the sinks bound in it. -/
theorem AddChild_child_list (e : Markup) (cs : List Markup) :
    (e.fields.allowChildren = false → e.AddChild cs = .ok (e, cs, [])) ∧
    (e.fields.allowChildren = true → ∀ e1 chs log, e.AddChild cs = .ok (e1, chs, log) →
      e1.fields = e.fields ∧ e1.children = e.children ++ chs ∧
      chs.map Markup.eraseSinks = cs.map Markup.eraseSinks) ∧
    ∀ txt g, (NewText txt g).1.fields.allowChildren = false := by
  refine ⟨?_, ?_, fun txt g => rfl⟩
  · intro h
    unfold Markup.AddChild
    simp [h]
  · intro h e1 chs log hr
    refine ⟨Markup.AddChild_fields hr, ?_⟩
    unfold Markup.AddChild at hr
    simp only [h, Bool.not_true, Bool.false_eq_true, ↓reduceIte] at hr
    obtain ⟨added, h1, h2, h3⟩ := addChildren_spec _ _ _ _ hr
    simp only [List.nil_append] at h1
    subst h1
    exact ⟨h2, h3⟩

/-- Instance of C19: two children added to `div > [p]`, and to a text node. -/
theorem AddChild_child_list_witness :
    (element "div" "u" "h" [element "p" "c0" "k0" []]).fields.allowChildren = true ∧
    (element "div" "u" "h" [element "p" "c0" "k0" []]).AddChild
        [element "span" "c1" "k1" [], textNode "c2" "k2" "x"]
      = .ok (element "div" "u" "h" [element "p" "c0" "k0" [], element "span" "c1" "k1" [],
          textNode "c2" "k2" "x"], [element "span" "c1" "k1" [], textNode "c2" "k2" "x"], []) ∧
    (element "div" "u" "h" [element "p" "c0" "k0" [], element "span" "c1" "k1" [],
        textNode "c2" "k2" "x"]).children
      = (element "div" "u" "h" [element "p" "c0" "k0" []]).children
        ++ [element "span" "c1" "k1" [], textNode "c2" "k2" "x"] ∧
    (textNode "t" "k" "y").fields.allowChildren = false ∧
    (textNode "t" "k" "y").AddChild [element "span" "c1" "k1" []]
      = .ok (textNode "t" "k" "y", [element "span" "c1" "k1" []], []) :=
  ⟨rfl, rfl,
    ((AddChild_child_list (element "div" "u" "h" [element "p" "c0" "k0" []])
      [element "span" "c1" "k1" [], textNode "c2" "k2" "x"]).2.1 rfl _ _ _ rfl).2.1,
    rfl,
    (AddChild_child_list (textNode "t" "k" "y") [element "span" "c1" "k1" []]).1 rfl⟩

/-- C20: `Remove` is idempotent.  For every node, two calls leave the state one
call leaves, with the removed flag set; on a node not marked removed before,
the attribute list afterwards is the previous list with one `NodeRemoved`
attribute appended; and `UnRemove` on a node not marked removed changes
nothing. -/
theorem Remove_idempotent (e : Markup) :
    e.Remove.Remove = e.Remove ∧ e.Remove.fields.removed = true ∧
    (e.fields.removed = false →
      e.Remove.Remove.fields.attrs = e.fields.attrs ++ [⟨"NodeRemoved", ""⟩]) ∧
    (e.fields.removed = false → e.UnRemove = e) := by
  refine ⟨Markup.Remove_of_removed e.Remove_removed, e.Remove_removed, ?_, ?_⟩
  · intro h
    rw [Markup.Remove_of_removed e.Remove_removed, Markup.Remove_attrs_of_live h]
  · intro h
    unfold Markup.UnRemove Markup.Removed
    simp [h]

/-- Instance of C20: the element `div` built by `NewMarkup`. -/
theorem Remove_idempotent_witness :
    (element "div" "u" "h" []).fields.removed = false ∧
    (element "div" "u" "h" []).Remove.Remove = (element "div" "u" "h" []).Remove ∧
    (element "div" "u" "h" []).Remove.Remove.fields.attrs
      = [NewAttr "data-gen" "gu", ⟨"NodeRemoved", ""⟩] ∧
    (element "div" "u" "h" []).UnRemove = element "div" "u" "h" [] :=
  ⟨rfl, (Remove_idempotent (element "div" "u" "h" [])).1,
    (Remove_idempotent (element "div" "u" "h" [])).2.2.1 rfl,
    (Remove_idempotent (element "div" "u" "h" [])).2.2.2 rfl⟩

/-! ## The fields of a clone -/

@[simp] theorem Markup.setFields_setFields (e : Markup) (f1 f2 : Fields) :
    (e.setFields f1).setFields f2 = e.setFields f2 := by cases e; rfl

@[simp] theorem Markup.fields_mk (f : Fields) (cs : List Markup) :
    (Markup.mk f cs).fields = f := rfl

theorem Markup.setFields_self (e : Markup) : e.setFields e.fields = e := by cases e; rfl

theorem foldl_ApplyStyle_allowed : ∀ (ss : List Property) (co : Markup),
    co.fields.allowStyles = true →
    ss.foldl (fun co so => ApplyStyle so co) co
      = co.setFields { co.fields with styles := co.fields.styles ++ ss } := by
  intro ss
  induction ss with
  | nil => intro co _; simp only [List.foldl_nil, List.append_nil, List.map_nil]; cases co; rfl
  | cons so ss ih =>
    intro co h
    simp only [List.foldl_cons]
    rw [show ApplyStyle so co = co.AddStyle so by simp [ApplyStyle, h]]
    rw [ih (co.AddStyle so) (by simpa [Markup.AddStyle] using h)]
    simp [Markup.AddStyle]

theorem foldl_ApplyAttribute_allowed : ∀ (as : List Property) (co : Markup),
    co.fields.allowAttributes = true →
    as.foldl (fun co ao => ApplyAttribute ao co) co
      = co.setFields { co.fields with attrs := co.fields.attrs ++ as } := by
  intro as
  induction as with
  | nil => intro co _; simp only [List.foldl_nil, List.append_nil, List.map_nil]; cases co; rfl
  | cons ao as ih =>
    intro co h
    simp only [List.foldl_cons]
    rw [show ApplyAttribute ao co = co.AddAttribute ao by simp [ApplyAttribute, h]]
    rw [ih (co.AddAttribute ao) (by simpa [Markup.AddAttribute] using h)]
    simp [Markup.AddAttribute]

theorem foldl_ApplyAttribute_disallowed : ∀ (as : List Property) (co : Markup),
    co.fields.allowAttributes = false →
    as.foldl (fun co ao => ApplyAttribute ao co) co = co := by
  intro as
  induction as with
  | nil => intro co _; rfl
  | cons ao as ih =>
    intro co h
    simp only [List.foldl_cons]
    rw [show ApplyAttribute ao co = co by simp [ApplyAttribute, h]]
    exact ih co h

theorem foldl_EventApply_allowed : ∀ (evs : List Event) (co : Markup),
    co.fields.allowEvents = true →
    evs.foldl (fun co ev => (ev.Clone.Apply co).1) co
      = co.setFields { co.fields with
          events := co.fields.events ++ evs.map (fun ev => { ev with Tree := true }) } := by
  intro evs
  induction evs with
  | nil => intro co _; simp only [List.foldl_nil, List.append_nil, List.map_nil]; cases co; rfl
  | cons ev evs ih =>
    intro co h
    simp only [List.foldl_cons]
    rw [show (ev.Clone.Apply co).1 = co.AddEvent { ev with Tree := true } by
      simp [Event.Apply, Event.Clone, h]]
    rw [ih _ (by simpa [Markup.AddEvent] using h)]
    simp [Markup.AddEvent]

theorem foldl_EventApply_disallowed : ∀ (evs : List Event) (co : Markup),
    co.fields.allowEvents = false →
    evs.foldl (fun co ev => (ev.Clone.Apply co).1) co = co := by
  intro evs
  induction evs with
  | nil => intro co _; rfl
  | cons ev evs ih =>
    intro co h
    simp only [List.foldl_cons]
    rw [show (ev.Clone.Apply co).1 = co by simp [Event.Apply, h]]
    exact ih co h

theorem cloneChildren_fields : ∀ (cs : List Markup) (co : Markup) (g : Rand)
    (log : List SinkCall) {co1 : Markup} {g1 : Rand} {log1 : List SinkCall},
    cloneChildren cs co g log = .ok (co1, g1, log1) → co1.fields = co.fields := by
  intro cs
  induction cs with
  | nil =>
    intro co g log co1 g1 log1 h
    simp only [cloneChildren, Except.ok.injEq, Prod.mk.injEq] at h
    rw [← h.1]
  | cons ch rest ih =>
    intro co g log co1 g1 log1 h
    simp only [cloneChildren] at h
    split at h
    · cases h
    · split at h
      · cases h
      · rename_i hadd
        rw [ih _ _ _ h, Markup.AddChild_fields hadd]

/-- The fields of a clone: identity strings drawn afresh, the removed flag
clear, the attribute `data-gen` of `NewMarkup` ahead of the copied attributes,
everything else copied (attributes and events only if the node allows them). -/
theorem Markup.Clone_fields {e co : Markup} {g g1 : Rand} {log : List SinkCall}
    (h : e.Clone g = .ok (co, g1, log)) :
    co.fields =
      { removed := false
        autoclose := e.fields.autoclose
        allowEvents := e.fields.allowEvents
        allowChildren := e.fields.allowChildren
        allowStyles := e.fields.allowStyles
        allowAttributes := e.fields.allowAttributes
        uid := g.source 8 g.draws
        hash := g.source 10 (g.draws + 1)
        tagname := ToLower (TrimSpace e.fields.tagname)
        textContent := e.fields.textContent
        events := if e.fields.allowEvents then
            e.fields.events.map (fun ev => { ev with Tree := true }) else []
        styles := e.fields.styles
        attrs := NewAttr "data-gen" "gu" ::
          (if e.fields.allowAttributes then e.fields.attrs else [])
        morphers := e.fields.morphers
        finalizers := []
        onceFinalizers := []
        eventManager := e.fields.eventManager } := by
  cases e with
  | mk f cs =>
    simp only [Markup.Clone, NewMarkup, RandString] at h
    split at h
    · cases h
    · rename_i co5 g2 log2 hkids
      simp only [Except.ok.injEq, Prod.mk.injEq] at h
      obtain ⟨hco, _, _⟩ := h
      subst hco
      have h5 := cloneChildren_fields _ _ _ _ hkids
      rw [foldl_ApplyStyle_allowed _ _ (by simp)] at h5
      simp only [Markup.setFields_fields, Markup.fields_mk]
      cases hA : f.allowAttributes with
      | true =>
        rw [foldl_ApplyAttribute_allowed _ _ (by simp [hA])] at h5
        simp only [Markup.setFields_fields, Markup.fields_mk] at h5
        cases hE : f.allowEvents with
        | true =>
          rw [foldl_EventApply_allowed _ _ (by rw [h5]; simp [hE])]
          simp [h5, hA, hE]
        | false =>
          rw [foldl_EventApply_disallowed _ _ (by rw [h5]; simp [hE])]
          simp [h5, hA, hE]
      | false =>
        rw [foldl_ApplyAttribute_disallowed _ _ (by simp [hA])] at h5
        simp only [Markup.setFields_fields, Markup.fields_mk] at h5
        cases hE : f.allowEvents with
        | true =>
          rw [foldl_EventApply_allowed _ _ (by rw [h5]; simp [hE])]
          simp [h5, hA, hE]
        | false =>
          rw [foldl_EventApply_disallowed _ _ (by rw [h5]; simp [hE])]
          simp [h5, hA, hE]

/-! ## Remove and UnRemove as assignments -/

theorem Markup.Remove_eq_of_live {e : Markup} (h : e.fields.removed = false) :
    e.Remove = e.setFields { e.fields with
      attrs := e.fields.attrs ++ [⟨"NodeRemoved", ""⟩], removed := true } := by
  unfold Markup.Remove Markup.Removed
  simp [h]

theorem Markup.UnRemove_eq_of_removed {e : Markup} (h : e.fields.removed = true) :
    e.UnRemove = e.setFields { e.fields with
      removed := false
      attrs := e.fields.attrs.eraseP (fun attr => attr.Render.1 == "NodeRemoved") } := by
  unfold Markup.UnRemove Markup.Removed
  simp [h]

/-! ## Binding a sink to a tree -/

theorem loadChildren_returns_of_bound {load : Markup → Except Abort (Markup × List SinkCall)}
    {h : Nat}
    (hload : ∀ x, x.height ≤ h → x.fields.eventManager ≠ none → ∃ r, load x = .ok r)
    (s : Nat) : ∀ (cs : List Markup), (∀ c ∈ cs, c.height ≤ h) →
      ∃ r, loadChildren load (some s) cs = .ok r := by
  intro cs
  induction cs with
  | nil => intro _; exact ⟨_, rfl⟩
  | cons c cs ih =>
    intro hcs
    have hc := hcs c (List.mem_cons_self _ _)
    have hchild : ∃ r, loadChild load (some s) c = .ok r := by
      unfold loadChild UseEventManagerWith
      cases hsink : c.fields.eventManager with
      | some own =>
        obtain ⟨⟨c1, l1⟩, hr⟩ := hload c hc (by rw [hsink]; simp)
        simp only [hr]
        exact ⟨_, rfl⟩
      | none =>
        obtain ⟨⟨c1, l1⟩, hr⟩ := hload (c.setEventManager (some s)) (by simpa using hc)
          (by simp [Markup.setEventManager])
        simp only [hr]
        exact ⟨_, rfl⟩
    obtain ⟨⟨c1, l1⟩, hc1⟩ := hchild
    obtain ⟨⟨cs1, l2⟩, hcs1⟩ := ih (fun d hd => hcs d (List.mem_cons_of_mem _ hd))
    simp only [loadChildren, hc1, hcs1]
    exact ⟨_, rfl⟩

theorem Markup.LoadEvents_returns_of_bound_of_height : ∀ (k : Nat) (e : Markup),
    e.height ≤ k → e.fields.eventManager ≠ none → ∃ r, e.LoadEvents = .ok r := by
  intro k
  induction k with
  | zero => intro e hle; exact absurd hle (Nat.not_le.mpr e.height_pos)
  | succ k ih =>
    intro e hle hsink
    obtain ⟨s, hs⟩ := Option.ne_none_iff_exists'.mp hsink
    rw [Markup.LoadEvents_eq]
    unfold loadEventsBody
    dsimp only
    rw [hs]
    obtain ⟨⟨cs1, l1⟩, hcs⟩ := loadChildren_returns_of_bound ih s e.children
      (fun c hc => by have := Markup.height_child hc; omega)
    simp only [hcs]
    exact ⟨_, rfl⟩

/-- The method `LoadEvents` returns on every node that has a sink bound. -/
theorem Markup.LoadEvents_returns_of_bound (e : Markup) (h : e.fields.eventManager ≠ none) :
    ∃ r, e.LoadEvents = .ok r :=
  Markup.LoadEvents_returns_of_bound_of_height e.height e (le_refl _) h

theorem bindAllList_eq_map (s : Nat) (cs : List Markup) :
    bindAllList s cs = cs.map (Markup.bindAll s) := by
  induction cs with
  | nil => rfl
  | cons c cs ih => simp [bindAllList, ih]

theorem loadChildren_of_sinkFree_bound
    {load : Markup → Except Abort (Markup × List SinkCall)} (s : Nat) :
    ∀ (cs : List Markup),
      (∀ c ∈ cs, c.fields.eventManager = none ∧
        load (c.setEventManager (some s)) = .ok (c.bindAll s, c.registrations s)) →
      loadChildren load (some s) cs = .ok (bindAllList s cs, registrationsList s cs) := by
  intro cs
  induction cs with
  | nil => intro _; rfl
  | cons c cs ih =>
    intro h
    have hc := h c (List.mem_cons_self _ _)
    have hchild : loadChild load (some s) c = .ok (c.bindAll s, c.registrations s) := by
      unfold loadChild UseEventManagerWith
      simp [hc.1, hc.2]
    simp [loadChildren, hchild, ih (fun d hd => h d (List.mem_cons_of_mem _ hd)),
      bindAllList, registrationsList]

theorem Markup.LoadEvents_of_sinkFree_bound (s : Nat) : ∀ (k : Nat) (e : Markup),
    e.height ≤ k → e.sinkFree = true →
    (e.setEventManager (some s)).LoadEvents = .ok (e.bindAll s, e.registrations s) := by
  intro k
  induction k with
  | zero => intro e hle; exact absurd hle (Nat.not_le.mpr e.height_pos)
  | succ k ih =>
    intro e hle hfree
    obtain ⟨_, hkids⟩ := e.sinkFree_iff.mp hfree
    rw [Markup.LoadEvents_eq]
    unfold loadEventsBody
    dsimp only
    have hcs := @loadChildren_of_sinkFree_bound Markup.LoadEvents s e.children
      (fun c hc => ⟨(c.sinkFree_iff.mp (hkids c hc)).1,
        ih c (by have := Markup.height_child hc; omega) (hkids c hc)⟩)
    cases e with
    | mk f cs =>
      simp only [Markup.children] at hcs
      simp [Markup.setEventManager, Markup.setFields, Markup.fields, Markup.children, hcs,
        Markup.setChildren, Markup.bindAll, Markup.registrations]

/-! ## A morpher that returns nothing -/

theorem morphFold_append (morph : Nat → Morphed → Option Morphed) (e : Morphed) :
    ∀ (pre rest : List Nat) (base : Option Morphed),
      morphFold morph e base (pre ++ rest)
        = morphFold morph e (morphFold morph e base pre) rest := by
  intro pre
  induction pre with
  | nil => intro rest base; cases base <;> rfl
  | cons m pre ih =>
    intro rest base
    rw [List.cons_append]
    cases base with
    | none => simp only [morphFold]; exact ih rest _
    | some b => simp only [morphFold]; exact ih rest _

theorem morphFold_cons (morph : Nat → Morphed → Option Morphed) (e : Morphed)
    (base : Option Morphed) (m : Nat) (ms : List Nat) :
    morphFold morph e base (m :: ms) = morphFold morph e (morph m (base.getD e)) ms := by
  cases base <;> rfl

/-! ## Claims C21 to C30 -/

/-- C21, as amended: for every node not marked removed whose attribute list
holds no attribute named `NodeRemoved`, `Remove` followed by `UnRemove` restores
the node: the removed flag is clear again and the attribute list is the list it
was before `Remove`. -/
theorem Remove_UnRemove_restores (e : Markup) (hlive : e.fields.removed = false)
    (hfree : ∀ a ∈ e.fields.attrs, a.name ≠ "NodeRemoved") :
    e.Remove.UnRemove = e ∧ e.Remove.UnRemove.fields.removed = false ∧
    e.Remove.UnRemove.fields.attrs = e.fields.attrs := by
  have hattrs : (e.fields.attrs ++ [(⟨"NodeRemoved", ""⟩ : Property)]).eraseP
      (fun attr => attr.Render.1 == "NodeRemoved") = e.fields.attrs := by
    rw [List.eraseP_append_right _ (by
      intro b hb
      simpa [Property.Render] using hfree b hb)]
    simp [Property.Render]
  have hall : e.Remove.UnRemove = e := by
    rw [Markup.Remove_eq_of_live hlive, Markup.UnRemove_eq_of_removed (by simp)]
    simp only [Markup.setFields_fields, Markup.setFields_setFields, hattrs]
    cases e with
    | mk f cs =>
      simp only [Markup.fields_mk] at hlive
      simp only [Markup.setFields, Markup.fields_mk, ← hlive]
  exact ⟨hall, by rw [hall]; exact hlive, by rw [hall]⟩

/-- Instance of C21 as amended: the element `div` built by `NewMarkup`. -/
theorem Remove_UnRemove_restores_witness :
    (element "div" "u" "h" []).fields.removed = false ∧
    (element "div" "u" "h" []).Remove.UnRemove = element "div" "u" "h" [] :=
  ⟨rfl, (Remove_UnRemove_restores (element "div" "u" "h" []) rfl (by decide)).1⟩

/-- C21 as stated fails: on a node not marked removed whose attributes are
`data-gen`, `NodeRemoved = "x"`, `id`, in this order, `Remove` followed by
`UnRemove` leaves the attributes `data-gen`, `id`, `NodeRemoved = ""`:
`UnRemove` stripped the first attribute named `NodeRemoved`, not the one
`Remove` appended. -/
theorem Remove_UnRemove_strips_first_NodeRemoved :
    (((element "div" "u" "h" []).AddAttribute ⟨"NodeRemoved", "x"⟩).AddAttribute
        ⟨"id", "a"⟩).fields.removed = false ∧
    (((element "div" "u" "h" []).AddAttribute ⟨"NodeRemoved", "x"⟩).AddAttribute
        ⟨"id", "a"⟩).fields.attrs
      = [NewAttr "data-gen" "gu", ⟨"NodeRemoved", "x"⟩, ⟨"id", "a"⟩] ∧
    (((element "div" "u" "h" []).AddAttribute ⟨"NodeRemoved", "x"⟩).AddAttribute
        ⟨"id", "a"⟩).Remove.UnRemove.fields.attrs
      = [NewAttr "data-gen" "gu", ⟨"id", "a"⟩, ⟨"NodeRemoved", ""⟩] ∧
    (((element "div" "u" "h" []).AddAttribute ⟨"NodeRemoved", "x"⟩).AddAttribute
        ⟨"id", "a"⟩).Remove.UnRemove.fields.attrs
      ≠ (((element "div" "u" "h" []).AddAttribute ⟨"NodeRemoved", "x"⟩).AddAttribute
        ⟨"id", "a"⟩).fields.attrs := by
  refine ⟨rfl, rfl, rfl, ?_⟩
  decide

/-- C22, what the code does for the element `NewMarkup("div", false)` with the
attribute `id` added, whatever the generator draws: the original has the
attributes `data-gen`, `id`; its clone has `data-gen`, `data-gen`, `id`. -/
theorem Clone_duplicates_data_gen (g : Rand) :
    ∃ co g1,
      ((NewMarkup "div" false g).1.AddAttribute ⟨"id", "a"⟩).Clone (NewMarkup "div" false g).2
        = .ok (co, g1, []) ∧
      ((NewMarkup "div" false g).1.AddAttribute ⟨"id", "a"⟩).Attributes
        = [NewAttr "data-gen" "gu", ⟨"id", "a"⟩] ∧
      co.Attributes = [NewAttr "data-gen" "gu", NewAttr "data-gen" "gu", ⟨"id", "a"⟩] :=
  ⟨_, _, rfl, rfl, rfl⟩

/-- C23, what the code does for the element `NewMarkup("div", false)` after
`Remove`, whatever the generator draws: the node is marked removed, its clone
is not, though the clone carries the copied attribute `NodeRemoved`. -/
theorem Clone_drops_removed_flag (g : Rand) :
    ∃ co g1,
      (NewMarkup "div" false g).1.Remove.Clone (NewMarkup "div" false g).2
        = .ok (co, g1, []) ∧
      (NewMarkup "div" false g).1.Remove.Removed = true ∧
      co.Removed = false ∧
      co.Attributes
        = [NewAttr "data-gen" "gu", NewAttr "data-gen" "gu", ⟨"NodeRemoved", ""⟩] :=
  ⟨_, _, rfl, rfl, rfl, rfl⟩

/-- C24, as amended: for every event attached to a node (`Tree` set), `Target`
is the lower-case tag name followed by `[uid='`, the uid and `']` of the owning
node, whether or not the event carries an explicit target selector, and `ID` is
that target followed by `#` and the type; the explicit selector is the target
only of an event attached to no node. -/
theorem Target_follows_tree (ev : Event) (tree : Markup) :
    (ev.Tree = true →
      ev.Target tree = ToLower tree.Name ++ "[uid='" ++ tree.UID ++ "']" ∧
      ev.ID tree = ToLower tree.Name ++ "[uid='" ++ tree.UID ++ "']" ++ "#" ++ ev.EvType) ∧
    (ev.Tree = false →
      ev.Target tree = ev.secTarget ∧ ev.ID tree = ev.secTarget ++ "#" ++ ev.EvType) := by
  constructor
  · intro h; simp [Event.ID, Event.Target, Markup.EventID, h]
  · intro h; simp [Event.ID, Event.Target, h]

/-- Instance of C24 as amended: a `click` event with the explicit selector
`#btn`, attached to a `div` with uid `u`, and attached to no node. -/
theorem Target_follows_tree_witness :
    (⟨"click", false, false, false, false, true, "#btn"⟩ : Event).Tree = true ∧
    (⟨"click", false, false, false, false, true, "#btn"⟩ : Event).Target
        (element "div" "u" "h" [])
      = ToLower (element "div" "u" "h" []).Name ++ "[uid='"
        ++ (element "div" "u" "h" []).UID ++ "']" ∧
    (⟨"click", false, false, false, false, false, "#btn"⟩ : Event).Tree = false ∧
    (⟨"click", false, false, false, false, false, "#btn"⟩ : Event).Target
        (element "div" "u" "h" []) = "#btn" :=
  ⟨rfl, ((Target_follows_tree ⟨"click", false, false, false, false, true, "#btn"⟩
      (element "div" "u" "h" [])).1 rfl).1,
    rfl, ((Target_follows_tree ⟨"click", false, false, false, false, false, "#btn"⟩
      (element "div" "u" "h" [])).2 rfl).1⟩

/-- C24 as stated fails: for an event of type `click` with the explicit target
selector `#btn`, attached to the node `div` with uid `u`, `Target` is
`div[uid='u']` and `ID` is `div[uid='u']#click`; the explicit selector is not
used. -/
theorem Target_ignores_explicit_selector :
    (⟨"click", false, false, false, false, true, "#btn"⟩ : Event).Target
        (element "div" "u" "h" []) = "div[uid='u']" ∧
    (⟨"click", false, false, false, false, true, "#btn"⟩ : Event).ID
        (element "div" "u" "h" []) = "div[uid='u']#click" ∧
    (⟨"click", false, false, false, false, true, "#btn"⟩ : Event).Target
        (element "div" "u" "h" []) ≠ "#btn" := by
  refine ⟨by decide, by decide, by decide⟩

/-- C25: for every event `ev` and node `n`: if `n` disallows events, `ev.Apply(n)`
leaves the node and the event as they were; otherwise the field `Tree` of the
event is set, and the event list of `n` is the previous list followed by one
event with the kind, flags and target selector of `ev` and `Tree` set; nothing
else in `n` changes. -/
theorem Event_Apply_attaches (ev : Event) (n : Markup) :
    (n.fields.allowEvents = false → ev.Apply n = (n, ev)) ∧
    (n.fields.allowEvents = true →
      (ev.Apply n).2 = { ev with Tree := true } ∧
      (ev.Apply n).1.fields.events = n.fields.events ++ [{ ev with Tree := true }] ∧
      (ev.Apply n).1 = n.setFields { n.fields with
        events := n.fields.events ++ [{ ev with Tree := true }] }) := by
  constructor
  · intro h; simp [Event.Apply, h]
  · intro h; simp [Event.Apply, h, Markup.AddEvent]

/-- Instance of C25: a `click` event applied to a `div` and to a text node. -/
theorem Event_Apply_attaches_witness :
    (element "div" "u" "h" []).fields.allowEvents = true ∧
    ((⟨"click", true, false, false, false, false, ""⟩ : Event).Apply
        (element "div" "u" "h" [])).1.fields.events
      = [⟨"click", true, false, false, false, true, ""⟩] ∧
    (textNode "t" "k" "x").fields.allowEvents = false ∧
    (⟨"click", true, false, false, false, false, ""⟩ : Event).Apply (textNode "t" "k" "x")
      = (textNode "t" "k" "x", ⟨"click", true, false, false, false, false, ""⟩) :=
  ⟨rfl, ((Event_Apply_attaches ⟨"click", true, false, false, false, false, ""⟩
      (element "div" "u" "h" [])).2 rfl).2.1,
    rfl, (Event_Apply_attaches ⟨"click", true, false, false, false, false, ""⟩
      (textNode "t" "k" "x")).1 rfl⟩

/-- C26: for every node and sink `s`, `UseEventManager(s)` returns; it returns
true with `s` as the sink of the node exactly when the node had no sink bound;
on a node that had a sink it returns false, leaves the node as it was and
issues the one call `AttachManager` on `s` with the sink of the node. -/
theorem UseEventManager_binds_once (e : Markup) (s : Nat) :
    ∃ b e1 log, e.UseEventManager (some s) = .ok (b, e1, log) ∧
      ((b = true ∧ e1.fields.eventManager = some s) ↔ e.fields.eventManager = none) ∧
      (∀ own, e.fields.eventManager = some own →
        b = false ∧ e1 = e ∧ log = [.AttachManager s own]) := by
  cases hsink : e.fields.eventManager with
  | some own =>
    refine ⟨false, e, [.AttachManager s own], ?_, ?_, ?_⟩
    · unfold Markup.UseEventManager UseEventManagerWith
      simp [hsink]
    · simp
    · intro own1 h
      cases h
      exact ⟨rfl, rfl, rfl⟩
  | none =>
    obtain ⟨⟨e1, log⟩, hload⟩ := Markup.LoadEvents_returns_of_bound
      (e.setEventManager (some s)) (by simp [Markup.setEventManager])
    refine ⟨true, e1, log, ?_, ?_, ?_⟩
    · unfold Markup.UseEventManager UseEventManagerWith
      simp [hsink, hload]
    · simp [Markup.LoadEvents_fields hload, Markup.setEventManager]
    · intro own h; cases h

/-- C27: for every tree in which no node has a sink bound and every sink `s`,
`root.UseEventManager(s)` returns true, afterwards every node of the tree has
`s` as its sink and nothing else has changed, and the calls issued are, for
every node, `DisconnectRemoved` on `s` followed by one `NewEventMeta` on `s` per
event of the node. -/
theorem UseEventManager_binds_whole_tree (e : Markup) (s : Nat) (hfree : e.sinkFree = true) :
    e.UseEventManager (some s) = .ok (true, e.bindAll s, e.registrations s) := by
  unfold Markup.UseEventManager UseEventManagerWith
  simp [(e.sinkFree_iff.mp hfree).1,
    Markup.LoadEvents_of_sinkFree_bound s e.height e (le_refl _) hfree]

/-- Instance of C27: the sink `7` bound to `div > [span, text]`, where `div` has
a `click` event. -/
theorem UseEventManager_binds_whole_tree_witness :
    (((⟨"click", false, false, false, false, false, ""⟩ : Event).Apply
        (element "div" "u" "h" [element "span" "c1" "k1" [],
          textNode "c2" "k2" "x"])).1).sinkFree = true ∧
    (((⟨"click", false, false, false, false, false, ""⟩ : Event).Apply
        (element "div" "u" "h" [element "span" "c1" "k1" [],
          textNode "c2" "k2" "x"])).1).UseEventManager (some 7)
      = .ok (true,
          (((⟨"click", false, false, false, false, false, ""⟩ : Event).Apply
            (element "div" "u" "h" [(element "span" "c1" "k1" []).setEventManager (some 7),
              (textNode "c2" "k2" "x").setEventManager (some 7)])).1).setEventManager (some 7),
          [.DisconnectRemoved 7,
            .NewEventMeta 7 ⟨"click", false, false, false, false, true, ""⟩,
            .DisconnectRemoved 7, .DisconnectRemoved 7]) :=
  ⟨rfl, UseEventManager_binds_whole_tree _ 7 rfl⟩

/-- C28, what the code does when the parent has no sink bound and the child has
one: `AddChild` stops with a runtime failure (`UseEventManager` calls
`AttachManager` on the nil sink of the parent).  `Reconcile` reaches this state:
a new tree `div > [p]` without sink against an old tree `div > [span]` bound to
the sink `1` stops with the runtime failure when the old `span` is
re-appended. -/
theorem AddChild_fails_on_bound_child_under_unbound_parent :
    (element "div" "u" "h" []).fields.allowChildren = true ∧
    (element "div" "u" "h" []).AddChild [(element "span" "c" "k" []).setEventManager (some 1)]
      = .error .panic ∧
    (element "div" "n" "h1" [element "p" "c1" "h2" []]).Reconcile
        ((element "div" "o" "g1" [element "span" "c2" "g2" []]).bindAll 1)
      = .error .panic := ⟨rfl, rfl, rfl⟩

/-- C29, as amended: when a morpher `mi` that is not the last of the list
returns nothing on what it receives, the next morpher receives the node `e`
itself (with its child slots replaced), not the result accumulated before `mi`:
`ApplyMorphers` returns what the loop over the morphers after `mi` alone
returns. -/
theorem ApplyMorphers_restarts_after_nil (morph : Nat → Morphed → Option Morphed)
    (e e1 : Morphed) (res : Option Morphed) (pre rest : List Nat) (mi : Nat)
    (hms : e.fields.morphers = pre ++ mi :: rest) (hrest : rest ≠ [])
    (hnil : morph mi ((morphFold morph e1 none pre).getD e1) = none)
    (hr : e.ApplyMorphers morph = .ok (res, e1)) :
    res = morphFold morph e1 none rest ∧
    ∃ m ms, rest = m :: ms ∧ res = morphFold morph e1 (morph m e1) ms := by
  rw [Morphed.ApplyMorphers_eq] at hr
  split at hr
  · cases hr
  · rename_i slots hslots
    simp only [Except.ok.injEq, Prod.mk.injEq] at hr
    obtain ⟨hres, he1⟩ := hr
    subst he1
    rw [hms, morphFold_append, morphFold_cons, hnil] at hres
    refine ⟨hres.symm, ?_⟩
    cases rest with
    | nil => exact absurd rfl hrest
    | cons m ms => exact ⟨m, ms, rfl, by rw [← hres]; rfl⟩

/-- Instance of C29 as amended: the morphers `0` (sets the uid), `1` (returns
nothing) and `2` (sets the hash) on a `div`: the result has the hash set and the
uid of the `div` itself. -/
theorem ApplyMorphers_restarts_after_nil_witness :
    ((element "div" "u" "h" []).AddMorpher [0, 1, 2]).ApplyMorphers sampleMorphNil
      = .ok (some (.mk { (element "div" "u" "h" []).fields with
                hash := "m2", morphers := [0, 1, 2] } []),
          .mk { (element "div" "u" "h" []).fields with morphers := [0, 1, 2] } []) ∧
    some (Morphed.mk { (element "div" "u" "h" []).fields with
        hash := "m2", morphers := [0, 1, 2] } [])
      = morphFold sampleMorphNil
          (.mk { (element "div" "u" "h" []).fields with morphers := [0, 1, 2] } []) none [2] :=
  ⟨rfl, (ApplyMorphers_restarts_after_nil sampleMorphNil
    ((element "div" "u" "h" []).AddMorpher [0, 1, 2]).toMorphed
    (.mk { (element "div" "u" "h" []).fields with morphers := [0, 1, 2] } [])
    _ [0] [2] 1 rfl (by decide) rfl rfl).1⟩

/-- C29 as stated fails: with the morphers `0` (sets the uid to `m0`), `1`
(returns nothing) and `2` (sets the hash) the result has the uid `u` of the
node itself, while the list `0`, `2` with the morpher `1` left out gives a
result with the uid `m0`. -/
theorem ApplyMorphers_nil_drops_accumulated_result :
    ∃ r1 e1 r2 e2,
      ((element "div" "u" "h" []).AddMorpher [0, 1, 2]).ApplyMorphers sampleMorphNil
        = .ok (some r1, e1) ∧
      ((element "div" "u" "h" []).AddMorpher [0, 2]).ApplyMorphers sampleMorphNil
        = .ok (some r2, e2) ∧
      r1.fields.uid = "u" ∧ r2.fields.uid = "m0" ∧ r1.fields.uid ≠ r2.fields.uid :=
  ⟨_, _, _, _, rfl, rfl, rfl, rfl, by decide⟩

/-- C30: for every pair of same-tag, non-text nodes that both have no children,
`Reconcile` returns; it reports unchanged, with the old hash copied to the new
node, exactly when `EqualAttributes` and `EqualStyles` both hold, and reports
changed when either of them fails. -/
theorem Reconcile_childless_pair (e em : Markup) (hn : e.Name = em.Name)
    (ht : e.Name ≠ "text") (hc : e.children = []) (hmc : em.children = []) :
    ∃ changed e1 log, e.Reconcile em = .ok (changed, e1, em, log) ∧
      (changed = false ↔ (EqualAttributes e em = true ∧ EqualStyles e em = true)) ∧
      (changed = false → e1.Hash = em.Hash) ∧
      (EqualStyles e em = false → changed = true) ∧
      (EqualAttributes e em = false → changed = true) := by
  have hclean : em.Clean = .ok em :=
    Markup.Clean_of_noRemovedBelow em.height em (le_refl _)
      (em.noRemovedBelow_iff.mpr (by rw [hmc]; intro c hcm; cases hcm))
  rw [Markup.Reconcile_no_children hn ht hclean hc]
  simp only [hmc, List.length_nil, gt_iff_lt, Nat.not_lt_zero, ↓reduceIte]
  cases hA : EqualAttributes e em <;> cases hS : EqualStyles e em <;>
    simp

/-- Instance of C30: two childless `div`, the new one with a style the old one
lacks; and two childless `div` with equal attributes and styles. -/
theorem Reconcile_childless_pair_witness :
    EqualStyles ((element "div" "n" "h1" []).AddStyle ⟨"display", "none"⟩)
      (element "div" "o" "g1" []) = false ∧
    (∃ changed e1 log, ((element "div" "n" "h1" []).AddStyle ⟨"display", "none"⟩).Reconcile
        (element "div" "o" "g1" []) = .ok (changed, e1, element "div" "o" "g1" [], log) ∧
      changed = true) ∧
    (element "div" "n" "h1" []).Reconcile (element "div" "o" "g1" [])
      = .ok (false, element "div" "o" "g1" [], element "div" "o" "g1" [], []) := by
  refine ⟨rfl, ?_, rfl⟩
  obtain ⟨changed, e1, log, h1, _, _, h4, _⟩ := Reconcile_childless_pair
    ((element "div" "n" "h1" []).AddStyle ⟨"display", "none"⟩) (element "div" "o" "g1" [])
    rfl (by decide) rfl rfl
  exact ⟨changed, e1, log, h1, h4 rfl⟩

/-! ## Nodes that survive a call -/

/-- A tree survives another when the fields of the roots are related and the
children of the first are, in order, survivors of some of the children of the
second. -/
theorem Markup.survives_iff (R : Fields → Fields → Bool) (a b : Markup) :
    a.survives R b = true ↔
      R a.fields b.fields = true ∧ survivesList R a.children b.children = true := by
  cases a; cases b; simp [Markup.survives, Markup.fields, Markup.children]

theorem survivesList_iff (R : Fields → Fields → Bool) : ∀ (cs cs1 : List Markup),
    survivesList R cs1 cs = true ↔
      List.SublistForall₂ (fun a b => a.survives R b = true) cs1 cs := by
  intro cs
  induction cs with
  | nil =>
    intro cs1
    cases cs1 with
    | nil => simp only [survivesList, true_iff]; exact .nil
    | cons c1 r1 =>
      simp only [survivesList, Bool.false_eq_true, false_iff]
      intro h; cases h
  | cons c r ih =>
    intro cs1
    cases cs1 with
    | nil => simp only [survivesList, true_iff]; exact .nil
    | cons c1 r1 =>
      simp only [survivesList, Bool.or_eq_true, Bool.and_eq_true]
      rw [ih r1, ih (c1 :: r1)]
      constructor
      · rintro (⟨h1, h2⟩ | h)
        · exact .cons h1 h2
        · exact .cons_right h
      · intro h
        cases h with
        | cons h1 h2 => exact Or.inl ⟨h1, h2⟩
        | cons_right h => exact Or.inr h

theorem sublistForall2_nil_right {α : Type} {P : α → α → Prop} {l : List α}
    (h : List.SublistForall₂ P l []) : l = [] := by
  cases h; rfl

theorem sublistForall2_trans_of_mem {α : Type} {P : α → α → Prop} {l2 l3 : List α}
    (h23 : List.SublistForall₂ P l2 l3) :
    ∀ {l1 : List α}, (∀ a b c, c ∈ l3 → P a b → P b c → P a c) →
      List.SublistForall₂ P l1 l2 → List.SublistForall₂ P l1 l3 := by
  induction h23 with
  | nil =>
    intro l1 _ h12
    rw [sublistForall2_nil_right h12]
    exact .nil
  | cons hbc _ ih =>
    intro l1 htr h12
    cases h12 with
    | nil => exact .nil
    | cons hab h =>
      exact .cons (htr _ _ _ (List.mem_cons_self _ _) hab hbc)
        (ih (fun a b c hc => htr a b c (List.mem_cons_of_mem _ hc)) h)
    | cons_right h =>
      exact .cons_right (ih (fun a b c hc => htr a b c (List.mem_cons_of_mem _ hc)) h)
  | cons_right _ ih =>
    intro l1 htr h12
    exact .cons_right (ih (fun a b c hc => htr a b c (List.mem_cons_of_mem _ hc)) h12)

theorem sublistForall2_of_forall2 {α : Type} {P : α → α → Prop} {l1 l2 : List α}
    (h : List.Forall₂ P l1 l2) : List.SublistForall₂ P l1 l2 := by
  induction h with
  | nil => exact .nil
  | cons hab _ ih => exact .cons hab ih

theorem forall2_refl_of_mem {α : Type} {P : α → α → Prop} :
    ∀ (l : List α), (∀ a ∈ l, P a a) → List.Forall₂ P l l := by
  intro l
  induction l with
  | nil => intro _; exact .nil
  | cons a l ih =>
    intro h
    exact .cons (h a (List.mem_cons_self _ _)) (ih (fun b hb => h b (List.mem_cons_of_mem _ hb)))

theorem sublistForall2_of_sublist {α : Type} {P : α → α → Prop} {l h : List α}
    (hs : l.Sublist h) : ∀ {cs : List α}, List.Forall₂ P h cs → List.SublistForall₂ P l cs := by
  induction hs with
  | slnil => intro cs _; exact .nil
  | cons a _ ih =>
    intro cs hf
    cases hf with
    | cons _ hrest => exact .cons_right (ih hrest)
  | cons₂ a _ ih =>
    intro cs hf
    cases hf with
    | cons hac hrest => exact .cons hac (ih hrest)

theorem Markup.survives_refl_of_height {R : Fields → Fields → Bool}
    (hrefl : ∀ f, R f f = true) : ∀ (k : Nat) (a : Markup), a.height ≤ k →
    a.survives R a = true := by
  intro k
  induction k with
  | zero => intro a hle; exact absurd hle (Nat.not_le.mpr a.height_pos)
  | succ k ih =>
    intro a hle
    rw [Markup.survives_iff, survivesList_iff]
    exact ⟨hrefl _, sublistForall2_of_forall2 (forall2_refl_of_mem _
      (fun c hc => ih c (by have := Markup.height_child hc; omega)))⟩

/-- Every tree survives itself, for a reflexive relation on fields. -/
theorem Markup.survives_refl {R : Fields → Fields → Bool} (hrefl : ∀ f, R f f = true)
    (a : Markup) : a.survives R a = true :=
  Markup.survives_refl_of_height hrefl a.height a (le_refl _)

theorem Markup.survives_trans_of_height {R : Fields → Fields → Bool}
    (htrans : ∀ f1 f2 f3, R f1 f2 = true → R f2 f3 = true → R f1 f3 = true) :
    ∀ (k : Nat) (a b c : Markup), c.height ≤ k →
    a.survives R b = true → b.survives R c = true → a.survives R c = true := by
  intro k
  induction k with
  | zero => intro a b c hle; exact absurd hle (Nat.not_le.mpr c.height_pos)
  | succ k ih =>
    intro a b c hle hab hbc
    rw [Markup.survives_iff, survivesList_iff] at hab hbc ⊢
    exact ⟨htrans _ _ _ hab.1 hbc.1,
      sublistForall2_trans_of_mem hbc.2
        (fun x y z hz hxy hyz => ih x y z (by have := Markup.height_child hz; omega) hxy hyz)
        hab.2⟩

/-- A survivor of a survivor is a survivor, for a transitive relation on
fields. -/
theorem Markup.survives_trans {R : Fields → Fields → Bool}
    (htrans : ∀ f1 f2 f3, R f1 f2 = true → R f2 f3 = true → R f1 f3 = true)
    {a b c : Markup} (hab : a.survives R b = true) (hbc : b.survives R c = true) :
    a.survives R c = true :=
  Markup.survives_trans_of_height htrans c.height a b c (le_refl _) hab hbc

theorem Fields.untouched_refl (f : Fields) : Fields.untouched f f = true := by
  simp [Fields.untouched]

theorem Fields.untouched_trans (f1 f2 f3 : Fields) (h12 : Fields.untouched f1 f2 = true)
    (h23 : Fields.untouched f2 f3 = true) : Fields.untouched f1 f3 = true := by
  simp only [Fields.untouched, beq_iff_eq] at *
  rw [h12, h23]

theorem Fields.markerOnly_refl (f : Fields) : Fields.markerOnly f f = true := by
  simp [Fields.markerOnly]

theorem Fields.markerOnly_trans (f1 f2 f3 : Fields) (h12 : Fields.markerOnly f1 f2 = true)
    (h23 : Fields.markerOnly f2 f3 = true) : Fields.markerOnly f1 f3 = true := by
  simp only [Fields.markerOnly, beq_iff_eq] at *
  rw [h12, h23]

/-! ## Clean only drops subtrees -/

theorem forall2_set_left {α : Type} {P : α → α → Prop} {h cs : List α}
    (hf : List.Forall₂ P h cs) : ∀ {a : Nat} {x y : α}, h[a]? = some x →
    (∀ c, P x c → P y c) → List.Forall₂ P (h.set a y) cs := by
  induction hf with
  | nil => intro a x y hx; simp at hx
  | cons hab hrest ih =>
    intro a x y hx hxy
    cases a with
    | zero =>
      simp only [List.getElem?_cons_zero, Option.some.injEq] at hx
      subst hx
      exact .cons (hxy _ hab) hrest
    | succ a =>
      simp only [List.getElem?_cons_succ] at hx
      exact .cons hab (ih hx hxy)

/-- Dropping slot `n` of the live part of the backing array, as `Clean` does
by `copy` and reslice. -/
theorem take_copy_eq_eraseIdx (arr : List Nat) (len n : Nat) (hn : n < len)
    (hlen : len ≤ arr.length) :
    (arr.take n ++ ((arr.drop (n + 1)).take (len - (n + 1)) ++ arr.drop (len - 1))).take (len - 1)
      = (arr.take len).eraseIdx n := by
  apply List.ext_getElem?
  intro i
  simp only [List.getElem?_take, List.getElem?_append, List.getElem?_drop, List.getElem?_eraseIdx,
    List.length_take, List.length_drop]
  split_ifs <;> first | rfl | omega | (congr 1; omega)

/-- One iteration of the loop of `Clean` keeps the live part of the backing
array a selection, in order, of the children at entry, and every object of the
heap a survivor of the child it was at entry. -/
theorem cleanStep_survives {R : Fields → Fields → Bool}
    (htrans : ∀ f1 f2 f3, R f1 f2 = true → R f2 f3 = true → R f1 f3 = true)
    {h : Nat} {cs : List Markup}
    (hrec : ∀ x : Markup, x.height ≤ h → ∀ x1 : Markup, x.Clean = .ok x1 → x1.survives R x = true)
    {st st1 : CleanState} {n : Nat}
    (hheight : ∀ x ∈ st.heap, x.height ≤ h)
    (hlen : st.len ≤ st.arr.length)
    (hsub : (st.arr.take st.len).Sublist (List.range cs.length))
    (hheap : List.Forall₂ (fun a b => a.survives R b = true) st.heap cs)
    (hs : cleanStep Markup.Clean st n = .ok st1) :
    st1.len ≤ st1.arr.length ∧ (st1.arr.take st1.len).Sublist (List.range cs.length) ∧
      List.Forall₂ (fun a b => a.survives R b = true) st1.heap cs := by
  unfold cleanStep at hs
  split at hs
  · cases hs
  · split at hs
    · cases hs
    · rename_i a _ elm helm
      split at hs
      · split at hs
        · cases hs
        · rename_i hlt
          cases hs
          have hn : n < st.len := by omega
          refine ⟨?_, ?_, hheap⟩
          · simp only [List.length_append, List.length_take, List.length_drop]
            omega
          · dsimp only
            rw [take_copy_eq_eraseIdx st.arr st.len n hn hlen]
            exact (List.eraseIdx_sublist _ _).trans hsub
      · split at hs
        · cases hs
        · rename_i elm1 hrec1
          cases hs
          refine ⟨hlen, hsub, forall2_set_left hheap helm ?_⟩
          intro c hc
          exact Markup.survives_trans htrans
            (hrec elm (hheight elm (List.getElem?_mem helm)) elm1 hrec1) hc

theorem cleanLoop_survives {R : Fields → Fields → Bool}
    (htrans : ∀ f1 f2 f3, R f1 f2 = true → R f2 f3 = true → R f1 f3 = true)
    {h : Nat} {cs : List Markup}
    (hrec : ∀ x : Markup, x.height ≤ h → ∀ x1 : Markup, x.Clean = .ok x1 → x1.survives R x = true) :
    ∀ (ns : List Nat) (st : CleanState) {st1 : CleanState},
    (∀ x ∈ st.heap, x.height ≤ h) → st.len ≤ st.arr.length →
    (st.arr.take st.len).Sublist (List.range cs.length) →
    List.Forall₂ (fun a b => a.survives R b = true) st.heap cs →
    cleanLoop Markup.Clean st ns = .ok st1 →
    (st1.arr.take st1.len).Sublist (List.range cs.length) ∧
      List.Forall₂ (fun a b => a.survives R b = true) st1.heap cs := by
  intro ns
  induction ns with
  | nil =>
    intro st st1 _ _ hsub hheap hl
    simp only [cleanLoop, Except.ok.injEq] at hl
    subst hl
    exact ⟨hsub, hheap⟩
  | cons n ns ih =>
    intro st st1 hheight hlen hsub hheap hl
    simp only [cleanLoop] at hl
    split at hl
    · cases hl
    · rename_i st2 hs
      obtain ⟨h1, h2, h3⟩ := cleanStep_survives htrans hrec hheight hlen hsub hheap hs
      exact ih st2
        (cleanStep_heap_bound (fun x y hx hxy => le_trans (Markup.Clean_height hxy) hx) hheight hs)
        h1 h2 h3 hl

theorem filterMap_range_getElem? {α : Type} (cs : List α) :
    (List.range cs.length).filterMap (cs[·]?) = cs := by
  have := filterMap_range_self cs
  rwa [List.take_of_length_le (by simp)] at this

theorem Markup.Clean_survives_of_height {R : Fields → Fields → Bool}
    (hrefl : ∀ f, R f f = true)
    (htrans : ∀ f1 f2 f3, R f1 f2 = true → R f2 f3 = true → R f1 f3 = true) :
    ∀ (k : Nat) (e : Markup), e.height ≤ k → ∀ e1, e.Clean = .ok e1 →
    e1.survives R e = true := by
  intro k
  induction k with
  | zero => intro e hle; exact absurd hle (Nat.not_le.mpr e.height_pos)
  | succ k ih =>
    intro e hle e1 hc
    rw [Markup.Clean_eq] at hc
    unfold cleanBody at hc
    dsimp only at hc
    split at hc
    · cases hc
    · rename_i st hl
      cases hc
      obtain ⟨hsub, hheap⟩ := cleanLoop_survives htrans ih (List.range e.children.length)
        ⟨List.range e.children.length, e.children.length, e.children⟩
        (fun x hx => by have := Markup.height_child hx; omega) (by simp)
        (List.take_sublist _ _) (forall2_refl_of_mem _ (fun c _ => Markup.survives_refl hrefl c)) hl
      rw [Markup.survives_iff, survivesList_iff]
      refine ⟨by simpa using hrefl _, ?_⟩
      rw [Markup.setChildren_children]
      have hlenheap : st.heap.length = e.children.length := hheap.length_eq
      have hsub2 : ((st.arr.take st.len).filterMap (st.heap[·]?)).Sublist st.heap := by
        have := hsub.filterMap (st.heap[·]?)
        rwa [← hlenheap, filterMap_range_getElem?] at this
      exact sublistForall2_of_sublist hsub2 hheap

/-- The method `Clean` only drops subtrees: every node of the cleaned tree is a
node of the tree at entry, at its place. -/
theorem Markup.Clean_survives {R : Fields → Fields → Bool} (hrefl : ∀ f, R f f = true)
    (htrans : ∀ f1 f2 f3, R f1 f2 = true → R f2 f3 = true → R f1 f3 = true)
    {e e1 : Markup} (h : e.Clean = .ok e1) : e1.survives R e = true :=
  Markup.Clean_survives_of_height hrefl htrans e.height e (le_refl _) e1 h

/-! ## What Reconcile writes -/

theorem sublistForall2_mono_of_mem {α : Type} {P Q : α → α → Prop} {l1 l2 : List α}
    (h : List.SublistForall₂ P l1 l2) :
    (∀ a b, b ∈ l2 → P a b → Q a b) → List.SublistForall₂ Q l1 l2 := by
  induction h with
  | nil => intro _; exact .nil
  | cons hab _ ih =>
    intro hPQ
    exact .cons (hPQ _ _ (List.mem_cons_self _ _) hab)
      (ih (fun a b hb => hPQ a b (List.mem_cons_of_mem _ hb)))
  | cons_right _ ih =>
    intro hPQ
    exact .cons_right (ih (fun a b hb => hPQ a b (List.mem_cons_of_mem _ hb)))

theorem Markup.survives_mono_of_height {R Q : Fields → Fields → Bool}
    (hRQ : ∀ f1 f, R f1 f = true → Q f1 f = true) : ∀ (k : Nat) (a b : Markup), b.height ≤ k →
    a.survives R b = true → a.survives Q b = true := by
  intro k
  induction k with
  | zero => intro a b hle; exact absurd hle (Nat.not_le.mpr b.height_pos)
  | succ k ih =>
    intro a b hle hab
    rw [Markup.survives_iff, survivesList_iff] at hab ⊢
    exact ⟨hRQ _ _ hab.1, sublistForall2_mono_of_mem hab.2
      (fun x y hy hxy => ih x y (by have := Markup.height_child hy; omega) hxy)⟩

/-- A relation on fields that allows more is satisfied by the same survivors. -/
theorem Markup.survives_mono {R Q : Fields → Fields → Bool}
    (hRQ : ∀ f1 f, R f1 f = true → Q f1 f = true) {a b : Markup}
    (hab : a.survives R b = true) : a.survives Q b = true :=
  Markup.survives_mono_of_height hRQ b.height a b (le_refl _) hab

theorem Fields.sameIdentity_of_markerOnly (f1 f : Fields) (h : Fields.markerOnly f1 f = true) :
    Fields.sameIdentity f1 f = true := by
  simp only [Fields.markerOnly, beq_iff_eq] at h
  simp only [Fields.sameIdentity, Bool.and_eq_true, beq_iff_eq]
  rw [h]
  exact ⟨rfl, rfl⟩

theorem forall2_of_map_eq {α β : Type} {P : α → α → Prop} (f : α → β) :
    ∀ (l1 l2 : List α), l1.map f = l2.map f → (∀ a ∈ l1, ∀ b, f a = f b → P a b) →
    List.Forall₂ P l1 l2 := by
  intro l1
  induction l1 with
  | nil =>
    intro l2 h _
    cases l2 with
    | nil => exact .nil
    | cons b l2 => simp at h
  | cons a l1 ih =>
    intro l2 h hP
    cases l2 with
    | nil => simp at h
    | cons b l2 =>
      simp only [List.map_cons, List.cons.injEq] at h
      exact .cons (hP a (List.mem_cons_self _ _) b h.1)
        (ih l2 h.2 (fun x hx => hP x (List.mem_cons_of_mem _ hx)))

/-- Two trees that agree apart from sink references: the one survives the
other with at most sinks written. -/
theorem Markup.survives_of_eraseSinks_eq : ∀ (k : Nat) (a : Markup), a.height ≤ k →
    ∀ b : Markup, a.eraseSinks = b.eraseSinks → a.survives Fields.markerOnly b = true := by
  intro k
  induction k with
  | zero => intro a hle; exact absurd hle (Nat.not_le.mpr a.height_pos)
  | succ k ih =>
    intro a hle b hab
    rw [Markup.eraseSinks_eq, Markup.eraseSinks_eq b] at hab
    simp only [Markup.mk.injEq] at hab
    rw [Markup.survives_iff, survivesList_iff]
    refine ⟨?_, sublistForall2_of_forall2 (forall2_of_map_eq Markup.eraseSinks _ _ hab.2
      (fun c hc d hcd => ih c (by have := Markup.height_child hc; omega) d hcd))⟩
    have h1 := hab.1
    simp only [Fields.markerOnly, beq_iff_eq]
    cases hfa : a.fields
    cases hfb : b.fields
    rw [hfa, hfb] at h1
    simp only [Fields.mk.injEq] at h1 ⊢
    simp [h1]

/-- The method `Remove` writes the removed marker of its receiver and nothing
else. -/
theorem Markup.Remove_survives (e : Markup) : e.Remove.survives Fields.markerOnly e = true := by
  have hkids : survivesList Fields.markerOnly e.children e.children = true := by
    rw [survivesList_iff]
    exact sublistForall2_of_forall2 (forall2_refl_of_mem _
      (fun c _ => Markup.survives_refl Fields.markerOnly_refl c))
  rw [Markup.survives_iff]
  unfold Markup.Remove
  split
  · exact ⟨by simp [Fields.markerOnly], by simpa using hkids⟩
  · exact ⟨Fields.markerOnly_refl _, hkids⟩

/-- The statements `och.Remove(); e.AddChild(och)`: the old child is visited
once, with at most its removed marker and sinks written, and the child list of
`e` is the list it was, followed by at most that child. -/
theorem walkRemove_survives {st st1 : WalkState} {och : Markup}
    (h : walkRemove st och = .ok st1) :
    ∃ ch1 app, st1.visited = st.visited ++ [ch1] ∧
      ch1.survives Fields.markerOnly och = true ∧
      st1.e.children = st.e.children ++ app := by
  unfold walkRemove at h
  split at h
  · cases h
  · rename_i e1 ochs log hadd
    cases h
    unfold Markup.AddChild at hadd
    split at hadd
    · simp only [Except.ok.injEq, Prod.mk.injEq] at hadd
      obtain ⟨he1, hochs, _⟩ := hadd
      subst he1 hochs
      exact ⟨och.Remove, [], rfl, och.Remove_survives, by simp⟩
    · obtain ⟨added, h1, h2, h3⟩ := addChildren_spec _ _ _ _ hadd
      cases added with
      | nil => simp at h3
      | cons ch1 rest =>
        cases rest with
        | cons _ _ => simp at h3
        | nil =>
          simp only [List.map_cons, List.map_nil, List.cons.injEq, and_true] at h3
          simp only [List.nil_append] at h1
          subst h1
          exact ⟨ch1, [ch1], rfl,
            Markup.survives_trans Fields.markerOnly_trans
              (Markup.survives_of_eraseSinks_eq _ _ (le_refl _) _ h3) och.Remove_survives, h2⟩

theorem Markup.grownFrom_iff (a b : Markup) :
    a.grownFrom b = true ↔
      Fields.identityOnly a.fields b.fields = true ∧
        grownFromList a.children b.children = true := by
  cases a; cases b; simp [Markup.grownFrom, Markup.fields, Markup.children]

theorem grownFromList_iff : ∀ (nc cs : List Markup),
    grownFromList cs nc = true ↔
      nc.length ≤ cs.length ∧
        ∀ (i : Nat) (c n : Markup), cs[i]? = some c → nc[i]? = some n →
          c.grownFrom n = true := by
  intro nc
  induction nc with
  | nil =>
    intro cs
    cases cs <;> simp [grownFromList]
  | cons n nc ih =>
    intro cs
    cases cs with
    | nil => simp [grownFromList]
    | cons c cs =>
      simp only [grownFromList, Bool.and_eq_true, ih cs, List.length_cons,
        Nat.add_le_add_iff_right]
      constructor
      · rintro ⟨h0, hlen, hrest⟩
        refine ⟨hlen, ?_⟩
        intro i c1 n1 hc hn
        cases i with
        | zero =>
          simp only [List.getElem?_cons_zero, Option.some.injEq] at hc hn
          subst hc hn
          exact h0
        | succ i =>
          simp only [List.getElem?_cons_succ] at hc hn
          exact hrest i c1 n1 hc hn
      · rintro ⟨hlen, hall⟩
        exact ⟨hall 0 c n (by simp) (by simp), hlen,
          fun i c1 n1 hc hn => hall (i + 1) c1 n1 (by simpa using hc) (by simpa using hn)⟩

theorem Fields.identityOnly_refl (f : Fields) : Fields.identityOnly f f = true := by
  simp [Fields.identityOnly]

theorem Markup.grownFrom_refl_of_height : ∀ (k : Nat) (a : Markup), a.height ≤ k →
    a.grownFrom a = true := by
  intro k
  induction k with
  | zero => intro a hle; exact absurd hle (Nat.not_le.mpr a.height_pos)
  | succ k ih =>
    intro a hle
    rw [Markup.grownFrom_iff, grownFromList_iff]
    refine ⟨Fields.identityOnly_refl _, le_refl _, ?_⟩
    intro i c n hc hn
    rw [hc] at hn
    cases hn
    exact ih c (by have := Markup.height_child (List.getElem?_mem hc); omega)

theorem Markup.grownFrom_refl (a : Markup) : a.grownFrom a = true :=
  Markup.grownFrom_refl_of_height a.height a (le_refl _)

theorem grownFromList_refl (cs : List Markup) : grownFromList cs cs = true := by
  rw [grownFromList_iff]
  refine ⟨le_refl _, ?_⟩
  intro i c n hc hn
  rw [hc] at hn
  cases hn
  exact c.grownFrom_refl

theorem grownFromList_append {cs nc : List Markup} (app : List Markup)
    (h : grownFromList cs nc = true) : grownFromList (cs ++ app) nc = true := by
  rw [grownFromList_iff] at h ⊢
  refine ⟨by simp only [List.length_append]; omega, ?_⟩
  intro i c n hc hn
  have hi : i < cs.length := lt_of_lt_of_le (List.getElem?_eq_some.mp hn).1 h.1
  rw [List.getElem?_append_left hi] at hc
  exact h.2 i c n hc hn

theorem grownFromList_set {cs nc : List Markup} {k : Nat} {nch nch1 : Markup}
    (h : grownFromList cs nc = true) (hk : nc[k]? = some nch)
    (hnew : nch1.grownFrom nch = true) : grownFromList (cs.set k nch1) nc = true := by
  rw [grownFromList_iff] at h ⊢
  refine ⟨by simpa using h.1, ?_⟩
  intro i c n hc hn
  by_cases hik : k = i
  · subst hik
    rw [hk] at hn
    cases hn
    have hi : k < cs.length := lt_of_lt_of_le (List.getElem?_eq_some.mp hk).1 h.1
    simp only [List.getElem?_set_self hi, Option.some.injEq] at hc
    subst hc
    exact hnew
  · rw [List.getElem?_set_ne hik] at hc
    exact h.2 i c n hc hn

/-- One iteration of the walk visits one old child, of which at most the
removed marker and sinks are written, and leaves the child list of the new
node the list it was at entry, position by position, followed by appended
children. -/
theorem walkStep_rel
    {rec : Markup → Markup → Except Abort (Bool × Markup × Markup × List SinkCall)}
    {nc : List Markup}
    (hrec : ∀ nch ∈ nc, ∀ (och : Markup) (c : Bool) (nch1 och1 : Markup) (log : List SinkCall),
      rec nch och = .ok (c, nch1, och1, log) →
      och1.survives Fields.markerOnly och = true ∧ nch1.grownFrom nch = true)
    {st st1 : WalkState} {n : Nat} {och : Markup}
    (hinv : grownFromList st.e.children nc = true)
    (h : walkStep rec nc st n och = .ok st1) :
    (∃ och1, st1.visited = st.visited ++ [och1] ∧ och1.survives Fields.markerOnly och = true) ∧
      grownFromList st1.e.children nc = true := by
  have hrem : ∀ {st2 : WalkState}, walkRemove st och = .ok st2 →
      (∃ och1, st2.visited = st.visited ++ [och1] ∧
        och1.survives Fields.markerOnly och = true) ∧
      grownFromList st2.e.children nc = true := by
    intro st2 h2
    obtain ⟨ch1, app, hv, hs, hc⟩ := walkRemove_survives h2
    exact ⟨⟨ch1, hv, hs⟩, by rw [hc]; exact grownFromList_append app hinv⟩
  unfold walkStep at h
  split at h
  · split at h
    · cases h
    · rename_i nch hnch
      split at h
      · exact hrem h
      · split at h
        · cases h
        · rename_i c nch1 och1 log hr
          cases h
          obtain ⟨h1, h2⟩ := hrec nch (List.getElem?_mem hnch) och c nch1 och1 log hr
          exact ⟨⟨och1, rfl, h1⟩, by simpa using grownFromList_set hinv hnch h2⟩
  · exact hrem h

/-- The walk visits each old child once, writing at most removed markers and
sinks in it, and leaves the child list of the new node the list it was at
entry, position by position, followed by appended children. -/
theorem walk_rel
    {rec : Markup → Markup → Except Abort (Bool × Markup × Markup × List SinkCall)}
    {nc : List Markup}
    (hrec : ∀ nch ∈ nc, ∀ (och : Markup) (c : Bool) (nch1 och1 : Markup) (log : List SinkCall),
      rec nch och = .ok (c, nch1, och1, log) →
      och1.survives Fields.markerOnly och = true ∧ nch1.grownFrom nch = true) :
    ∀ (olds : List Markup) (st : WalkState) (n : Nat) {st1 : WalkState},
    grownFromList st.e.children nc = true → walk rec nc st n olds = .ok st1 →
    (∃ more, st1.visited = st.visited ++ more ∧
      List.Forall₂ (fun a b => a.survives Fields.markerOnly b = true) more olds) ∧
      grownFromList st1.e.children nc = true := by
  intro olds
  induction olds with
  | nil =>
    intro st n st1 hinv h
    simp only [walk, Except.ok.injEq] at h
    subst h
    exact ⟨⟨[], by simp, .nil⟩, hinv⟩
  | cons och rest ih =>
    intro st n st1 hinv h
    simp only [walk] at h
    split at h
    · cases h
    · rename_i st2 hstep
      obtain ⟨⟨och1, hv, hs⟩, hinv2⟩ := walkStep_rel hrec hinv hstep
      obtain ⟨⟨more, hv1, hmore⟩, hinv1⟩ := ih st2 (n + 1) hinv2 h
      exact ⟨⟨och1 :: more, by rw [hv1, hv]; simp, .cons hs hmore⟩, hinv1⟩

theorem Markup.Reconcile_writes_of_height : ∀ (k : Nat) (e em : Markup), e.height ≤ k →
    ∀ (c : Bool) (e1 em1 : Markup) (log : List SinkCall),
    e.Reconcile em = .ok (c, e1, em1, log) →
    em1.survives Fields.markerOnly em = true ∧ e1.grownFrom e = true := by
  intro k
  induction k with
  | zero => intro e em hle; exact absurd hle (Nat.not_le.mpr e.height_pos)
  | succ k ih =>
    intro e em hle c e1 em1 log hr
    by_cases hn : e.Name = em.Name
    · obtain ⟨emc, hclean⟩ := Markup.Reconcile_ok_clean hn hr
      have hemc := Markup.Clean_survives Fields.markerOnly_refl Fields.markerOnly_trans hclean
      have hsame : ∀ (x : Markup), x.children = e.children →
          Fields.identityOnly x.fields e.fields = true → x.grownFrom e = true := by
        intro x hx hf
        rw [Markup.grownFrom_iff, hx]
        exact ⟨hf, grownFromList_refl _⟩
      by_cases ht : e.Name = "text"
      · rw [Markup.Reconcile_text hn ht hclean] at hr
        split at hr <;> cases hr <;>
          exact ⟨hemc, hsame _ (by simp) (by simp [Fields.identityOnly, Markup.SwapUID, Markup.SwapHash])⟩
      · by_cases hc : e.children = []
        · rw [Markup.Reconcile_no_children hn ht hclean hc] at hr
          split at hr
          · cases hr
            exact ⟨hemc, hsame _ (by simp) (by simp [Fields.identityOnly, Markup.SwapUID])⟩
          · split at hr <;> cases hr <;>
              exact ⟨hemc, hsame _ (by simp)
                (by simp [Fields.identityOnly, Markup.SwapUID, Markup.SwapHash])⟩
        · rw [Markup.Reconcile_walk hn ht hclean hc] at hr
          split at hr
          · cases hr
          · rename_i st hw
            have hf := walk_fields _ _ _ hw
            obtain ⟨⟨more, hv, hmore⟩, hkids⟩ := walk_rel
              (fun nch hnch och c nch1 och1 log hrr =>
                ih nch och (by have := Markup.height_child hnch; omega) c nch1 och1 log hrr)
              emc.children ⟨e.SwapUID emc.UID, [], false, []⟩ 0
              (by simpa using grownFromList_refl e.children) hw
            simp only [List.nil_append] at hv
            have hold : (emc.setChildren st.visited).survives Fields.markerOnly em = true := by
              refine Markup.survives_trans Fields.markerOnly_trans ?_ hemc
              rw [Markup.survives_iff, survivesList_iff]
              exact ⟨by simpa using Fields.markerOnly_refl _,
                by simpa [hv] using sublistForall2_of_forall2 hmore⟩
            have hnew : ∀ (x : Markup), x.children = st.e.children →
                Fields.identityOnly x.fields e.fields = true → x.grownFrom e = true := by
              intro x hx hfx
              rw [Markup.grownFrom_iff, hx]
              exact ⟨hfx, hkids⟩
            dsimp only at hr
            split at hr <;> cases hr
            · exact ⟨hold, hnew _ (by simp)
                (by simp [Fields.identityOnly, Markup.SwapHash, hf, Markup.SwapUID])⟩
            · exact ⟨hold, hnew _ rfl (by simp [Fields.identityOnly, hf, Markup.SwapUID])⟩
    · rw [Markup.Reconcile_of_name_ne hn] at hr
      cases hr
      exact ⟨Markup.survives_refl Fields.markerOnly_refl _, Markup.grownFrom_refl _⟩

/-- What `Reconcile` writes: in the old tree child lists, removed markers and
sinks; in the new tree uids, hashes and, by appending, child lists. -/
theorem Markup.Reconcile_writes {e em e1 em1 : Markup} {c : Bool} {log : List SinkCall}
    (hr : e.Reconcile em = .ok (c, e1, em1, log)) :
    em1.survives Fields.markerOnly em = true ∧ e1.grownFrom e = true :=
  Markup.Reconcile_writes_of_height e.height e em (le_refl _) c e1 em1 log hr

/-! ## Pairs that match at every level the walk reaches -/


theorem eraseIdentityList_eq_map (cs : List Markup) :
    eraseIdentityList cs = cs.map Markup.eraseIdentity := by
  induction cs with
  | nil => rfl
  | cons c cs ih => simp [eraseIdentityList, ih]

theorem Markup.eraseIdentity_eq (e : Markup) :
    e.eraseIdentity
      = .mk { e.fields with uid := "", hash := "" } (e.children.map Markup.eraseIdentity) := by
  cases e with
  | mk f cs =>
    simp [Markup.eraseIdentity, eraseIdentityList_eq_map, Markup.fields, Markup.children]

@[simp] theorem Markup.eraseIdentity_SwapUID (e : Markup) (u : String) :
    (e.SwapUID u).eraseIdentity = e.eraseIdentity := by
  cases e; simp [Markup.SwapUID, Markup.setFields, Markup.fields, Markup.eraseIdentity]

@[simp] theorem Markup.eraseIdentity_SwapHash (e : Markup) (u : String) :
    (e.SwapHash u).eraseIdentity = e.eraseIdentity := by
  cases e; simp [Markup.SwapHash, Markup.setFields, Markup.fields, Markup.eraseIdentity]

theorem Markup.setChildren_self (e : Markup) : e.setChildren e.children = e := by
  cases e; rfl

theorem Markup.matchedWith_eq (e em : Markup) :
    e.matchedWith em =
      if e.Name == "text" then true
      else
        match em.Clean with
        | .error _ => true
        | .ok emc =>
          decide (emc.children.length ≤ e.children.length) && matchedList e.children emc.children := by
  cases e; rfl

theorem matchedList_iff : ∀ (cs os : List Markup),
    matchedList cs os = true ↔
      ∀ (i : Nat) (c o : Markup), cs[i]? = some c → os[i]? = some o →
        c.Name = o.Name ∧ c.matchedWith o = true := by
  intro cs
  induction cs with
  | nil => intro os; simp [matchedList]
  | cons c cs ih =>
    intro os
    cases os with
    | nil => simp [matchedList]
    | cons o os =>
      simp only [matchedList, Bool.and_eq_true, beq_iff_eq, ih os]
      constructor
      · rintro ⟨⟨h1, h2⟩, hrest⟩ i c1 o1 hc ho
        cases i with
        | zero =>
          simp only [List.getElem?_cons_zero, Option.some.injEq] at hc ho
          subst hc ho
          exact ⟨h1, h2⟩
        | succ i =>
          simp only [List.getElem?_cons_succ] at hc ho
          exact hrest i c1 o1 hc ho
      · intro hall
        exact ⟨hall 0 c o (by simp) (by simp),
          fun i c1 o1 hc ho => hall (i + 1) c1 o1 (by simpa using hc) (by simpa using ho)⟩

/-- One iteration of the walk on a positional pair with the same tag name: the
recursive call is the only thing that happens. -/
theorem walkStep_matched
    {rec : Markup → Markup → Except Abort (Bool × Markup × Markup × List SinkCall)}
    {nc : List Markup} {st st1 : WalkState} {n : Nat} {och nch : Markup}
    (hnch : nc[n]? = some nch) (hname : nch.Name = och.Name)
    (hrec : ∀ (c : Bool) (nch1 och1 : Markup) (log : List SinkCall),
      rec nch och = .ok (c, nch1, och1, log) →
      och1.survives Fields.untouched och = true ∧ nch1.eraseIdentity = nch.eraseIdentity)
    (hinv : st.e.children.map Markup.eraseIdentity = nc.map Markup.eraseIdentity)
    (h : walkStep rec nc st n och = .ok st1) :
    (∃ och1, st1.visited = st.visited ++ [och1] ∧
      och1.survives Fields.untouched och = true) ∧
      st1.e.children.map Markup.eraseIdentity = nc.map Markup.eraseIdentity := by
  have hlt : n < nc.length := (List.getElem?_eq_some.mp hnch).1
  have hnames : (nch.Name != och.Name) = false := by simp [hname]
  unfold walkStep at h
  simp only [gt_iff_lt, hlt, ↓reduceIte, hnch, hnames, Bool.false_eq_true] at h
  split at h
  · cases h
  · rename_i c nch1 och1 log hr
    cases h
    obtain ⟨h1, h2⟩ := hrec c nch1 och1 log hr
    refine ⟨⟨och1, rfl, h1⟩, ?_⟩
    simp only [Markup.setChildren_children, List.map_set, hinv, h2]
    exact list_set_self _ _ _ (by simp [hnch])

/-- The walk over old children that all meet a new child of the same tag name
writes no field of an old child and leaves the child list of the new node the
list it was at entry, apart from uids and hashes. -/
theorem walk_matched
    {rec : Markup → Markup → Except Abort (Bool × Markup × Markup × List SinkCall)}
    {nc : List Markup} : ∀ (olds : List Markup) (st : WalkState) (n : Nat) {st1 : WalkState},
    (∀ (i : Nat) (och : Markup), olds[i]? = some och →
      ∃ nch, nc[n + i]? = some nch ∧ nch.Name = och.Name ∧
        ∀ (c : Bool) (nch1 och1 : Markup) (log : List SinkCall),
          rec nch och = .ok (c, nch1, och1, log) →
          och1.survives Fields.untouched och = true ∧ nch1.eraseIdentity = nch.eraseIdentity) →
    st.e.children.map Markup.eraseIdentity = nc.map Markup.eraseIdentity →
    walk rec nc st n olds = .ok st1 →
    (∃ more, st1.visited = st.visited ++ more ∧
      List.Forall₂ (fun a b => a.survives Fields.untouched b = true) more olds) ∧
      st1.e.children.map Markup.eraseIdentity = nc.map Markup.eraseIdentity := by
  intro olds
  induction olds with
  | nil =>
    intro st n st1 _ hinv h
    simp only [walk, Except.ok.injEq] at h
    subst h
    exact ⟨⟨[], by simp, .nil⟩, hinv⟩
  | cons och rest ih =>
    intro st n st1 hpairs hinv h
    simp only [walk] at h
    split at h
    · cases h
    · rename_i st2 hstep
      obtain ⟨nch, hnch, hname, hrec⟩ := hpairs 0 och (by simp)
      obtain ⟨⟨och1, hv, hs⟩, hinv2⟩ := walkStep_matched hnch hname hrec hinv hstep
      obtain ⟨⟨more, hv1, hmore⟩, hinv1⟩ := ih st2 (n + 1)
        (fun i o ho => by
          have := hpairs (i + 1) o (by simpa using ho)
          rwa [show n + (i + 1) = n + 1 + i by omega] at this)
        hinv2 h
      exact ⟨⟨och1 :: more, by rw [hv1, hv]; simp, .cons hs hmore⟩, hinv1⟩

/-- The walk returns when every old child meets a new child of the same tag
name and the recursive call on each such pair returns the old child as it
was: the old children are visited as they were. -/
theorem walk_matched_returns
    {rec : Markup → Markup → Except Abort (Bool × Markup × Markup × List SinkCall)}
    {nc : List Markup} : ∀ (olds : List Markup) (st : WalkState) (n : Nat),
    (∀ (i : Nat) (och : Markup), olds[i]? = some och →
      ∃ nch, nc[n + i]? = some nch ∧ nch.Name = och.Name ∧
        ∃ (c : Bool) (nch1 : Markup) (log : List SinkCall),
          rec nch och = .ok (c, nch1, och, log)) →
    ∃ st1, walk rec nc st n olds = .ok st1 ∧ st1.visited = st.visited ++ olds := by
  intro olds
  induction olds with
  | nil => intro st n _; exact ⟨st, rfl, by simp⟩
  | cons och rest ih =>
    intro st n hpairs
    obtain ⟨nch, hnch, hname, c, nch1, log, hr⟩ := hpairs 0 och (by simp)
    rw [Nat.add_zero] at hnch
    have hlt : n < nc.length := (List.getElem?_eq_some.mp hnch).1
    have hnames : (nch.Name != och.Name) = false := by simp [hname]
    have hstep : walkStep rec nc st n och = .ok
        { e := st.e.setChildren (st.e.children.set n nch1)
          visited := st.visited ++ [och]
          childChanged := st.childChanged || c
          log := st.log ++ log } := by
      unfold walkStep
      simp only [gt_iff_lt, hlt, ↓reduceIte, hnch, hnames, Bool.false_eq_true, hr]
    obtain ⟨st1, hw, hv⟩ := ih _ (n + 1)
      (fun i o ho => by
        have := hpairs (i + 1) o (by simpa using ho)
        rwa [show n + (i + 1) = n + 1 + i by omega] at this)
    refine ⟨st1, ?_, ?_⟩
    · simp only [walk, hstep]
      exact hw
    · rw [hv]; simp

/-- On a pair that matches at every level `Reconcile` never reaches
`och.Remove(); e.AddChild(och)`: no field of an old node and no child list of a
new node is written, and with no removed node below the old root the call
returns the old tree as it was. -/
theorem Markup.Reconcile_matched_of_height : ∀ (k : Nat) (e em : Markup), e.height ≤ k →
    e.matchedWith em = true →
    (∀ (c : Bool) (e1 em1 : Markup) (log : List SinkCall),
      e.Reconcile em = .ok (c, e1, em1, log) →
      em1.survives Fields.untouched em = true ∧ e1.eraseIdentity = e.eraseIdentity) ∧
    (em.noRemovedBelow = true →
      ∃ (c : Bool) (e1 : Markup) (log : List SinkCall), e.Reconcile em = .ok (c, e1, em, log)) := by
  intro k
  induction k with
  | zero => intro e em hle; exact absurd hle (Nat.not_le.mpr e.height_pos)
  | succ k ih =>
    intro e em hle hmatch
    by_cases hn : e.Name = em.Name
    · by_cases ht : e.Name = "text"
      · constructor
        · intro c e1 em1 log hr
          obtain ⟨emc, hclean⟩ := Markup.Reconcile_ok_clean hn hr
          have hemc := Markup.Clean_survives Fields.untouched_refl Fields.untouched_trans hclean
          rw [Markup.Reconcile_text hn ht hclean] at hr
          split at hr <;> cases hr <;> exact ⟨hemc, by simp⟩
        · intro hlive
          have hclean := Markup.Clean_of_noRemovedBelow em.height em (le_refl _) hlive
          rw [Markup.Reconcile_text hn ht hclean]
          split <;> exact ⟨_, _, _, rfl⟩
      · have hkids : ∀ emc, em.Clean = .ok emc →
            ∀ (i : Nat) (och : Markup), emc.children[i]? = some och →
              ∃ nch, e.children[i]? = some nch ∧ nch.Name = och.Name ∧
                nch.matchedWith och = true := by
          intro emc hclean i och hoch
          rw [Markup.matchedWith_eq] at hmatch
          simp only [beq_iff_eq, ht, ↓reduceIte, hclean, Bool.and_eq_true,
            decide_eq_true_eq] at hmatch
          have hi : i < e.children.length :=
            lt_of_lt_of_le (List.getElem?_eq_some.mp hoch).1 hmatch.1
          exact ⟨e.children[i], List.getElem?_eq_getElem hi,
            (matchedList_iff _ _).mp hmatch.2 i _ och (List.getElem?_eq_getElem hi) hoch⟩
        constructor
        · intro c e1 em1 log hr
          obtain ⟨emc, hclean⟩ := Markup.Reconcile_ok_clean hn hr
          have hemc := Markup.Clean_survives Fields.untouched_refl Fields.untouched_trans hclean
          by_cases hc : e.children = []
          · rw [Markup.Reconcile_no_children hn ht hclean hc] at hr
            split at hr
            · cases hr; exact ⟨hemc, by simp⟩
            · split at hr <;> cases hr <;> exact ⟨hemc, by simp⟩
          · rw [Markup.Reconcile_walk hn ht hclean hc] at hr
            split at hr
            · cases hr
            · rename_i st hw
              have hf := walk_fields _ _ _ hw
              obtain ⟨⟨more, hv, hmore⟩, hinv⟩ := walk_matched emc.children
                ⟨e.SwapUID emc.UID, [], false, []⟩ 0
                (fun i och hoch => by
                  obtain ⟨nch, hnch, hname, hm⟩ := hkids emc hclean i och hoch
                  refine ⟨nch, by simpa using hnch, hname, ?_⟩
                  intro c nch1 och1 log hrr
                  exact (ih nch och
                    (by have := Markup.height_child (List.getElem?_mem hnch); omega) hm).1
                    c nch1 och1 log hrr)
                (by simp) hw
              simp only [List.nil_append] at hv
              have hold : (emc.setChildren st.visited).survives Fields.untouched em = true := by
                refine Markup.survives_trans Fields.untouched_trans ?_ hemc
                rw [Markup.survives_iff, survivesList_iff]
                exact ⟨by simpa using Fields.untouched_refl _,
                  by simpa [hv] using sublistForall2_of_forall2 hmore⟩
              have hnew : st.e.eraseIdentity = e.eraseIdentity := by
                rw [Markup.eraseIdentity_eq, Markup.eraseIdentity_eq e, hinv, hf]
                simp [Markup.SwapUID]
              dsimp only at hr
              split at hr <;> cases hr
              · exact ⟨hold, by simpa using hnew⟩
              · exact ⟨hold, hnew⟩
        · intro hlive
          have hclean := Markup.Clean_of_noRemovedBelow em.height em (le_refl _) hlive
          by_cases hc : e.children = []
          · rw [Markup.Reconcile_no_children hn ht hclean hc]
            split
            · exact ⟨_, _, _, rfl⟩
            · split <;> exact ⟨_, _, _, rfl⟩
          · rw [Markup.Reconcile_walk hn ht hclean hc]
            obtain ⟨st, hw, hv⟩ := @walk_matched_returns Markup.Reconcile e.children em.children
              ⟨e.SwapUID em.UID, [], false, []⟩ 0
              (fun i och hoch => by
                obtain ⟨nch, hnch, hname, hm⟩ := hkids em hclean i och hoch
                refine ⟨nch, by simpa using hnch, hname, ?_⟩
                exact (ih nch och
                  (by have := Markup.height_child (List.getElem?_mem hnch); omega) hm).2
                  ((em.noRemovedBelow_iff.mp hlive) och (List.getElem?_mem hoch)).2)
            simp only [List.nil_append] at hv
            rw [hw]
            dsimp only
            rw [hv, Markup.setChildren_self]
            split <;> exact ⟨_, _, _, rfl⟩
    · rw [Markup.Reconcile_of_name_ne hn]
      constructor
      · intro c e1 em1 log hr
        cases hr
        exact ⟨Markup.survives_refl Fields.untouched_refl _, rfl⟩
      · intro _
        exact ⟨_, _, _, rfl⟩

/-! ## Claims C31 to C32 -/

/-- C31: on a pair of trees that matches at every level the walk reaches (the
old node as `Clean` leaves it has no more children than the new node, and
each positional child pair carries the same tag name), `Reconcile` queues
nothing for removal.  When the call returns, every node of the old tree is a
node the old tree had before, with every field as before, the removed marker
included; and the new tree is the tree it was apart from uids and hashes, so
that every child list of the new tree is the list it was.  When no node below
the old root was marked removed at entry, the call returns and the old tree
is the tree it was. -/
theorem Reconcile_matched_queues_nothing (e em : Markup) (hmatch : e.matchedWith em = true) :
    (∀ (c : Bool) (e1 em1 : Markup) (log : List SinkCall),
      e.Reconcile em = .ok (c, e1, em1, log) →
      em1.survives Fields.untouched em = true ∧ e1.eraseIdentity = e.eraseIdentity) ∧
    (em.noRemovedBelow = true →
      ∃ (c : Bool) (e1 : Markup) (log : List SinkCall),
        e.Reconcile em = .ok (c, e1, em, log) ∧ e1.eraseIdentity = e.eraseIdentity) := by
  have h := Markup.Reconcile_matched_of_height e.height e em (le_refl _) hmatch
  refine ⟨h.1, fun hlive => ?_⟩
  obtain ⟨c, e1, log, hr⟩ := h.2 hlive
  exact ⟨c, e1, log, hr, (h.1 c e1 em log hr).2⟩

/-- Instance of C31: the scenario `div > [span("a"), span("c")]` against
`div > [span("a"), span("b")]`.  The pair matches at every level; the root
reports changed, the old tree is returned as it was and the new tree differs
from what it was in uids and hashes only; the first `span` pair reports
unchanged and the new `span` carries the old hash `g2`, the second `span`
pair reports changed and the new `span` keeps its hash `h4`. -/
theorem Reconcile_matched_queues_nothing_witness :
    scenarioNew.matchedWith scenarioOld = true ∧
    scenarioNew.Reconcile scenarioOld = .ok (true, scenarioNewAfter, scenarioOld, []) ∧
    (scenarioOld.survives Fields.untouched scenarioOld = true ∧
      scenarioNewAfter.eraseIdentity = scenarioNew.eraseIdentity) ∧
    scenarioOld.noRemovedBelow = true ∧
    (∃ (c : Bool) (e1 : Markup) (log : List SinkCall),
      scenarioNew.Reconcile scenarioOld = .ok (c, e1, scenarioOld, log) ∧
        e1.eraseIdentity = scenarioNew.eraseIdentity) ∧
    (element "span" "s1" "h2" [textNode "t1" "h3" "a"]).Reconcile
        (element "span" "p1" "g2" [textNode "q1" "g3" "a"])
      = .ok (false, element "span" "p1" "g2" [textNode "q1" "g3" "a"],
          element "span" "p1" "g2" [textNode "q1" "g3" "a"], []) ∧
    (element "span" "s2" "h4" [textNode "t2" "h5" "c"]).Reconcile
        (element "span" "p2" "g4" [textNode "q2" "g5" "b"])
      = .ok (true, element "span" "p2" "h4" [textNode "q2" "h5" "c"],
          element "span" "p2" "g4" [textNode "q2" "g5" "b"], []) := by
  have hm : scenarioNew.matchedWith scenarioOld = true := by
    simp [scenarioNew, scenarioOld, element, textNode, Markup.matchedWith, matchedList,
      Markup.Clean, Markup.height, heightList, CleanFuel, cleanBody, cleanLoop, cleanStep,
      Markup.children, Markup.Removed, Markup.fields, Markup.setChildren, List.range,
      List.range.loop, Markup.Name]
  exact ⟨hm, scenario_Reconcile,
    (Reconcile_matched_queues_nothing scenarioNew scenarioOld hm).1 true scenarioNewAfter
      scenarioOld [] scenario_Reconcile,
    by decide,
    (Reconcile_matched_queues_nothing scenarioNew scenarioOld hm).2 (by decide),
    rfl, rfl⟩

/-- C32, as amended: when `newNode.Reconcile(oldNode)` returns, same tag or
not, every node of the old tree is a node the old tree had before, at its
place among the children that are left, with the uid and the hash it had.  Of
the fields of an old node at most the removed marker (the flag and the
attribute `NodeRemoved`) and the sink are written, and children are dropped
from its child list; of the fields of a new node at most the uid and the hash
are written, and its child list is the list it had, position by position,
followed by the old children that were queued for removal. -/
theorem Reconcile_keeps_old_identity (e em e1 em1 : Markup) (c : Bool) (log : List SinkCall)
    (hr : e.Reconcile em = .ok (c, e1, em1, log)) :
    em1.survives Fields.sameIdentity em = true ∧
    em1.survives Fields.markerOnly em = true ∧
    e1.grownFrom e = true := by
  obtain ⟨hold, hnew⟩ := Markup.Reconcile_writes hr
  exact ⟨Markup.survives_mono Fields.sameIdentity_of_markerOnly hold, hold, hnew⟩

/-- Instance of C32 as amended: new `div > [span]` against old
`div > [span (removed), p]`.  `Clean` drops the removed `span`, the `p` meets
the new `span`, is marked removed and appended to the new `div`; the old
`div` and the `p` keep their uids and hashes. -/
theorem Reconcile_keeps_old_identity_witness :
    (element "div" "n" "h1" [element "span" "s" "h2" []]).Reconcile
        (element "div" "o" "g1" [(element "span" "a" "g2" []).Remove, element "p" "q" "g3" []])
      = .ok (true,
          element "div" "o" "h1" [element "span" "s" "h2" [], (element "p" "q" "g3" []).Remove],
          element "div" "o" "g1" [(element "p" "q" "g3" []).Remove], []) ∧
    ((element "div" "o" "g1" [(element "p" "q" "g3" []).Remove]).survives Fields.sameIdentity
        (element "div" "o" "g1" [(element "span" "a" "g2" []).Remove, element "p" "q" "g3" []])
        = true ∧
      (element "div" "o" "g1" [(element "p" "q" "g3" []).Remove]).survives Fields.markerOnly
        (element "div" "o" "g1" [(element "span" "a" "g2" []).Remove, element "p" "q" "g3" []])
        = true ∧
      (element "div" "o" "h1"
        [element "span" "s" "h2" [], (element "p" "q" "g3" []).Remove]).grownFrom
        (element "div" "n" "h1" [element "span" "s" "h2" []]) = true) :=
  ⟨rfl, Reconcile_keeps_old_identity
    (element "div" "n" "h1" [element "span" "s" "h2" []])
    (element "div" "o" "g1" [(element "span" "a" "g2" []).Remove, element "p" "q" "g3" []])
    (element "div" "o" "h1" [element "span" "s" "h2" [], (element "p" "q" "g3" []).Remove])
    (element "div" "o" "g1" [(element "p" "q" "g3" []).Remove]) true [] rfl⟩

/-- C32 as stated fails: new `div > [span]`, bound to the sink `7`, against
old `div > [p]`.  The call writes more than uids and hashes in the new tree:
the child list of the new `div` holds one child before the call and two
after it, the old `p` being appended, so the new tree is not the tree it was
with other uids and hashes.  In the old tree the `p` is marked removed, gets
the attribute `NodeRemoved` appended and is bound to the sink `7`. -/
theorem Reconcile_appends_old_child_to_new_list :
    ((element "div" "n" "h1" [element "span" "s" "h2" []]).setEventManager (some 7)).Reconcile
        (element "div" "o" "g1" [element "p" "q" "g2" []])
      = .ok (true,
          (element "div" "o" "h1" [element "span" "s" "h2" [],
            (element "p" "q" "g2" []).Remove.setEventManager (some 7)]).setEventManager (some 7),
          element "div" "o" "g1" [(element "p" "q" "g2" []).Remove.setEventManager (some 7)],
          [.DisconnectRemoved 7, .DisconnectRemoved 7]) ∧
    ((element "div" "n" "h1" [element "span" "s" "h2" []]).setEventManager
      (some 7)).children.length = 1 ∧
    ((element "div" "o" "h1" [element "span" "s" "h2" [],
      (element "p" "q" "g2" []).Remove.setEventManager (some 7)]).setEventManager
        (some 7)).children.length = 2 ∧
    ((element "div" "o" "h1" [element "span" "s" "h2" [],
      (element "p" "q" "g2" []).Remove.setEventManager (some 7)]).setEventManager
        (some 7)).eraseIdentity
      ≠ ((element "div" "n" "h1" [element "span" "s" "h2" []]).setEventManager
        (some 7)).eraseIdentity ∧
    (element "p" "q" "g2" []).fields.eventManager = none ∧
    ((element "p" "q" "g2" []).Remove.setEventManager (some 7)).fields.eventManager = some 7 ∧
    ((element "p" "q" "g2" []).Remove.setEventManager (some 7)).Attributes
      = (element "p" "q" "g2" []).Attributes ++ [NewAttr "NodeRemoved" ""] :=
  ⟨rfl, rfl, rfl,
    fun h => absurd (congrArg (fun m => m.children.length) h) (by decide),
    rfl, rfl, rfl⟩

end trees
